import Mathlib

/-!
Verification of the PyPowerAutomate core against its specification.

This file gives a shallow embedding of the two core subsystems:

* the condition-expression compiler (module `actions/condition.py`):
  `tokenizer`, `infix_to_rpn`, `create_ast`, `ast_to_dict` and the
  `Condition` pipeline (called `compile` here, as in the spec);
* the action dependency-graph engine (modules `actions/actions.py`,
  `actions/base.py`): `BaseAction`, `SkeltonNode`, `Actions` with
  `add_top`, `add_after`, `append`, `copy_nodes`, `__deepcopy__`
  (cloning), `__add__` (merge) and `export`.

Modelling conventions:

* Python exceptions are modelled with `Except PyErr`; `ValueError`,
  `IndexError` and `KeyError` are separate constructors so that the kind
  of a failure is observable.
* Python floats are modelled as exact rationals (`PyFloat`); IEEE
  rounding and overflow-to-infinity are not modelled, which is harmless
  here because no claim inspects a concrete non-trivial float value.
* Python object identity is modelled with an explicit heap: a `Heap`
  holds a store of `Node` records indexed by allocation order, plus a
  counter that stands for the `uuid.uuid4()` source (all that matters
  about a uuid in the code is freshness, so uuids are modelled as the
  values of an increasing counter).
* Python `dict` is modelled as an association list with
  replace-or-append assignment; `set` (of next nodes) as a list with
  add-if-absent insertion (iteration order of a Python set is
  unspecified; the list refines it to insertion order).
-/

/-! ## Errors -/

/-- Python exception kinds raised by the embedded code. -/
inductive PyErr where
  | valueError (msg : String)
  | indexError (msg : String)
  | keyError (msg : String)
deriving Repr, DecidableEq

/-! ## Tokenizer (condition.py, `tokenizer`) -/

/-- The `operators` list of `tokenizer`. -/
def pyOperators : List String := ["!=", "==", ">=", "<=", ">", "<"]

/-- The `keywords` list of `tokenizer`. -/
def pyKeywords : List String := ["and", "or", "not", "true", "false"]

/-- Append the pending token to the token list if it is nonempty
(the `if token != ...: tokens.append(token)` idiom of `tokenizer`). -/
def flushTok (token : String) (tokens : List String) : List String :=
  if token = "" then tokens else tokens ++ [token]

/-- Digit characters recognised by the digits-and-dot branch. -/
def pyDigitChars : List Char :=
  ['0', '1', '2', '3', '4', '5', '6', '7', '8', '9', '.']

/-- One character as a string. -/
def str1 (c : Char) : String := ⟨[c]⟩

/-- Two characters as a string (the `s[i:i+2]` slice). -/
def str2 (a b : Char) : String := ⟨[a, b]⟩

/-- The main scanning loop of `tokenizer`, recursing on the remaining
characters (the Python loop advances an index `i`; position `i` onward
corresponds to the list argument). The accumulated current token and the
emitted token list are threaded through. The fuel argument makes the
recursion structural; every step consumes at least one character, so
fuel `length + 1` can never run out (proved in `tokLoop_no_fuel`). -/
def tokLoop : Nat → List Char → String → List String →
    Except PyErr (List String)
  | 0, _, _, _ => .error (.valueError "tokenizer recursion limit")
  | _ + 1, [], token, tokens => .ok (flushTok token tokens)
  | fuel + 1, c :: rest, token, tokens =>
    if c = ' ' then
      tokLoop fuel rest "" (flushTok token tokens)
    else if pyOperators.contains (str1 c) ||
        (match rest with
         | c2 :: _ => pyOperators.contains (str2 c c2)
         | [] => false) then
      -- operator = s[i:i+2] if the two-character slice is an operator else char
      (match rest with
       | c2 :: rest2 =>
         if pyOperators.contains (str2 c c2) then
           tokLoop fuel rest2 "" (flushTok token tokens ++ [str2 c c2])
         else
           tokLoop fuel rest "" (flushTok token tokens ++ [str1 c])
       | [] => tokLoop fuel [] "" (flushTok token tokens ++ [str1 c]))
    else if c = '(' || c = ')' then
      tokLoop fuel rest "" (flushTok token tokens ++ [str1 c])
    else if c = '\"' then
      -- end_of_string = s.find(quote, i + 1)
      (match rest.findIdx? (· = '\"') with
       | none => .error (.valueError "Unterminated string literal")
       | some j =>
         tokLoop fuel (rest.drop (j + 1)) ""
           (flushTok token tokens ++ [⟨'\"' :: rest.take (j + 1)⟩]))
    else if pyDigitChars.contains c then
      tokLoop fuel rest (token.push c) tokens
    else if c.isAlpha || c = '-' || c = '_' then
      let token' := token.push c
      if pyKeywords.contains token' &&
          (match rest with
           | [] => true
           | c2 :: _ => !c2.isAlphanum) then
        tokLoop fuel rest "" (tokens ++ [token'])
      else
        tokLoop fuel rest token' tokens
    else
      .error (.valueError ("Unknown character: " ++ str1 c))

/-- The function `tokenizer` of condition.py. -/
def tokenizer (s : String) : Except PyErr (List String) :=
  tokLoop (s.data.length + 1) s.data "" []

/-! ## Infix to RPN (condition.py, `infix_to_rpn`) -/

/-- The module-level `precedence` table of condition.py. -/
def precedence : List (String × Nat) :=
  [("==", 4), ("!=", 4), (">", 4), ("<", 4), (">=", 4), ("<=", 4),
   ("not", 3), ("and", 2), ("or", 1)]

/-- Membership test `token in precedence` (a Python dict membership is a
key membership). -/
def isPrecTok (t : String) : Bool := (precedence.lookup t).isSome

/-- Lookup `precedence[token]`, defined on the keys of the table. -/
def precOf (t : String) : Nat := (precedence.lookup t).getD 0

/-- The inner while loop of `infix_to_rpn` for an operator token: pop
operators of greater-or-equal precedence from the stack (top is the list
head) to the output queue. Returns the extended output and the remaining
stack. -/
def popOps (tokPrec : Nat) : List String → List String →
    (List String × List String)
  | out, [] => (out, [])
  | out, top :: rest =>
    if isPrecTok top && decide (tokPrec ≤ precOf top) then
      popOps tokPrec (out ++ [top]) rest
    else
      (out, top :: rest)

/-- The inner while loop of `infix_to_rpn` for a right parenthesis: pop
to output until the stack top is a left parenthesis or the stack is
empty. -/
def popUntilParen : List String → List String →
    (List String × List String)
  | out, [] => (out, [])
  | out, top :: rest =>
    if top = "(" then (out, top :: rest)
    else popUntilParen (out ++ [top]) rest

/-- The token loop of `infix_to_rpn`. The operator stack has its top at
the head. After a right parenthesis drains the stack to a left
parenthesis, the unconditional `operator_stack.pop()` raises IndexError
on an empty stack, exactly as a Python `list.pop()` does. -/
def rpnLoop : List String → List String → List String →
    Except PyErr (List String)
  | [], out, stack => .ok (out ++ stack)
  | tok :: toks, out, stack =>
    if isPrecTok tok then
      let (out', stack') := popOps (precOf tok) out stack
      rpnLoop toks out' (tok :: stack')
    else if tok = "(" then
      rpnLoop toks out (tok :: stack)
    else if tok = ")" then
      let (out', stack') := popUntilParen out stack
      match stack' with
      | [] => .error (.indexError "pop from empty list")
      | _ :: stack'' => rpnLoop toks out' stack''
    else
      rpnLoop toks (out ++ [tok]) stack

/-- The function `infix_to_rpn` of condition.py. -/
def infix_to_rpn (tokens : List String) : Except PyErr (List String) :=
  rpnLoop tokens [] []

/-! ## AST construction (condition.py, `create_ast`) -/

/-- AST nodes: the four `type` tags built by `create_ast`. -/
inductive Ast where
  | literal (value : String)
  | binary (op : String) (left right : Ast)
  | unary (op : String) (argument : Ast)
  | logical (op : String) (left right : Ast)
deriving Repr, DecidableEq

/-- The list of binary comparison operator tokens used in `create_ast`. -/
def comparisonOps : List String := ["==", "!=", ">", "<", ">=", "<="]

/-- The token loop of `create_ast`; the working stack of AST nodes has
its top at the head. -/
def astLoop : List String → List Ast → Except PyErr (List Ast)
  | [], stack => .ok stack
  | tok :: toks, stack =>
    if !(isPrecTok tok) && !(comparisonOps.contains tok) then
      astLoop toks (.literal tok :: stack)
    else if comparisonOps.contains tok then
      match stack with
      | right :: left :: stack' =>
        astLoop toks (.binary tok left right :: stack')
      | _ =>
        .error (.valueError
          ("Malformed expression: insufficient operands for operator " ++ tok))
    else if tok = "not" then
      match stack with
      | operand :: stack' => astLoop toks (.unary tok operand :: stack')
      | _ =>
        .error (.valueError
          ("Malformed expression: insufficient operand for operator " ++ tok))
    else
      match stack with
      | right :: left :: stack' =>
        astLoop toks (.logical tok left right :: stack')
      | _ =>
        .error (.valueError
          ("Malformed expression: insufficient operands for operator " ++ tok))

/-- The function `create_ast` of condition.py. -/
def create_ast (rpn : List String) : Except PyErr Ast := do
  let stack ← astLoop rpn []
  match stack with
  | [a] => .ok a
  | _ =>
    .error (.valueError
      "Malformed expression: the final stack contained more than one element")

/-! ## Python numeric literal parsing (the `int` and `float` builtins) -/

/-- Python floats, modelled exactly: a finite float is kept as the exact
rational value of its decimal source text. -/
inductive PyFloat where
  | finite (q : Rat)
  | infinite (neg : Bool)
  | nan
deriving Repr, DecidableEq

/-- Parse a nonempty run of decimal digits possibly separated by single
underscores (Python numeric literal digits), returning the value and the
number of digits. Start state after an initial digit. -/
def pyDigitsGo : List Char → Nat → Nat → Option (Nat × Nat)
  | [], acc, cnt => some (acc, cnt)
  | '_' :: c :: cs, acc, cnt =>
    if c.isDigit then pyDigitsGo cs (acc * 10 + (c.toNat - 48)) (cnt + 1)
    else none
  | ['_'], _, _ => none
  | c :: cs, acc, cnt =>
    if c.isDigit then pyDigitsGo cs (acc * 10 + (c.toNat - 48)) (cnt + 1)
    else none

/-- Parse a Python digit run (with underscores): value and digit count. -/
def pyDigits? : List Char → Option (Nat × Nat)
  | [] => none
  | c :: cs =>
    if c.isDigit then pyDigitsGo cs (c.toNat - 48) 1 else none

/-- Split off a leading sign character, returning (negative?, rest). -/
def splitSign : List Char → Bool × List Char
  | '-' :: cs => (true, cs)
  | '+' :: cs => (false, cs)
  | cs => (false, cs)

/-- The Python `int` builtin on a string (no surrounding whitespace,
which tokenizer output cannot contain): optional sign then underscored
digits. -/
def pyInt? (s : String) : Option Int :=
  let (neg, cs) := splitSign s.data
  match pyDigits? cs with
  | some (v, _) => some (if neg then -(v : Int) else (v : Int))
  | none => none

/-- Mantissa of a Python float literal: `digits [. [digits]]` or
`. digits`, as an exact rational. -/
def pyMantissa? (cs : List Char) : Option Rat :=
  match cs.splitOn '.' with
  | [intp] =>
    match pyDigits? intp with
    | some (v, _) => some (v : Rat)
    | none => none
  | [intp, fracp] =>
    match intp, fracp with
    | [], [] => none
    | [], _ =>
      match pyDigits? fracp with
      | some (fv, fc) => some ((fv : Rat) / ((10 : Rat) ^ fc))
      | none => none
    | _, [] =>
      match pyDigits? intp with
      | some (v, _) => some (v : Rat)
      | none => none
    | _, _ =>
      match pyDigits? intp, pyDigits? fracp with
      | some (v, _), some (fv, fc) =>
        some ((v : Rat) + (fv : Rat) / ((10 : Rat) ^ fc))
      | _, _ => none
  | _ => none

/-- The Python `float` builtin on a string: optional sign, then an
infinity or nan word (case-insensitive) or a decimal mantissa with an
optional exponent part. The value of a finite literal is kept exact. -/
def pyFloat? (s : String) : Option PyFloat :=
  let (neg, cs) := splitSign s.data
  let lowered : List Char := cs.map Char.toLower
  if lowered = "inf".data || lowered = "infinity".data then
    some (.infinite neg)
  else if lowered = "nan".data then
    some PyFloat.nan
  else
    match cs.splitOn 'e' with
    | [mant] =>
      (match cs.splitOn 'E' with
       | [_] =>
         (match pyMantissa? mant with
          | some q => some (.finite (if neg then -q else q))
          | none => none)
       | [mant2, exp2] => pyFloatExp neg mant2 exp2
       | _ => none)
    | [mant, exp] =>
      (match (mant ++ exp).splitOn 'E' with
       | [_] => pyFloatExp neg mant exp
       | _ => none)
    | _ => none
where
  /-- Combine a mantissa part and an exponent digit part. -/
  pyFloatExp (neg : Bool) (mant exp : List Char) : Option PyFloat :=
    match pyMantissa? mant with
    | none => none
    | some q =>
      let (eneg, ecs) := splitSign exp
      match pyDigits? ecs with
      | none => none
      | some (ev, _) =>
        let scaled : Rat :=
          if eneg then q / ((10 : Rat) ^ ev) else q * ((10 : Rat) ^ ev)
        some (.finite (if neg then -scaled else scaled))

/-! ## Expression lowering (condition.py, `ast_to_dict`) -/

/-- Values of the lowered nested-mapping representation: JSON-like
scalars plus the two mapping shapes `\x7bop: arg\x7d` (unary) and
`\x7bop: [left, right]\x7d` (binary). -/
inductive CVal where
  | vbool (b : Bool)
  | vstr (s : String)
  | vint (n : Int)
  | vfloat (f : PyFloat)
  | dict1 (op : String) (arg : CVal)
  | dict2 (op : String) (left right : CVal)
deriving Repr, DecidableEq

/-- The module-level `operator_mapping` table of condition.py. -/
def operator_mapping : List (String × String) :=
  [("==", "equals"), (">=", "greaterOrEquals"), ("<=", "lessOrEquals"),
   (">", "greater"), ("<", "less"), ("and", "and"), ("or", "or"),
   ("not", "not"), ("!=", "not_equals")]

/-- A single quote character, used in variable-reference strings. -/
def sqChar : Char := Char.ofNat 39

/-- The variable-reference expression string emitted for an identifier
(the f-string with the identifier wrapped in single quotes). -/
def vref (v : String) : String :=
  "@variables(" ++ str1 sqChar ++ v ++ str1 sqChar ++ ")"

/-- The Literal branch of `ast_to_dict`: coerce the raw token text to a
boolean, quoted string, number, or variable reference, in that order. -/
def literalValue (value : String) : CVal :=
  if value = "true" then .vbool true
  else if value = "false" then .vbool false
  else if value.data.contains '\"' then
    -- value.replace removes every double quote character
    .vstr ⟨value.data.filter (fun c => c ≠ '\"')⟩
  else if value.data.contains '.' then
    match pyFloat? value with
    | some f => .vfloat f
    | none => .vstr (vref value)
  else
    match pyInt? value with
    | some n => .vint n
    | none => .vstr (vref value)

/-- Lookup `operator_mapping[op]`; a missing key is a Python KeyError. -/
def opLookup (op : String) : Except PyErr String :=
  match operator_mapping.lookup op with
  | some v => .ok v
  | none => .error (.keyError op)

/-- The function `ast_to_dict` of condition.py. The BinaryExpression and
LogicalExpression branches are the single `elif` branch of the source;
the mapped operator `not_equals` is special-cased into a nested
not-equals shape. -/
def ast_to_dict : Ast → Except PyErr CVal
  | .literal v => .ok (literalValue v)
  | .unary op arg => do
    let opName ← opLookup op
    let a ← ast_to_dict arg
    .ok (.dict1 opName a)
  | .binary op l r => do
    let opName ← opLookup op
    let lv ← ast_to_dict l
    let rv ← ast_to_dict r
    if opName = "not_equals" then
      .ok (.dict1 "not" (.dict2 "equals" lv rv))
    else
      .ok (.dict2 opName lv rv)
  | .logical op l r => do
    let opName ← opLookup op
    let lv ← ast_to_dict l
    let rv ← ast_to_dict r
    if opName = "not_equals" then
      .ok (.dict1 "not" (.dict2 "equals" lv rv))
    else
      .ok (.dict2 opName lv rv)

/-- The full compiler pipeline: `Condition.__init__` followed by
`Condition.export` (tokenize, convert to RPN, build the AST, lower). -/
def compile (s : String) : Except PyErr CVal := do
  let tokens ← tokenizer s
  let rpn ← infix_to_rpn tokens
  let ast ← create_ast rpn
  ast_to_dict ast

/-! ## Decimal printing of naturals (f-string numeric suffixes) -/

/-- Big-endian decimal digit characters of a positive natural; fuel-based
so that the definition is structural (fuel `n` suffices for `n ≥ 1`). -/
def natStrAux : Nat → Nat → List Char
  | 0, _ => []
  | fuel + 1, n => if n = 0 then [] else natStrAux fuel (n / 10) ++ [Nat.digitChar (n % 10)]

/-- Decimal representation of a natural number, as Python prints it. -/
def natStr (n : Nat) : String :=
  if n = 0 then "0" else ⟨natStrAux n n⟩

/-! ## The action node heap (base.py) -/

/-- One `BaseAction` object (including the `SkeltonNode` subclass and the
restricted `InitVariableAction` subclass, distinguished by flags). The
`type` attribute is called `atype` (`type` is reserved in Lean); the
operation-specific constructor fields (`inputs` and friends) are
collected into one opaque `payload` string; `metadata` holds only the
`operationMetadataId` entry, modelled as the `metadataId` counter value.
`next_nodes` is a Python set of object references, modelled as a
duplicate-free list of heap ids in insertion order. -/
structure Node where
  action_name : String
  atype : String
  runafter : List (String × List String)
  metadataId : Nat
  next_nodes : List Nat
  have_parent_node : Bool
  isSkelton : Bool
  isInitVariable : Bool
  payload : String
deriving Repr, DecidableEq, Inhabited

/-- The object heap: Python objects are identified by their allocation
index into `store`. `uuidCounter` models the `uuid.uuid4()` source; the
only property of uuids the code relies on is freshness, so each call
returns the next counter value. -/
structure Heap where
  store : List Node
  uuidCounter : Nat
deriving Repr, DecidableEq, Inhabited

/-- Dereference a heap id. -/
def Heap.get (h : Heap) (id : Nat) : Node := h.store.getD id default

/-- Overwrite the object at a heap id (an attribute mutation). -/
def Heap.set (h : Heap) (id : Nat) (n : Node) : Heap :=
  { h with store := h.store.set id n }

/-- Python dict assignment `d[k] = v`: replace the binding in place if
the key is present, otherwise append a new binding. -/
def dictSet {α : Type} (d : List (String × α)) (k : String) (v : α) :
    List (String × α) :=
  match d with
  | [] => [(k, v)]
  | (k', v') :: rest =>
    if k' = k then (k, v) :: rest else (k', v') :: dictSet rest k v

/-- `BaseAction.__init__` (as completed by a concrete subclass setting
the type tag and payload): allocate a fresh node with empty runafter,
empty child set, no parent, and a fresh `operationMetadataId`. -/
def mkAction (h : Heap) (name atype payload : String) (isInit : Bool) :
    Nat × Heap :=
  (h.store.length,
   { store := h.store ++
       [{ action_name := name, atype := atype, runafter := [],
          metadataId := h.uuidCounter, next_nodes := [],
          have_parent_node := false, isSkelton := false,
          isInitVariable := isInit, payload := payload }],
     uuidCounter := h.uuidCounter + 1 })

/-- `SkeltonNode.__init__`: a plain `BaseAction.__init__` with the
skeleton marker. -/
def mkSkelton (h : Heap) (name : String) : Nat × Heap :=
  (h.store.length,
   { store := h.store ++
       [{ action_name := name, atype := "", runafter := [],
          metadataId := h.uuidCounter, next_nodes := [],
          have_parent_node := false, isSkelton := true,
          isInitVariable := false, payload := "" }],
     uuidCounter := h.uuidCounter + 1 })

/-- `BaseAction.__deepcopy__` (and hence `BaseAction.clone`): allocate a
new object of the same class with all attributes copied, then a fresh
`operationMetadataId`, empty runafter, empty child set and cleared
parent flag. -/
def cloneNode (h : Heap) (src : Nat) : Nat × Heap :=
  let cl : Node :=
    { h.get src with
      metadataId := h.uuidCounter
      runafter := []
      next_nodes := []
      have_parent_node := false }
  (h.store.length,
   { store := h.store ++ [cl], uuidCounter := h.uuidCounter + 1 })

/-- `BaseAction.add_next_action`: add a child reference to the set of
next nodes (a set add is a no-op when already present). -/
def addNextAction (h : Heap) (parent child : Nat) : Heap :=
  let p := h.get parent
  if p.next_nodes.contains child then h
  else h.set parent { p with next_nodes := p.next_nodes ++ [child] }

/-- The state list computed by `BaseAction.update_runafter`: the forced
list when `force_exec`, else the failure list when `exec_if_failed`,
else the default. -/
def stateList (force_exec exec_if_failed : Bool) : List String :=
  if force_exec then ["Succeeded", "Failed", "Skipped", "TimedOut"]
  else if exec_if_failed then ["Failed"]
  else ["Succeeded"]

/-- `BaseAction.update_runafter`: a skeleton parent empties the runafter
map, any other parent gets a dict entry keyed by its action name. -/
def updateRunafter (h : Heap) (node parent : Nat)
    (force_exec exec_if_failed : Bool) : Heap :=
  let n := h.get node
  if (h.get parent).isSkelton then
    h.set node { n with runafter := [] }
  else
    let ra := dictSet n.runafter (h.get parent).action_name
      (stateList force_exec exec_if_failed)
    h.set node { n with runafter := ra }

/-! ## The Actions container (actions.py) -/

/-- The `Actions` object state: the root sentinel id, the last-appended
id, the root-level flag, and the name registry `nodes` (a Python dict in
insertion order). -/
structure ActionsG where
  root_node : Nat
  last_update_node : Nat
  is_root_actions : Bool
  nodes : List (String × Nat)
deriving Repr, DecidableEq, Inhabited

/-- Registry values (`self.nodes.values()`), the object ids. -/
def regIds (g : ActionsG) : List Nat := g.nodes.map Prod.snd

/-- Registry keys (`self.nodes` as a dict of names). -/
def regKeys (g : ActionsG) : List String := g.nodes.map Prod.fst

/-- `Actions.__init__`: allocate the root skeleton and register it under
the name root. -/
def mkActions (h : Heap) (is_root : Bool) : ActionsG × Heap :=
  let (rid, h') := mkSkelton h "root"
  ({ root_node := rid, last_update_node := rid, is_root_actions := is_root,
     nodes := [("root", rid)] }, h')

/-- The while loop of `Actions.__validate_action` that disambiguates a
colliding name by an incrementing numeric suffix; `counter` and the
current candidate are threaded, fuel makes it structural (fuel
`keys.length + 2` always suffices, see `renameFrom_not_mem`). -/
def renameFrom (keys : List String) (original : String) :
    Nat → Nat → String → String
  | 0, _, cur => cur
  | fuel + 1, counter, cur =>
    if keys.contains cur then
      renameFrom keys original fuel (counter + 1)
        (original ++ "_" ++ natStr counter)
    else cur

/-- The net renaming effect of the collision loop on a node name. -/
def pyRename (keys : List String) (name : String) : String :=
  renameFrom keys name (keys.length + 2) 1 name

/-- `Actions.__validate_action`: four checks in source order, then the
name-collision rename, applied as a mutation of the node. On success
returns the updated heap. -/
def validateAction (g : ActionsG) (h : Heap) (new : Nat)
    (prev : Option Nat) : Except PyErr Heap :=
  if (regIds g).contains new then
    .error (.valueError "already exists in Actions")
  else if (h.get new).have_parent_node then
    .error (.valueError "already have a parent Actions")
  else if (match prev with
           | some p => !((regIds g).contains p)
           | none => false) then
    .error (.valueError "not in Actions")
  else if !g.is_root_actions && (h.get new).isInitVariable then
    .error (.valueError "cannot be set into non-root Actions")
  else
    .ok (h.set new
      { (h.get new) with
        action_name := pyRename (regKeys g) (h.get new).action_name })

/-- `Actions.add_top`: validate, link under the root sentinel, set the
parent flag, set the runafter entry (empty, because the parent is the
sentinel), move `last_update_node`, register. -/
def ActionsG.add_top (g : ActionsG) (h : Heap) (new : Nat) :
    Except PyErr (ActionsG × Heap) := do
  let h ← validateAction g h new none
  let h := addNextAction h g.root_node new
  let h := h.set new { (h.get new) with have_parent_node := true }
  let h := updateRunafter h new g.root_node false false
  let reg := dictSet g.nodes (h.get new).action_name new
  .ok ({ g with last_update_node := new, nodes := reg }, h)

/-- `Actions.add_after`: validate (with the reference node), link under
`prev`, set the parent flag, set the runafter entry from the flags, move
`last_update_node`, register. -/
def add_after (g : ActionsG) (h : Heap) (new prev : Nat)
    (force_exec exec_if_failed : Bool) : Except PyErr (ActionsG × Heap) := do
  let h ← validateAction g h new (some prev)
  let h := addNextAction h prev new
  let h := h.set new { (h.get new) with have_parent_node := true }
  let h := updateRunafter h new prev force_exec exec_if_failed
  let reg := dictSet g.nodes (h.get new).action_name new
  .ok ({ g with last_update_node := new, nodes := reg }, h)

/-- `Actions.append`: like `add_after` with the current
`last_update_node` as the reference node, except that validation is
called without a reference node. -/
def appendAction (g : ActionsG) (h : Heap) (new : Nat)
    (force_exec exec_if_failed : Bool) : Except PyErr (ActionsG × Heap) := do
  let h ← validateAction g h new none
  let h := addNextAction h g.last_update_node new
  let h := h.set new { (h.get new) with have_parent_node := true }
  let h := updateRunafter h new g.last_update_node force_exec exec_if_failed
  let reg := dictSet g.nodes (h.get new).action_name new
  .ok ({ g with last_update_node := new, nodes := reg }, h)

/-! ## Cloning (actions.py `copy_nodes`, `__deepcopy__`, `clone`) -/

/-- The child loop of `Actions.copy_nodes`: recursively copy each child
by `rec`, linking the copies under the new node. -/
def copyChildrenWith (rec : Heap → Nat → Option (Nat × Heap)) :
    List Nat → Nat → Heap → Option (Nat × Heap)
  | [], nid, h => some (nid, h)
  | c :: cs, nid, h =>
    match rec h c with
    | none => none
    | some (cid, h') => copyChildrenWith rec cs nid (addNextAction h' nid cid)

/-- `Actions.copy_nodes`: clone a node and recursively its whole
subtree. Fuel bounds the recursion depth (the Python recursion
terminates because the node structure is a tree). -/
def copy_nodes : Nat → Heap → Nat → Option (Nat × Heap)
  | 0, _, _ => none
  | fuel + 1, h, src =>
    let (nid, h1) := cloneNode h src
    copyChildrenWith (copy_nodes fuel) ((h1.get src).next_nodes) nid h1

/-- The worklist loop of `Actions.__deepcopy__`: pop a (node, parent)
pair, re-insert the node under its parent (no insertion for the root,
whose parent is `None`), then push the children. The Python list used as
a stack pushes and pops at the end; here the top is the list head, so
pushing the children in iteration order is a left fold of cons. -/
def rebuildLoop : Nat → List (Nat × Option Nat) → ActionsG → Heap →
    Except PyErr (ActionsG × Heap)
  | 0, _, _, _ => .error (.valueError "rebuild recursion limit")
  | _ + 1, [], g, h => .ok (g, h)
  | fuel + 1, (child, parent?) :: stack, g, h => do
    let (g, h) ← match parent? with
      | some p => add_after g h child p false false
      | none => .ok (g, h)
    let stack := ((h.get child).next_nodes).foldl
      (fun st c => (c, some child) :: st) stack
    rebuildLoop fuel stack g h

/-- `Actions.__deepcopy__` (the body of `Actions.clone`): structurally
copy the node tree, build an empty container (whose own fresh sentinel
is immediately discarded, as in the source), re-insert every copied node
via the worklist, and re-resolve `last_update_node` by name (a missing
name would be a Python KeyError). -/
def deepcopyActions (h : Heap) (g : ActionsG) :
    Except PyErr (ActionsG × Heap) :=
  match copy_nodes (h.store.length + 1) h g.root_node with
  | none => .error (.valueError "copy recursion limit")
  | some (newRoot, h1) =>
    let (gtmp, h2) := mkActions h1 g.is_root_actions
    let g1 : ActionsG :=
      { gtmp with root_node := newRoot, nodes := [("root", newRoot)] }
    match rebuildLoop (h2.store.length + 1) [(newRoot, none)] g1 h2 with
    | .error e => .error e
    | .ok (g2, h3) =>
      match g2.nodes.lookup (h3.get g.last_update_node).action_name with
      | some lid => .ok ({ g2 with last_update_node := lid }, h3)
      | none => .error (.keyError "last_update_node name")

/-! ## Merge (actions.py `Actions.__add__` with an Actions operand) -/

/-- The worklist loop of `Actions.__add__`: pop an (original node of the
right operand, parent in the merged graph) pair, clone it, push its
children (a skeleton pushes them under the current `last_update_node`,
any other node pushes them under its own clone), then insert the clone
under the parent unless it is the skeleton. A non-skeleton node with no
parent would dereference `None` in Python. -/
def mergeLoop : Nat → List (Nat × Option Nat) → ActionsG → Heap →
    Except PyErr (ActionsG × Heap)
  | 0, _, _, _ => .error (.valueError "merge recursion limit")
  | _ + 1, [], g, h => .ok (g, h)
  | fuel + 1, (child, parent?) :: stack, g, h =>
    let (newChild, h) := cloneNode h child
    let isSkel := (h.get child).isSkelton
    let stack := ((h.get child).next_nodes).foldl
      (fun st c =>
        (c, some (if isSkel then g.last_update_node else newChild)) :: st)
      stack
    if isSkel then
      mergeLoop fuel stack g h
    else
      match parent? with
      | none => .error (.valueError "prev_action is None")
      | some p => do
        let (g, h) ← add_after g h newChild p false false
        mergeLoop fuel stack g h

/-- `Actions.__add__` on two Actions: clone the left operand, OR the
root flags, then splice in a clone of every non-sentinel node of the
right operand via the worklist. -/
def addActions (h : Heap) (a b : ActionsG) :
    Except PyErr (ActionsG × Heap) := do
  let (g, h') ← deepcopyActions h a
  let g := { g with is_root_actions := g.is_root_actions || b.is_root_actions }
  mergeLoop (h'.store.length + 1) [(b.root_node, none)] g h'

/-! ## Export (actions.py `Actions.export`) -/

/-- The dictionary a concrete action subclass `export()` returns:
metadata (the operation metadata id), the type tag, the runAfter map and
the remaining payload fields. -/
structure ExportNode where
  metadataId : Nat
  atype : String
  runAfter : List (String × List String)
  payload : String
deriving Repr, DecidableEq

/-- A single `node.export()` call. -/
def exportNode (n : Node) : ExportNode :=
  { metadataId := n.metadataId, atype := n.atype, runAfter := n.runafter,
    payload := n.payload }

/-- `Actions.export`: every registry value except skeletons, keyed by
action name. -/
def exportActions (g : ActionsG) (h : Heap) : List (String × ExportNode) :=
  g.nodes.foldl
    (fun d kv =>
      if (h.get kv.2).isSkelton then d
      else dictSet d (h.get kv.2).action_name (exportNode (h.get kv.2)))
    []

/-! ## Supporting lemmas: lookups and token classes -/

/-- A lookup succeeds exactly on the keys of an association list. -/
theorem lookup_isSome_iff_mem {α : Type} (l : List (String × α)) (k : String) :
    (l.lookup k).isSome = true ↔ k ∈ l.map Prod.fst := by
  induction l with
  | nil => simp [List.lookup]
  | cons hd tl ih =>
    obtain ⟨a, b⟩ := hd
    by_cases hk : k = a
    · subst hk; simp [List.lookup]
    · have hb : (k == a) = false := beq_eq_false_iff_ne.mpr hk
      simp [List.lookup, hb, hk, ih]

/-- An operator token of the precedence table is one of the nine listed
operators. -/
theorem isPrecTok_cases (tok : String) (h : isPrecTok tok = true) :
    tok ∈ ["==", "!=", ">", "<", ">=", "<=", "not", "and", "or"] := by
  have := (lookup_isSome_iff_mem precedence tok).mp h
  simpa [precedence] using this


/-! ## C3 support: the right-parenthesis branch of the Shunting Yard -/

/-- Step equation of `rpnLoop` for a precedence-table operator. -/
theorem rpnLoop_cons_prec (tok : String) (ts out stack : List String)
    (h : isPrecTok tok = true) :
    rpnLoop (tok :: ts) out stack =
      rpnLoop ts (popOps (precOf tok) out stack).1
        (tok :: (popOps (precOf tok) out stack).2) := by
  simp [rpnLoop, h]

/-- Step equation of `rpnLoop` for a left parenthesis. -/
theorem rpnLoop_cons_lparen (ts out stack : List String) :
    rpnLoop ("(" :: ts) out stack = rpnLoop ts out ("(" :: stack) := by
  have h : isPrecTok "(" = false := by decide
  simp [rpnLoop, h]

/-- Step equation of `rpnLoop` for a right parenthesis that empties the
stack: the bare pop raises. -/
theorem rpnLoop_cons_rparen_err (ts out stack : List String)
    (h : (popUntilParen out stack).2 = []) :
    rpnLoop (")" :: ts) out stack =
      .error (.indexError "pop from empty list") := by
  have h1 : isPrecTok ")" = false := by decide
  rcases hp : popUntilParen out stack with ⟨o2, s2⟩
  rw [hp] at h; subst h
  simp [rpnLoop, hp, h1]

/-- Step equation of `rpnLoop` for a right parenthesis whose drain
leaves a nonempty stack: the top (a left parenthesis) is discarded. -/
theorem rpnLoop_cons_rparen (ts out stack out' : List String)
    (top : String) (rest : List String)
    (h : popUntilParen out stack = (out', top :: rest)) :
    rpnLoop (")" :: ts) out stack = rpnLoop ts out' rest := by
  have h1 : isPrecTok ")" = false := by decide
  simp [rpnLoop, h, h1]

/-- Step equation of `rpnLoop` for a plain operand token. -/
theorem rpnLoop_cons_operand (tok : String) (ts out stack : List String)
    (h1 : isPrecTok tok = false) (h2 : tok ≠ "(") (h3 : tok ≠ ")") :
    rpnLoop (tok :: ts) out stack = rpnLoop ts (out ++ [tok]) stack := by
  simp [rpnLoop, h1, h2, h3]

/-- `popOps` removes only precedence-table operators from the stack, so
it preserves the number of left parentheses. -/
theorem popOps_count_paren (tp : Nat) :
    ∀ (stack out : List String),
      (popOps tp out stack).2.count "(" = stack.count "(" := by
  intro stack
  induction stack with
  | nil => intro out; simp [popOps]
  | cons top rest ih =>
    intro out
    by_cases htop : isPrecTok top = true ∧ decide (tp ≤ precOf top) = true
    · have hne : top ≠ "(" := by
        intro he; subst he; exact absurd htop.1 (by decide)
      simp [popOps, htop.1, htop.2, ih, List.count_cons, hne]
    · rcases not_and_or.mp htop with hc | hc <;>
        simp [popOps, Bool.eq_false_iff.mpr hc, List.count_cons]

/-- When the stack holds no left parenthesis, draining it for a right
parenthesis empties it completely. -/
theorem popUntilParen_of_no_paren :
    ∀ (stack out : List String), stack.count "(" = 0 →
      (popUntilParen out stack).2 = [] := by
  intro stack
  induction stack with
  | nil => intro out _; simp [popUntilParen]
  | cons top rest ih =>
    intro out hc
    have hne : top ≠ "(" := by
      intro he; subst he; simp [List.count_cons] at hc
    have hr : rest.count "(" = 0 := by
      simpa [List.count_cons, hne] using hc
    simp [popUntilParen, hne, ih _ hr]

/-- When the stack holds a left parenthesis, draining it for a right
parenthesis stops at the first one, leaving one fewer on the stack. -/
theorem popUntilParen_of_paren :
    ∀ (stack out : List String), 0 < stack.count "(" →
      ∃ out' rest, popUntilParen out stack = (out', "(" :: rest) ∧
        rest.count "(" + 1 = stack.count "(" := by
  intro stack
  induction stack with
  | nil => intro out hc; simp at hc
  | cons top rest ih =>
    intro out hc
    by_cases hne : top = "("
    · subst hne
      refine ⟨out, rest, by simp [popUntilParen], ?_⟩
      simp [List.count_cons]
    · have hr : 0 < rest.count "(" := by
        simpa [List.count_cons, hne] using hc
      obtain ⟨out', rest', heq, hcnt⟩ := ih (out ++ [top]) hr
      refine ⟨out', rest', by simp [popUntilParen, hne, heq], ?_⟩
      rw [hcnt]
      simp [List.count_cons, hne]

/-- Counting a distinct element over a cons. -/
theorem count_cons_ne (tok a : String) (l : List String) (h : tok ≠ a) :
    (tok :: l).count a = l.count a := by
  simp [List.count_cons, h]

/-- Counting the equal element over a cons. -/
theorem count_cons_self' (a : String) (l : List String) :
    (a :: l).count a = l.count a + 1 := by
  simp [List.count_cons]

/-- Key inner lemma for the unmatched-parenthesis behaviour: when the
remaining tokens contain a right parenthesis preceded (in the remaining
stream) by at least as many right as left parentheses counting what is
already on the operator stack, the loop raises the IndexError of the
bare `operator_stack.pop()`. -/
theorem rpnLoop_unmatched :
    ∀ (q r out stack : List String),
      stack.count "(" + q.count "(" ≤ q.count ")" →
      rpnLoop (q ++ ")" :: r) out stack =
        .error (.indexError "pop from empty list") := by
  intro q
  induction q with
  | nil =>
    intro r out stack hc
    simp only [List.count_nil, Nat.add_zero, Nat.le_zero] at hc
    exact rpnLoop_cons_rparen_err r out stack
      (popUntilParen_of_no_paren stack out hc)
  | cons tok q' ih =>
    intro r out stack hc
    by_cases hprec : isPrecTok tok = true
    · have hne1 : tok ≠ "(" := by
        intro he; subst he; exact absurd hprec (by decide)
      have hne2 : tok ≠ ")" := by
        intro he; subst he; exact absurd hprec (by decide)
      rw [List.cons_append, rpnLoop_cons_prec tok _ out stack hprec]
      apply ih
      have hcnt := popOps_count_paren (precOf tok) stack out
      rw [count_cons_ne _ _ _ hne1, count_cons_ne _ _ _ hne2] at hc
      rw [count_cons_ne _ _ _ hne1, hcnt]
      exact hc
    · by_cases hpar : tok = "("
      · subst hpar
        rw [List.cons_append, rpnLoop_cons_lparen]
        apply ih
        rw [count_cons_self', count_cons_ne _ _ _ (by decide)] at hc
        rw [count_cons_self']
        omega
      · by_cases hrpar : tok = ")"
        · subst hrpar
          rcases Nat.eq_zero_or_pos (stack.count "(") with h0 | hpos
          · exact rpnLoop_cons_rparen_err _ out stack
              (popUntilParen_of_no_paren stack out h0)
          · obtain ⟨out', rest', heq, hcnt⟩ :=
              popUntilParen_of_paren stack out hpos
            rw [List.cons_append,
              rpnLoop_cons_rparen _ out stack out' "(" rest' heq]
            apply ih
            rw [count_cons_ne _ _ _ (by decide), count_cons_self'] at hc
            omega
        · rw [List.cons_append,
            rpnLoop_cons_operand tok _ out stack
              (Bool.eq_false_iff.mpr hprec) hpar hrpar]
          apply ih
          rw [count_cons_ne _ _ _ hpar, count_cons_ne _ _ _ hrpar] at hc
          exact hc

/-! ## C5 support: classification of every failure of the pipeline -/

/-- A lexical error: one of the two tokenizer failures. -/
def isLexicalErr (e : PyErr) : Prop :=
  e = .valueError "Unterminated string literal" ∨
    ∃ c, e = .valueError ("Unknown character: " ++ str1 c)

/-- A structural error: an AST-construction failure. -/
def isStructuralErr (e : PyErr) : Prop :=
  ∃ m, e = .valueError ("Malformed expression: " ++ m)

/-- Binding an error is the error (the `Except` monad). -/
theorem except_bind_err {α β : Type} (e : PyErr) (f : α → Except PyErr β) :
    ((Except.error e : Except PyErr α) >>= f) = .error e := rfl

/-- Binding a success applies the continuation (the `Except` monad). -/
theorem except_bind_ok {α β : Type} (a : α) (f : α → Except PyErr β) :
    ((Except.ok a : Except PyErr α) >>= f) = f a := rfl

/-- With enough fuel (always supplied by `tokenizer`), any failure of
the scanning loop is one of the two lexical errors. -/
theorem tokLoop_err_class : ∀ (fuel : Nat) (cs : List Char)
    (token : String) (tokens : List String) (e : PyErr),
    cs.length < fuel → tokLoop fuel cs token tokens = .error e →
    isLexicalErr e := by
  intro fuel
  induction fuel with
  | zero => intro cs token tokens e hlen; omega
  | succ fuel ih =>
    intro cs token tokens e hlen h
    cases cs with
    | nil => simp [tokLoop] at h
    | cons c rest =>
      have hlen' : rest.length < fuel := by
        simpa [Nat.succ_lt_succ_iff] using hlen
      simp only [tokLoop] at h
      repeat' split at h
      all_goals first
        | exact Or.inl (Except.error.inj h).symm
        | exact Or.inr ⟨_, (Except.error.inj h).symm⟩
        | exact ih _ _ _ _
            (by first
              | exact hlen'
              | (simp_all [List.length_drop]; omega)) h

/-- Any failure of the tokenizer is a lexical error. -/
theorem tokenizer_err_class (s : String) (e : PyErr)
    (h : tokenizer s = .error e) : isLexicalErr e :=
  tokLoop_err_class _ s.data "" [] e (Nat.lt_succ_self _) h

/-- The only failure of the RPN conversion loop is the IndexError of
the bare pop on an unmatched right parenthesis. -/
theorem rpnLoop_err_class : ∀ (toks out stack : List String) (e : PyErr),
    rpnLoop toks out stack = .error e →
    e = .indexError "pop from empty list" := by
  intro toks
  induction toks with
  | nil => intro out stack e h; simp [rpnLoop] at h
  | cons tok rest ih =>
    intro out stack e h
    by_cases h1 : isPrecTok tok = true
    · rw [rpnLoop_cons_prec tok rest out stack h1] at h
      exact ih _ _ _ h
    · by_cases h2 : tok = "("
      · subst h2
        rw [rpnLoop_cons_lparen] at h
        exact ih _ _ _ h
      · by_cases h3 : tok = ")"
        · subst h3
          rcases hp : popUntilParen out stack with ⟨out', stack'⟩
          cases stack' with
          | nil =>
            rw [rpnLoop_cons_rparen_err rest out stack (by rw [hp])] at h
            exact (Except.error.inj h).symm
          | cons top rest' =>
            rw [rpnLoop_cons_rparen rest out stack out' top rest' hp] at h
            exact ih _ _ _ h
        · rw [rpnLoop_cons_operand tok rest out stack
            (Bool.eq_false_iff.mpr h1) h2 h3] at h
          exact ih _ _ _ h

/-- Extracting a structural error from the insufficient-operands
message. -/
theorem structErr_operands (tok : String) (e : PyErr)
    (h : Except.error (PyErr.valueError
      ("Malformed expression: insufficient operands for operator " ++ tok)) =
      (Except.error e : Except PyErr (List Ast))) : isStructuralErr e :=
  ⟨"insufficient operands for operator " ++ tok, by
    rw [← Except.error.inj h, ← String.append_assoc]; rfl⟩

/-- Extracting a structural error from the insufficient-operand
message of the unary operator. -/
theorem structErr_operand (tok : String) (e : PyErr)
    (h : Except.error (PyErr.valueError
      ("Malformed expression: insufficient operand for operator " ++ tok)) =
      (Except.error e : Except PyErr (List Ast))) : isStructuralErr e :=
  ⟨"insufficient operand for operator " ++ tok, by
    rw [← Except.error.inj h, ← String.append_assoc]; rfl⟩

/-- Any failure of the AST construction loop is a structural error. -/
theorem astLoop_err_class : ∀ (toks : List String) (stack : List Ast)
    (e : PyErr), astLoop toks stack = .error e → isStructuralErr e := by
  intro toks
  induction toks with
  | nil => intro stack e h; simp [astLoop] at h
  | cons tok rest ih =>
    intro stack e h
    simp only [astLoop] at h
    repeat' split at h
    all_goals first
      | exact ih _ _ h
      | exact structErr_operands tok e h
      | exact structErr_operand tok e h

/-- Any failure of `create_ast` is a structural error. -/
theorem create_ast_err_class (rpn : List String) (e : PyErr)
    (h : create_ast rpn = .error e) : isStructuralErr e := by
  unfold create_ast at h
  cases ha : astLoop rpn [] with
  | error e1 =>
    rw [ha, except_bind_err] at h
    rw [← (Except.error.inj h)]
    exact astLoop_err_class rpn [] e1 ha
  | ok stack =>
    rw [ha, except_bind_ok] at h
    match stack with
    | [a] => simp at h
    | [] =>
      exact ⟨"the final stack contained more than one element", by
        rw [← Except.error.inj h]; rfl⟩
    | a :: b :: tl =>
      exact ⟨"the final stack contained more than one element", by
        rw [← Except.error.inj h]; rfl⟩

/-! ## C5 support: `ast_to_dict` never fails on a built AST -/

/-- Every operator stored in an AST node built by `create_ast` has an
entry in `operator_mapping`. -/
def AstOpsOK : Ast → Prop
  | .literal _ => True
  | .binary op l r =>
    (operator_mapping.lookup op).isSome = true ∧ AstOpsOK l ∧ AstOpsOK r
  | .unary op a => (operator_mapping.lookup op).isSome = true ∧ AstOpsOK a
  | .logical op l r =>
    (operator_mapping.lookup op).isSome = true ∧ AstOpsOK l ∧ AstOpsOK r

/-- Step equation of `astLoop` for a literal token. -/
theorem astLoop_cons_lit (tok : String) (ts : List String) (stack : List Ast)
    (h1 : isPrecTok tok = false) (h2 : tok ∉ comparisonOps) :
    astLoop (tok :: ts) stack = astLoop ts (.literal tok :: stack) := by
  simp [astLoop, h1, h2]

/-- Step equation of `astLoop` for a comparison operator with two
operands available. -/
theorem astLoop_cons_cmp (tok : String) (ts : List String)
    (right left : Ast) (stack : List Ast)
    (h : tok ∈ comparisonOps) :
    astLoop (tok :: ts) (right :: left :: stack) =
      astLoop ts (.binary tok left right :: stack) := by
  simp [astLoop, h]

/-- Step equation of `astLoop` for the unary `not` with an operand
available. -/
theorem astLoop_cons_not (ts : List String) (operand : Ast)
    (stack : List Ast) :
    astLoop ("not" :: ts) (operand :: stack) =
      astLoop ts (.unary "not" operand :: stack) := by
  have h1 : isPrecTok "not" = true := by decide
  have h2 : ("not" : String) ∉ comparisonOps := by decide
  simp [astLoop, h1, h2]

/-- Step equation of `astLoop` for a logical operator with two operands
available. -/
theorem astLoop_cons_log (tok : String) (ts : List String)
    (right left : Ast) (stack : List Ast)
    (h1 : isPrecTok tok = true) (h2 : tok ∉ comparisonOps)
    (h3 : tok ≠ "not") :
    astLoop (tok :: ts) (right :: left :: stack) =
      astLoop ts (.logical tok left right :: stack) := by
  simp [astLoop, h1, h2, h3]

/-- Comparison operators all have entries in `operator_mapping`. -/
theorem cmp_lookup_isSome :
    ∀ t ∈ comparisonOps, (operator_mapping.lookup t).isSome = true := by
  decide

/-- The AST loop preserves well-mapped operators on its stack. -/
theorem astLoop_opsOK : ∀ (toks : List String) (stack stack' : List Ast),
    (∀ x ∈ stack, AstOpsOK x) → astLoop toks stack = .ok stack' →
    ∀ x ∈ stack', AstOpsOK x := by
  intro toks
  induction toks with
  | nil =>
    intro stack stack' hs h
    simp only [astLoop, Except.ok.injEq] at h
    subst h; exact hs
  | cons tok rest ih =>
    intro stack stack' hs h
    by_cases hcmp : tok ∈ comparisonOps
    · match stack with
      | [] => simp [astLoop, hcmp] at h
      | [right] => simp [astLoop, hcmp] at h
      | right :: left :: stack2 =>
        rw [astLoop_cons_cmp tok rest right left stack2 hcmp] at h
        refine ih _ _ ?_ h
        intro x hx
        rcases List.mem_cons.mp hx with hx | hx
        · subst hx
          exact ⟨cmp_lookup_isSome tok hcmp,
            hs _ (by simp), hs _ (by simp)⟩
        · exact hs x (by simp [hx])
    · by_cases hnot : tok = "not"
      · subst hnot
        have f1 : isPrecTok "not" = true := by decide
        match stack with
        | [] => simp [astLoop, f1, hcmp] at h
        | operand :: stack2 =>
          rw [astLoop_cons_not rest operand stack2] at h
          refine ih _ _ ?_ h
          intro x hx
          rcases List.mem_cons.mp hx with hx | hx
          · subst hx
            exact ⟨by decide, hs _ (by simp)⟩
          · exact hs x (by simp [hx])
      · by_cases hp : isPrecTok tok = true
        · have hao : tok = "and" ∨ tok = "or" := by
            have h9 := isPrecTok_cases tok hp
            simp only [comparisonOps, List.mem_cons, List.not_mem_nil,
              or_false] at hcmp
            simp only [List.mem_cons, List.not_mem_nil, or_false] at h9
            tauto
          match stack with
          | [] => simp [astLoop, hp, hcmp, hnot] at h
          | [right] => simp [astLoop, hp, hcmp, hnot] at h
          | right :: left :: stack2 =>
            rw [astLoop_cons_log tok rest right left stack2 hp hcmp hnot] at h
            refine ih _ _ ?_ h
            intro x hx
            rcases List.mem_cons.mp hx with hx | hx
            · subst hx
              refine ⟨?_, hs _ (by simp), hs _ (by simp)⟩
              rcases hao with hao | hao <;> subst hao <;> decide
            · exact hs x (by simp [hx])
        · rw [astLoop_cons_lit tok rest stack
            (Bool.eq_false_iff.mpr hp) hcmp] at h
          refine ih _ _ ?_ h
          intro x hx
          rcases List.mem_cons.mp hx with hx | hx
          · subst hx; trivial
          · exact hs x hx

/-- The AST returned by `create_ast` has only well-mapped operators. -/
theorem create_ast_opsOK (rpn : List String) (a : Ast)
    (h : create_ast rpn = .ok a) : AstOpsOK a := by
  unfold create_ast at h
  cases ha : astLoop rpn [] with
  | error e1 => rw [ha, except_bind_err] at h; cases h
  | ok stack =>
    rw [ha, except_bind_ok] at h
    have hall := astLoop_opsOK rpn [] stack (by simp) ha
    match stack, h with
    | [x], h =>
      have : x = a := Except.ok.inj h
      subst this
      exact hall x (by simp)

/-- A well-mapped AST always lowers successfully. -/
theorem ast_to_dict_total : ∀ (a : Ast), AstOpsOK a →
    ∃ v, ast_to_dict a = .ok v := by
  intro a
  induction a with
  | literal v => intro _; exact ⟨literalValue v, rfl⟩
  | binary op l r ihl ihr =>
    intro hok
    obtain ⟨hl, hokl, hokr⟩ := hok
    obtain ⟨lv, hlv⟩ := ihl hokl
    obtain ⟨rv, hrv⟩ := ihr hokr
    obtain ⟨nm, hnm⟩ := Option.isSome_iff_exists.mp hl
    by_cases hne : nm = "not_equals"
    · exact ⟨.dict1 "not" (.dict2 "equals" lv rv), by
        simp [ast_to_dict, opLookup, hnm, hlv, hrv, hne, except_bind_ok]⟩
    · exact ⟨.dict2 nm lv rv, by
        simp [ast_to_dict, opLookup, hnm, hlv, hrv, hne, except_bind_ok]⟩
  | unary op arg iha =>
    intro hok
    obtain ⟨hl, hoka⟩ := hok
    obtain ⟨av, hav⟩ := iha hoka
    obtain ⟨nm, hnm⟩ := Option.isSome_iff_exists.mp hl
    exact ⟨.dict1 nm av, by
      simp [ast_to_dict, opLookup, hnm, hav, except_bind_ok]⟩
  | logical op l r ihl ihr =>
    intro hok
    obtain ⟨hl, hokl, hokr⟩ := hok
    obtain ⟨lv, hlv⟩ := ihl hokl
    obtain ⟨rv, hrv⟩ := ihr hokr
    obtain ⟨nm, hnm⟩ := Option.isSome_iff_exists.mp hl
    by_cases hne : nm = "not_equals"
    · exact ⟨.dict1 "not" (.dict2 "equals" lv rv), by
        simp [ast_to_dict, opLookup, hnm, hlv, hrv, hne, except_bind_ok]⟩
    · exact ⟨.dict2 nm lv rv, by
        simp [ast_to_dict, opLookup, hnm, hlv, hrv, hne, except_bind_ok]⟩

/-- Every failure of the full pipeline is a lexical error, the RPN pop
IndexError, or a structural error. -/
theorem compile_err_class (s : String) (e : PyErr)
    (h : compile s = .error e) :
    isLexicalErr e ∨ e = .indexError "pop from empty list" ∨
      isStructuralErr e := by
  unfold compile at h
  cases ht : tokenizer s with
  | error e1 =>
    rw [ht, except_bind_err] at h
    exact Or.inl ((Except.error.inj h) ▸ tokenizer_err_class s e1 ht)
  | ok toks =>
    rw [ht, except_bind_ok] at h
    cases hr : infix_to_rpn toks with
    | error e2 =>
      rw [hr, except_bind_err] at h
      exact Or.inr (Or.inl
        ((Except.error.inj h) ▸ rpnLoop_err_class toks [] [] e2 hr))
    | ok rpn =>
      rw [hr, except_bind_ok] at h
      cases ha : create_ast rpn with
      | error e3 =>
        rw [ha, except_bind_err] at h
        exact Or.inr (Or.inr
          ((Except.error.inj h) ▸ create_ast_err_class rpn e3 ha))
      | ok ast =>
        rw [ha, except_bind_ok] at h
        obtain ⟨v, hv⟩ := ast_to_dict_total ast (create_ast_opsOK rpn ast ha)
        rw [hv] at h
        cases h

/-! ## Claim C3 -/

/-- C3 counterexample: on a token sequence whose right parenthesis has
no matching left parenthesis, the converter does not silently discard it
and return a postfix sequence; it raises an IndexError from the bare
`operator_stack.pop()` on the empty stack. -/
theorem c3_counterexample :
    infix_to_rpn [")"] = .error (.indexError "pop from empty list") ∧
      tokenizer ")" = .ok [")"] := ⟨rfl, rfl⟩

/-- C3 amended: for every token sequence containing a right parenthesis
with no matching left parenthesis (at some occurrence, the preceding
tokens hold at least as many right as left parentheses), the converter
raises an IndexError (pop from an empty list) rather than returning a
postfix token sequence. -/
theorem c3_unmatched_raises (toks q r : List String)
    (hsplit : toks = q ++ ")" :: r)
    (hcnt : q.count "(" ≤ q.count ")") :
    infix_to_rpn toks = .error (.indexError "pop from empty list") := by
  subst hsplit
  exact rpnLoop_unmatched q r [] [] (by simpa using hcnt)

/-- C3 witness: the amended statement at the singleton sequence. -/
theorem c3_unmatched_raises_witness :
    ([")"] : List String) = [] ++ ")" :: [] ∧
      ([] : List String).count "(" ≤ ([] : List String).count ")" ∧
      infix_to_rpn [")"] = .error (.indexError "pop from empty list") :=
  ⟨rfl, by decide, c3_unmatched_raises [")"] [] [] rfl (by decide)⟩

/-! ## Claim C5 -/

/-- C5 counterexample: compile has a third failure kind. On the input
consisting of a name and an unmatched right parenthesis, tokenization
succeeds (so the failure is not lexical) and the failure arises in the
RPN conversion (before AST construction) as an IndexError, which is
neither of the two documented kinds. -/
theorem c5_counterexample :
    tokenizer "a)" = .ok ["a", ")"] ∧
      infix_to_rpn ["a", ")"] = .error (.indexError "pop from empty list") ∧
      compile "a)" = .error (.indexError "pop from empty list") :=
  ⟨rfl, rfl, rfl⟩

/-- C5 amended: compile either returns a value or fails with exactly
three failure kinds — a lexical error during tokenization, the
IndexError of the RPN conversion on an unmatched right parenthesis, or a
structural error during AST construction — and there is never a partial
result; in particular the unterminated-string input fails with a lexical
error and the dangling-operator input fails with a structural error. -/
theorem c5_failure_kinds :
    (∀ (s : String) (e : PyErr), compile s = .error e →
      isLexicalErr e ∨ e = .indexError "pop from empty list" ∨
        isStructuralErr e) ∧
    compile "\"unterminated" =
      .error (.valueError "Unterminated string literal") ∧
    compile "a == " = .error (.valueError
      "Malformed expression: insufficient operands for operator ==") :=
  ⟨compile_err_class, rfl, rfl⟩

/-- C5 witness: the classification applied to a concrete failing
input. -/
theorem c5_failure_kinds_witness :
    compile "a)" = .error (.indexError "pop from empty list") ∧
      (isLexicalErr (.indexError "pop from empty list") ∨
        (PyErr.indexError "pop from empty list") =
          .indexError "pop from empty list" ∨
        isStructuralErr (.indexError "pop from empty list")) :=
  ⟨rfl, c5_failure_kinds.1 "a)" _ rfl⟩

/-! ## Claim C6 -/

/-- C6: precedence is resolved per the documented table (comparisons 4,
`not` 3, `and` 2, `or` 1): the two spec examples group as stated, and
the table entries have the documented levels. -/
theorem c6_precedence :
    compile "a or b and c" = .ok (.dict2 "or" (.vstr (vref "a"))
      (.dict2 "and" (.vstr (vref "b")) (.vstr (vref "c")))) ∧
    compile "not a == 1" = .ok (.dict1 "not"
      (.dict2 "equals" (.vstr (vref "a")) (.vint 1))) ∧
    precOf "==" = 4 ∧ precOf "!=" = 4 ∧ precOf ">" = 4 ∧ precOf "<" = 4 ∧
    precOf ">=" = 4 ∧ precOf "<=" = 4 ∧ precOf "not" = 3 ∧
    precOf "and" = 2 ∧ precOf "or" = 1 :=
  ⟨rfl, rfl, rfl, rfl, rfl, rfl, rfl, rfl, rfl, rfl, rfl⟩

/-! ## Claim C7 -/

/-- C7: lowering a binary expression whose operator is the inequality
emits the nested not-equals shape rather than a primitive inequality
operator, and the spec example compiles accordingly. -/
theorem c7_not_equals (l r : Ast) (lv rv : CVal)
    (hl : ast_to_dict l = .ok lv) (hr : ast_to_dict r = .ok rv) :
    ast_to_dict (.binary "!=" l r) =
      .ok (.dict1 "not" (.dict2 "equals" lv rv)) ∧
    compile "a != b" = .ok (.dict1 "not"
      (.dict2 "equals" (.vstr (vref "a")) (.vstr (vref "b")))) := by
  constructor
  · have hop : opLookup "!=" = .ok "not_equals" := rfl
    simp [ast_to_dict, hop, hl, hr, except_bind_ok]
  · rfl

/-- C7 witness: the lowering rule at concrete literal operands. -/
theorem c7_not_equals_witness :
    ast_to_dict (.literal "x") = .ok (.vstr (vref "x")) ∧
      ast_to_dict (.binary "!=" (.literal "x") (.literal "y")) =
        .ok (.dict1 "not"
          (.dict2 "equals" (.vstr (vref "x")) (.vstr (vref "y")))) :=
  ⟨rfl, (c7_not_equals (.literal "x") (.literal "y") _ _ rfl rfl).1⟩

/-! ## Claim C8 -/

/-- C8: literal lowering coerces in source order — the exact texts for
the booleans, then quote stripping into a string constant, then numeric
parsing chosen by the presence of a dot, with parse failure producing
the variable-reference string; the spec example compiles accordingly,
and concrete float, int and identifier cases behave as stated. -/
theorem c8_literal_lowering :
    literalValue "true" = .vbool true ∧
    literalValue "false" = .vbool false ∧
    (∀ t : String, t ≠ "true" → t ≠ "false" → t.data.contains '\"' = true →
      literalValue t = .vstr ⟨t.data.filter (fun c => c ≠ '\"')⟩) ∧
    (∀ t : String, t ≠ "true" → t ≠ "false" → t.data.contains '\"' = false →
      t.data.contains '.' = true →
      (∀ f, pyFloat? t = some f → literalValue t = .vfloat f) ∧
        (pyFloat? t = none → literalValue t = .vstr (vref t))) ∧
    (∀ t : String, t ≠ "true" → t ≠ "false" → t.data.contains '\"' = false →
      t.data.contains '.' = false →
      (∀ n, pyInt? t = some n → literalValue t = .vint n) ∧
        (pyInt? t = none → literalValue t = .vstr (vref t))) ∧
    compile "var2 == false" =
      .ok (.dict2 "equals" (.vstr (vref "var2")) (.vbool false)) ∧
    (∃ q : Rat, literalValue "1.5" = .vfloat (.finite q) ∧ q = 3 / 2) ∧
    literalValue "7" = .vint 7 ∧
    literalValue "x" = .vstr (vref "x") := by
  refine ⟨rfl, rfl, ?_, ?_, ?_, rfl, ⟨_, rfl, by
    simp only [show ('1'.toNat - 48 : Nat) = 1 from rfl,
      show ('5'.toNat - 48 : Nat) = 5 from rfl]
    norm_num⟩, rfl, rfl⟩
  · intro t h1 h2 h3
    have h3' : '\"' ∈ t.data := by simpa using h3
    simp [literalValue, h1, h2, h3']
  · intro t h1 h2 h3 h4
    have h3' : '\"' ∉ t.data := by simpa using h3
    have h4' : '.' ∈ t.data := by simpa using h4
    constructor
    · intro f hf
      simp [literalValue, h1, h2, h3', h4', hf]
    · intro hf
      simp [literalValue, h1, h2, h3', h4', hf]
  · intro t h1 h2 h3 h4
    have h3' : '\"' ∉ t.data := by simpa using h3
    have h4' : '.' ∉ t.data := by simpa using h4
    constructor
    · intro n hn
      simp [literalValue, h1, h2, h3', h4', hn]
    · intro hn
      simp [literalValue, h1, h2, h3', h4', hn]

/-- C8 witness: the ordered coercion rules at concrete literal texts. -/
theorem c8_literal_lowering_witness :
    ("\"hi\"" : String) ≠ "true" ∧
      ("\"hi\"" : String).data.contains '\"' = true ∧
      literalValue "\"hi\"" = .vstr "hi" := by
  refine ⟨by decide, by decide, ?_⟩
  have h := c8_literal_lowering.2.2.1 "\"hi\"" (by decide) (by decide)
    (by decide)
  rw [h]
  rfl

/-! ## Decimal printing: injectivity of `natStr` -/

/-- Value of a digit character. -/
def chVal (c : Char) : Nat := c.toNat - 48

/-- Read a big-endian digit-character list back into a number. -/
def strNatAux : List Char → Nat → Nat
  | [], acc => acc
  | c :: cs, acc => strNatAux cs (acc * 10 + chVal c)

theorem strNatAux_append (xs ys : List Char) (acc : Nat) :
    strNatAux (xs ++ ys) acc = strNatAux ys (strNatAux xs acc) := by
  induction xs generalizing acc with
  | nil => simp [strNatAux]
  | cons c cs ih => simp [strNatAux, ih]

theorem chVal_digitChar : ∀ d : Nat, d < 10 →
    chVal (Nat.digitChar d) = d := by decide

/-- Reading back the printed digits of `n` recovers `n`. -/
theorem strNat_natStrAux : ∀ (fuel n : Nat), n ≤ fuel →
    strNatAux (natStrAux fuel n) 0 = n := by
  intro fuel
  induction fuel with
  | zero =>
    intro n hn
    interval_cases n
    simp [natStrAux, strNatAux]
  | succ fuel ih =>
    intro n hn
    by_cases h0 : n = 0
    · subst h0; simp [natStrAux, strNatAux]
    · have hdiv : n / 10 ≤ fuel := by
        have := Nat.div_lt_self (Nat.pos_of_ne_zero h0) (by norm_num : (1:Nat) < 10)
        omega
      have hmod : n % 10 < 10 := Nat.mod_lt n (by norm_num)
      rw [natStrAux, if_neg h0, strNatAux_append, ih (n / 10) hdiv]
      simp only [strNatAux]
      rw [chVal_digitChar (n % 10) hmod]
      omega

/-- The decimal printer is injective. -/
theorem natStr_inj (a b : Nat) (h : natStr a = natStr b) : a = b := by
  unfold natStr at h
  by_cases ha : a = 0 <;> by_cases hb : b = 0
  · omega
  · rw [if_pos ha, if_neg hb] at h
    have hdata : ("0" : String).data = natStrAux b b := congrArg String.data h
    have h1 : strNatAux ("0" : String).data 0 = 0 := by decide
    have h2 := strNat_natStrAux b b (le_refl b)
    rw [hdata] at h1
    omega
  · rw [if_neg ha, if_pos hb] at h
    have hdata : natStrAux a a = ("0" : String).data := congrArg String.data h
    have h1 : strNatAux ("0" : String).data 0 = 0 := by decide
    have h2 := strNat_natStrAux a a (le_refl a)
    rw [← hdata] at h1
    omega
  · rw [if_neg ha, if_neg hb] at h
    have hdata : natStrAux a a = natStrAux b b := congrArg String.data h
    have h1 := strNat_natStrAux a a (le_refl a)
    have h2 := strNat_natStrAux b b (le_refl b)
    rw [hdata] at h1
    omega

/-! ## Rename-loop freshness -/

/-- The candidate name the collision loop tries at counter `i`. -/
def cand (o : String) (i : Nat) : String := o ++ "_" ++ natStr i

/-- Candidate names at distinct counters are distinct. -/
theorem cand_inj (o : String) (i j : Nat) (h : cand o i = cand o j) :
    i = j := by
  unfold cand at h
  have hdata := congrArg String.data h
  simp only [String.data_append] at hdata
  have h2 := List.append_cancel_left hdata
  refine natStr_inj i j ?_
  cases hni : natStr i with
  | mk di =>
    cases hnj : natStr j with
    | mk dj =>
      rw [hni, hnj] at h2
      exact congrArg String.mk (by simpa using h2)

/-- Among the first `keys.length + 1` candidates, one is not a key. -/
theorem exists_cand_not_mem (keys : List String) (o : String) :
    ∃ i, 1 ≤ i ∧ i ≤ keys.length + 1 ∧ cand o i ∉ keys := by
  by_contra hcon
  push_neg at hcon
  have hmaps : ∀ i ∈ Finset.Icc 1 (keys.length + 1),
      cand o i ∈ keys.toFinset := by
    intro i hi
    rw [Finset.mem_Icc] at hi
    exact List.mem_toFinset.mpr (hcon i hi.1 hi.2)
  have hinj : Set.InjOn (cand o) (Finset.Icc 1 (keys.length + 1)) := by
    intro x _ y _ hxy
    exact cand_inj o x y hxy
  have hcard := Finset.card_le_card_of_injOn (cand o) hmaps hinj
  rw [Nat.card_Icc] at hcard
  have := keys.toFinset_card_le
  omega

/-- The collision loop returns a name outside the key set, given either
that the current candidate is already fresh or that a fresh candidate
lies within the remaining fuel. -/
theorem renameFrom_not_mem : ∀ (fuel counter : Nat) (cur o : String)
    (keys : List String),
    (cur ∉ keys ∨ ∃ i, counter ≤ i ∧ i < counter + fuel ∧ cand o i ∉ keys) →
    renameFrom keys o fuel counter cur ∉ keys := by
  intro fuel
  induction fuel with
  | zero =>
    intro counter cur o keys hpre
    rcases hpre with hpre | ⟨i, h1, h2, _⟩
    · simpa [renameFrom] using hpre
    · omega
  | succ fuel ih =>
    intro counter cur o keys hpre
    by_cases hcur : cur ∈ keys
    · have hcont : keys.contains cur = true := by
        simpa using hcur
      rw [renameFrom, if_pos hcont]
      rcases hpre with hpre | ⟨i, h1, h2, h3⟩
      · exact absurd hcur hpre
      · rcases Nat.eq_or_lt_of_le h1 with heq | hlt
        · exact ih (counter + 1) (cand o counter) o keys
            (Or.inl (heq ▸ h3))
        · exact ih (counter + 1) (cand o counter) o keys
            (Or.inr ⟨i, hlt, by omega, h3⟩)
    · simp [renameFrom, hcur]

/-- The net renaming effect always produces an unused name. -/
theorem pyRename_not_mem (keys : List String) (name : String) :
    pyRename keys name ∉ keys := by
  unfold pyRename
  by_cases hn : name ∈ keys
  · obtain ⟨i, h1, h2, h3⟩ := exists_cand_not_mem keys name
    exact renameFrom_not_mem _ 1 name name keys
      (Or.inr ⟨i, h1, by omega, h3⟩)
  · exact renameFrom_not_mem _ 1 name name keys (Or.inl hn)

/-- A name with no collision is kept unchanged. -/
theorem pyRename_of_not_mem (keys : List String) (name : String)
    (h : name ∉ keys) : pyRename keys name = name := by
  simp [pyRename, renameFrom, h]

/-! ## Dict and heap lemmas -/

/-- Dict assignment with an unused key appends the binding. -/
theorem dictSet_eq_append {α : Type} (d : List (String × α)) (k : String)
    (v : α) (h : k ∉ d.map Prod.fst) : dictSet d k v = d ++ [(k, v)] := by
  induction d with
  | nil => simp [dictSet]
  | cons hd tl ih =>
    obtain ⟨a, b⟩ := hd
    simp only [List.map_cons, List.mem_cons] at h
    push_neg at h
    simp [dictSet, Ne.symm h.1, ih h.2]

/-- Reading back the slot just written. -/
theorem Heap.get_set_self (h : Heap) (id : Nat) (n : Node)
    (hid : id < h.store.length) : (h.set id n).get id = n := by
  simp [Heap.get, Heap.set, List.getD, List.getElem?_set_self, hid]

/-- Writing one slot leaves the others unchanged. -/
theorem Heap.get_set_ne (h : Heap) (id id' : Nat) (n : Node)
    (hne : id' ≠ id) : (h.set id n).get id' = h.get id' := by
  simp [Heap.get, Heap.set, List.getElem?_set_ne (Ne.symm hne)]

/-- Writes never change the store size. -/
theorem Heap.set_length (h : Heap) (id : Nat) (n : Node) :
    (h.set id n).store.length = h.store.length := by
  simp [Heap.set]

/-- Reading any slot after a write: the written value inside bounds at
the same index, the old value otherwise (an out-of-bounds write is a
no-op of `List.set`). -/
theorem Heap.get_set (h : Heap) (id x : Nat) (n : Node) :
    (h.set id n).get x =
      if x = id ∧ id < h.store.length then n else h.get x := by
  by_cases hx : x = id
  · subst hx
    by_cases hlt : x < h.store.length
    · simp [Heap.get_set_self h x n hlt, hlt]
    · have hle : h.store.length ≤ x := Nat.le_of_not_lt hlt
      simp only [hlt, and_false, if_false]
      simp [Heap.get, Heap.set, List.set_eq_of_length_le hle]
  · simp [Heap.get_set_ne h id x n hx, hx]

/-- `add_next_action` leaves every other object unchanged. -/
theorem addNextAction_get_ne (h : Heap) (p c x : Nat) (hx : x ≠ p) :
    (addNextAction h p c).get x = h.get x := by
  dsimp only [addNextAction]
  split
  · rfl
  · exact Heap.get_set_ne h p x _ hx

/-- `add_next_action` changes at most the child set of any object. -/
theorem addNextAction_get_shape (h : Heap) (p c x : Nat) :
    ∃ nn, (addNextAction h p c).get x = { (h.get x) with next_nodes := nn } := by
  by_cases hx : x = p
  · subst hx
    dsimp only [addNextAction]
    split
    · exact ⟨(h.get x).next_nodes, rfl⟩
    · rw [Heap.get_set]
      split
      · exact ⟨(h.get x).next_nodes ++ [c], rfl⟩
      · exact ⟨(h.get x).next_nodes, rfl⟩
  · exact ⟨(h.get x).next_nodes, by rw [addNextAction_get_ne h p c x hx]⟩

/-- `add_next_action` does not change the store size. -/
theorem addNextAction_length (h : Heap) (p c : Nat) :
    (addNextAction h p c).store.length = h.store.length := by
  dsimp only [addNextAction]
  split
  · rfl
  · exact Heap.set_length h p _

/-- `update_runafter` leaves every other object unchanged. -/
theorem updateRunafter_get_ne (h : Heap) (node parent : Nat)
    (f e : Bool) (x : Nat) (hx : x ≠ node) :
    (updateRunafter h node parent f e).get x = h.get x := by
  dsimp only [updateRunafter]
  split
  · exact Heap.get_set_ne h node x _ hx
  · exact Heap.get_set_ne h node x _ hx

/-- `update_runafter` on a valid node: the runafter map is emptied for a
skeleton parent and otherwise gains the parent-keyed state list. -/
theorem updateRunafter_get_self (h : Heap) (node parent : Nat)
    (f e : Bool) (hn : node < h.store.length) :
    (updateRunafter h node parent f e).get node =
      (if (h.get parent).isSkelton then { (h.get node) with runafter := [] } else { (h.get node) with runafter := dictSet (h.get node).runafter (h.get parent).action_name (stateList f e) }) := by
  dsimp only [updateRunafter]
  by_cases hsk : (h.get parent).isSkelton = true
  · rw [if_pos hsk, if_pos hsk, Heap.get_set_self h node _ hn]
  · rw [if_neg hsk, if_neg hsk, Heap.get_set_self h node _ hn]

/-- `update_runafter` changes at most the runafter map of any object. -/
theorem updateRunafter_get_shape (h : Heap) (node parent : Nat)
    (f e : Bool) (x : Nat) :
    ∃ ra, (updateRunafter h node parent f e).get x =
      { (h.get x) with runafter := ra } := by
  by_cases hx : x = node
  · subst hx
    by_cases hn : x < h.store.length
    · rw [updateRunafter_get_self h x parent f e hn]
      split
      · exact ⟨[], rfl⟩
      · exact ⟨_, rfl⟩
    · dsimp only [updateRunafter]
      have hle : h.store.length ≤ x := Nat.le_of_not_lt hn
      split <;>
        exact ⟨(h.get x).runafter, by
          simp [Heap.get, Heap.set, List.set_eq_of_length_le hle]⟩
  · exact ⟨(h.get x).runafter, by
      rw [updateRunafter_get_ne h node parent f e x hx]⟩

/-- `update_runafter` does not change the store size. -/
theorem updateRunafter_length (h : Heap) (node parent : Nat) (f e : Bool) :
    (updateRunafter h node parent f e).store.length = h.store.length := by
  dsimp only [updateRunafter]
  split
  · exact Heap.set_length h node _
  · exact Heap.set_length h node _

/-- Success inversion for `__validate_action`: all four checks passed
and the returned heap renames the node by the collision rule. -/
theorem validateAction_ok_inv (g : ActionsG) (h : Heap) (new : Nat)
    (prev : Option Nat) (h1 : Heap)
    (hok : validateAction g h new prev = .ok h1) :
    new ∉ regIds g ∧ (h.get new).have_parent_node = false ∧
    (∀ p, prev = some p → p ∈ regIds g) ∧
    (g.is_root_actions = false → (h.get new).isInitVariable = false) ∧
    h1 = h.set new { (h.get new) with
      action_name := pyRename (regKeys g) (h.get new).action_name } := by
  unfold validateAction at hok
  split at hok
  · cases hok
  · split at hok
    · cases hok
    · split at hok
      · cases hok
      · split at hok
        · cases hok
        · rename_i hc1 hc2 hc3 hc4
          refine ⟨by simpa using hc1, by simpa using hc2, ?_, ?_,
            (Except.ok.inj hok).symm⟩
          · intro p hp
            subst hp
            simp at hc3
            simpa using hc3
          · intro hroot
            by_contra hinit
            apply hc4
            simp_all

/-- `add_next_action` is a no-op when the child is already in the set
(a Python set add). -/
theorem addNextAction_noop (h : Heap) (p c : Nat)
    (hc : (h.get p).next_nodes.contains c = true) :
    addNextAction h p c = h := by
  have hc' : c ∈ (h.get p).next_nodes := by simpa using hc
  simp [addNextAction, hc']

/-- Writes keep the uuid counter. -/
theorem Heap.set_uuid (h : Heap) (id : Nat) (n : Node) :
    (h.set id n).uuidCounter = h.uuidCounter := rfl

theorem addNextAction_uuid (h : Heap) (p c : Nat) :
    (addNextAction h p c).uuidCounter = h.uuidCounter := by
  dsimp only [addNextAction]
  split
  · rfl
  · rfl

theorem updateRunafter_uuid (h : Heap) (node parent : Nat) (f e : Bool) :
    (updateRunafter h node parent f e).uuidCounter = h.uuidCounter := by
  dsimp only [updateRunafter]
  split
  · rfl
  · rfl

/-- The common tail of the three insertion operations after validation:
link under the parent, set the parent flag, set the runafter entry,
move the last-appended pointer, register. -/
def insertTail (g : ActionsG) (h1 : Heap) (new parent : Nat)
    (f ef : Bool) : ActionsG × Heap :=
  let h2 := addNextAction h1 parent new
  let h3 := h2.set new { (h2.get new) with have_parent_node := true }
  let h4 := updateRunafter h3 new parent f ef
  ({ g with
      last_update_node := new
      nodes := dictSet g.nodes (h4.get new).action_name new }, h4)

/-- `add_after` is validation followed by the common insertion tail. -/
theorem add_after_eq (g : ActionsG) (h : Heap) (new prev : Nat)
    (f ef : Bool) :
    add_after g h new prev f ef =
      (match validateAction g h new (some prev) with
       | .error e => .error e
       | .ok h1 => .ok (insertTail g h1 new prev f ef)) := by
  unfold add_after insertTail
  cases validateAction g h new (some prev) with
  | error e => rw [except_bind_err]
  | ok h1 => rw [except_bind_ok]

/-- `add_top` is validation followed by the common insertion tail with
the sentinel as parent and default flags. -/
theorem add_top_eq (g : ActionsG) (h : Heap) (new : Nat) :
    ActionsG.add_top g h new =
      (match validateAction g h new none with
       | .error e => .error e
       | .ok h1 => .ok (insertTail g h1 new g.root_node false false)) := by
  unfold ActionsG.add_top insertTail
  cases validateAction g h new none with
  | error e => rw [except_bind_err]
  | ok h1 => rw [except_bind_ok]

/-- `append` is validation followed by the common insertion tail with
the last-appended node as parent. -/
theorem appendAction_eq (g : ActionsG) (h : Heap) (new : Nat)
    (f ef : Bool) :
    appendAction g h new f ef =
      (match validateAction g h new none with
       | .error e => .error e
       | .ok h1 => .ok (insertTail g h1 new g.last_update_node f ef)) := by
  unfold appendAction insertTail
  cases validateAction g h new none with
  | error e => rw [except_bind_err]
  | ok h1 => rw [except_bind_ok]

/-- Full characterisation of the insertion tail on a valid node id. -/
theorem insertTail_spec (g : ActionsG) (h1 : Heap) (new parent : Nat)
    (f ef : Bool) (hv : new < h1.store.length) :
    (insertTail g h1 new parent f ef).1 =
      { g with
        last_update_node := new
        nodes := dictSet g.nodes ((h1.get new).action_name) new } ∧
    (((insertTail g h1 new parent f ef).2.get new).action_name =
      (h1.get new).action_name ∧
     ((insertTail g h1 new parent f ef).2.get new).have_parent_node = true ∧
     ((insertTail g h1 new parent f ef).2.get new).payload =
      (h1.get new).payload ∧
     ((insertTail g h1 new parent f ef).2.get new).atype =
      (h1.get new).atype ∧
     ((insertTail g h1 new parent f ef).2.get new).metadataId =
      (h1.get new).metadataId ∧
     ((insertTail g h1 new parent f ef).2.get new).isSkelton =
      (h1.get new).isSkelton ∧
     ((insertTail g h1 new parent f ef).2.get new).isInitVariable =
      (h1.get new).isInitVariable) ∧
    ((insertTail g h1 new parent f ef).2.get new).runafter =
      (if (h1.get parent).isSkelton then [] else dictSet (h1.get new).runafter (h1.get parent).action_name (stateList f ef)) ∧
    (∀ x, x ≠ new → x ≠ parent →
      (insertTail g h1 new parent f ef).2.get x = h1.get x) ∧
    (insertTail g h1 new parent f ef).2.store.length = h1.store.length ∧
    (insertTail g h1 new parent f ef).2.uuidCounter = h1.uuidCounter ∧
    (parent ≠ new →
      ((insertTail g h1 new parent f ef).2.get new).next_nodes =
        (h1.get new).next_nodes) ∧
    (parent ≠ new →
      ∃ nn, (insertTail g h1 new parent f ef).2.get parent =
        { (h1.get parent) with next_nodes := nn }) ∧
    (parent ≠ new → (h1.get parent).next_nodes.contains new = true →
      (insertTail g h1 new parent f ef).2.get parent = h1.get parent) := by
  obtain ⟨nn2, hnn2⟩ := addNextAction_get_shape h1 parent new new
  have h2len : (addNextAction h1 parent new).store.length =
      h1.store.length := addNextAction_length h1 parent new
  set h2 := addNextAction h1 parent new with hh2
  set h3 := h2.set new { (h2.get new) with have_parent_node := true }
    with hh3
  have h3len : h3.store.length = h1.store.length := by
    rw [hh3, Heap.set_length, h2len]
  have h3new : h3.get new =
      { (h1.get new) with next_nodes := nn2, have_parent_node := true } := by
    rw [hh3, Heap.get_set_self h2 new _ (by rw [h2len]; exact hv), hnn2]
  have hp3 : (h3.get parent).isSkelton = (h1.get parent).isSkelton ∧
      (h3.get parent).action_name = (h1.get parent).action_name := by
    by_cases hpn : parent = new
    · subst hpn
      rw [h3new]
      exact ⟨rfl, rfl⟩
    · obtain ⟨nnp, hnnp⟩ := addNextAction_get_shape h1 parent new parent
      rw [hh3, Heap.get_set_ne h2 new parent _ hpn, hnnp]
      exact ⟨rfl, rfl⟩
  have h4new : (insertTail g h1 new parent f ef).2.get new =
      (if (h1.get parent).isSkelton then { (h1.get new) with next_nodes := nn2, have_parent_node := true, runafter := [] } else { (h1.get new) with next_nodes := nn2, have_parent_node := true, runafter := dictSet (h1.get new).runafter (h1.get parent).action_name (stateList f ef) }) := by
    show (updateRunafter h3 new parent f ef).get new = _
    rw [updateRunafter_get_self h3 new parent f ef (by rw [h3len]; exact hv),
      h3new]
    rw [hp3.1, hp3.2]
  have hname : ((insertTail g h1 new parent f ef).2.get new).action_name =
      (h1.get new).action_name := by
    rw [h4new]; split <;> rfl
  have hfst : (insertTail g h1 new parent f ef).1 =
      { g with
        last_update_node := new
        nodes := dictSet g.nodes ((h1.get new).action_name) new } := by
    have h0 : (insertTail g h1 new parent f ef).1 =
        { g with
          last_update_node := new
          nodes := dictSet g.nodes
            (((insertTail g h1 new parent f ef).2.get new).action_name) new } :=
      rfl
    rw [h0, hname]
  refine ⟨hfst, ?_, ?_, ?_, ?_, ?_, ?_, ?_, ?_⟩
  · rw [h4new]; split <;> exact ⟨rfl, rfl, rfl, rfl, rfl, rfl, rfl⟩
  · rw [h4new]; split <;> rename_i hsk <;> simp [hsk]
  · intro x hxn hxp
    show (updateRunafter h3 new parent f ef).get x = h1.get x
    rw [updateRunafter_get_ne h3 new parent f ef x hxn,
      hh3, Heap.get_set_ne h2 new x _ hxn,
      hh2, addNextAction_get_ne h1 parent new x hxp]
  · show (updateRunafter h3 new parent f ef).store.length = h1.store.length
    rw [updateRunafter_length, h3len]
  · show (updateRunafter h3 new parent f ef).uuidCounter = h1.uuidCounter
    rw [updateRunafter_uuid, hh3, Heap.set_uuid, hh2, addNextAction_uuid]
  · intro hpn
    rw [h4new]
    have : nn2 = (h1.get new).next_nodes := by
      have := hnn2
      rw [addNextAction_get_ne h1 parent new new (Ne.symm hpn)] at this
      exact (congrArg Node.next_nodes this).symm
    split <;> simp [this]
  · intro hpn
    obtain ⟨nnp, hnnp⟩ := addNextAction_get_shape h1 parent new parent
    refine ⟨nnp, ?_⟩
    show (updateRunafter h3 new parent f ef).get parent = _
    rw [updateRunafter_get_ne h3 new parent f ef parent hpn,
      hh3, Heap.get_set_ne h2 new parent _ hpn, hnnp]
  · intro hpn hc
    have hnoop : addNextAction h1 parent new = h1 :=
      addNextAction_noop h1 parent new hc
    show (updateRunafter h3 new parent f ef).get parent = h1.get parent
    rw [updateRunafter_get_ne h3 new parent f ef parent hpn,
      hh3, Heap.get_set_ne h2 new parent _ hpn, hh2,
      hnoop]

/-- An error value equation, oriented for the validation claims. -/
theorem error_eq_iff {α : Type} (m e : PyErr) :
    (Except.error m : Except PyErr α) = .error e ↔ e = m := by
  constructor
  · intro h; exact (Except.error.inj h).symm
  · intro h; rw [h]

/-- A success never equals an error. -/
theorem ok_ne_error {α : Type} (a : α) (e : PyErr) :
    (Except.ok a : Except PyErr α) = .error e ↔ False := by
  simp

/-! ## Claim C4 -/

/-- C4: every insertion operation performs the four validation checks in
source order — node already present by identity, node already has a
parent, supplied reference node not registered, initialize-variable node
in a non-root graph — and on any violation it returns exactly the
validation error of the first failing check; the three operations fail
exactly when validation fails (all writes to the graph occur after the
checks, so a violation leaves the registry and every node unchanged). -/
theorem c4_validation_order :
    (∀ (g : ActionsG) (h : Heap) (new : Nat) (prev : Option Nat) (e : PyErr),
      validateAction g h new prev = .error e ↔
        ((new ∈ regIds g ∧ e = .valueError "already exists in Actions") ∨
         (new ∉ regIds g ∧ (h.get new).have_parent_node = true ∧
           e = .valueError "already have a parent Actions") ∨
         (new ∉ regIds g ∧ (h.get new).have_parent_node = false ∧
           (∃ p, prev = some p ∧ p ∉ regIds g) ∧
           e = .valueError "not in Actions") ∨
         (new ∉ regIds g ∧ (h.get new).have_parent_node = false ∧
           (∀ p, prev = some p → p ∈ regIds g) ∧
           g.is_root_actions = false ∧ (h.get new).isInitVariable = true ∧
           e = .valueError "cannot be set into non-root Actions"))) ∧
    (∀ (g : ActionsG) (h : Heap) (new : Nat) (e : PyErr),
      ActionsG.add_top g h new = .error e ↔
        validateAction g h new none = .error e) ∧
    (∀ (g : ActionsG) (h : Heap) (new prev : Nat) (f ef : Bool) (e : PyErr),
      add_after g h new prev f ef = .error e ↔
        validateAction g h new (some prev) = .error e) ∧
    (∀ (g : ActionsG) (h : Heap) (new : Nat) (f ef : Bool) (e : PyErr),
      appendAction g h new f ef = .error e ↔
        validateAction g h new none = .error e) := by
  refine ⟨?_, ?_, ?_, ?_⟩
  · intro g h new prev e
    unfold validateAction
    by_cases h1 : new ∈ regIds g
    · rw [if_pos (show (regIds g).contains new = true by simpa using h1)]
      rw [error_eq_iff]
      simp [h1]
    · rw [if_neg (show ¬(regIds g).contains new = true by simpa using h1)]
      by_cases h2 : (h.get new).have_parent_node = true
      · rw [if_pos h2, error_eq_iff]
        simp [h1, h2]
      · have h2' : (h.get new).have_parent_node = false :=
          Bool.eq_false_iff.mpr h2
        rw [if_neg h2]
        cases prev with
        | none =>
          rw [if_neg (by simp)]
          by_cases h4 : (!g.is_root_actions && (h.get new).isInitVariable) = true
          · have h4' : g.is_root_actions = false ∧
                (h.get new).isInitVariable = true := by simpa using h4
            rw [if_pos h4, error_eq_iff]
            simp [h1, h2', h4'.1, h4'.2]
          · rw [if_neg h4, ok_ne_error]
            constructor
            · intro hco; cases hco
            · rintro (⟨hc, _⟩ | ⟨_, hc, _⟩ | ⟨_, _, ⟨p, hp, _⟩, _⟩ |
                ⟨_, _, _, hroot, hinit, _⟩)
              · exact absurd hc h1
              · exact absurd hc h2
              · cases hp
              · exact h4 (by simp [hroot, hinit])
        | some p =>
          by_cases h3 : p ∈ regIds g
          · rw [if_neg (show ¬(match some p with
              | some q => !((regIds g).contains q)
              | none => false) = true by simpa using h3)]
            by_cases h4 : (!g.is_root_actions && (h.get new).isInitVariable) = true
            · have h4' : g.is_root_actions = false ∧
                  (h.get new).isInitVariable = true := by simpa using h4
              rw [if_pos h4, error_eq_iff]
              constructor
              · intro he
                refine Or.inr (Or.inr (Or.inr ⟨h1, h2', ?_, h4'.1, h4'.2, he⟩))
                intro q hq
                cases Option.some.inj hq
                exact h3
              · rintro (⟨hc, _⟩ | ⟨_, hc, _⟩ | ⟨_, _, ⟨q, hq, hqn⟩, _⟩ |
                  ⟨_, _, _, _, _, he⟩)
                · exact absurd hc h1
                · exact absurd hc h2
                · cases Option.some.inj hq; exact absurd h3 hqn
                · exact he
            · rw [if_neg h4, ok_ne_error]
              constructor
              · intro hco; cases hco
              · rintro (⟨hc, _⟩ | ⟨_, hc, _⟩ | ⟨_, _, ⟨q, hq, hqn⟩, _⟩ |
                  ⟨_, _, _, hroot, hinit, _⟩)
                · exact absurd hc h1
                · exact absurd hc h2
                · cases Option.some.inj hq; exact absurd h3 hqn
                · exact h4 (by simp [hroot, hinit])
          · rw [if_pos (show (match some p with
              | some q => !((regIds g).contains q)
              | none => false) = true by simpa using h3), error_eq_iff]
            constructor
            · intro he
              exact Or.inr (Or.inr (Or.inl ⟨h1, h2', ⟨p, rfl, h3⟩, he⟩))
            · rintro (⟨hc, _⟩ | ⟨_, hc, _⟩ | ⟨_, _, ⟨q, hq, _⟩, he⟩ |
                ⟨_, _, hall, _, _, _⟩)
              · exact absurd hc h1
              · exact absurd hc h2
              · exact he
              · exact absurd (hall p rfl) h3
  · intro g h new e
    rw [add_top_eq]
    cases hv : validateAction g h new none with
    | error e1 => simp
    | ok h1 => simp
  · intro g h new prev f ef e
    rw [add_after_eq]
    cases hv : validateAction g h new (some prev) with
    | error e1 => simp
    | ok h1 => simp
  · intro g h new f ef e
    rw [appendAction_eq]
    cases hv : validateAction g h new none with
    | error e1 => simp
    | ok h1 => simp

/-! ## Claim C10 -/

/-- C10: when both `force_exec` and `exec_if_failed` are set,
`force_exec` takes precedence: the state list is the forced set, and an
insertion with both flags gives the inserted node a dependency entry
with the forced required-state set, not the failure set. -/
theorem c10_force_exec_precedence :
    stateList true true = ["Succeeded", "Failed", "Skipped", "TimedOut"] ∧
    (∀ (g : ActionsG) (h : Heap) (new prev : Nat) (g' : ActionsG) (h' : Heap),
      new < h.store.length → (h.get prev).isSkelton = false →
      add_after g h new prev true true = .ok (g', h') →
      (h'.get new).runafter = dictSet (h.get new).runafter
        (h.get prev).action_name
        ["Succeeded", "Failed", "Skipped", "TimedOut"]) ∧
    (∀ (g : ActionsG) (h : Heap) (new : Nat) (g' : ActionsG) (h' : Heap),
      new < h.store.length → g.last_update_node ∈ regIds g →
      (h.get g.last_update_node).isSkelton = false →
      appendAction g h new true true = .ok (g', h') →
      (h'.get new).runafter = dictSet (h.get new).runafter
        (h.get g.last_update_node).action_name
        ["Succeeded", "Failed", "Skipped", "TimedOut"]) := by
  refine ⟨rfl, ?_, ?_⟩
  · intro g h new prev g' h' hv hskel hok
    rw [add_after_eq] at hok
    cases hva : validateAction g h new (some prev) with
    | error e => rw [hva] at hok; cases hok
    | ok h1 =>
      rw [hva] at hok
      obtain ⟨hnotin, hnp, hprev, hinit, hh1⟩ :=
        validateAction_ok_inv g h new (some prev) h1 hva
      have hpmem : prev ∈ regIds g := hprev prev rfl
      have hpne : prev ≠ new := fun he => hnotin (he ▸ hpmem)
      have hv1 : new < h1.store.length := by
        rw [hh1, Heap.set_length]; exact hv
      have hspec := insertTail_spec g h1 new prev true true hv1
      have hh' : h' = (insertTail g h1 new prev true true).2 :=
        (congrArg Prod.snd (Except.ok.inj hok)).symm
      rw [hh', hspec.2.2.1]
      have hgp : h1.get prev = h.get prev := by
        rw [hh1]; exact Heap.get_set_ne h new prev _ hpne
      have hgn : (h1.get new).runafter = (h.get new).runafter := by
        rw [hh1, Heap.get_set_self h new _ hv]
      rw [hgp, hgn, hskel]
      simp [stateList]
  · intro g h new g' h' hv hlmem hskel hok
    rw [appendAction_eq] at hok
    cases hva : validateAction g h new none with
    | error e => rw [hva] at hok; cases hok
    | ok h1 =>
      rw [hva] at hok
      obtain ⟨hnotin, hnp, _, hinit, hh1⟩ :=
        validateAction_ok_inv g h new none h1 hva
      have hpne : g.last_update_node ≠ new := fun he => hnotin (he ▸ hlmem)
      have hv1 : new < h1.store.length := by
        rw [hh1, Heap.set_length]; exact hv
      have hspec := insertTail_spec g h1 new g.last_update_node true true hv1
      have hh' : h' = (insertTail g h1 new g.last_update_node true true).2 :=
        (congrArg Prod.snd (Except.ok.inj hok)).symm
      rw [hh', hspec.2.2.1]
      have hgp : h1.get g.last_update_node = h.get g.last_update_node := by
        rw [hh1]; exact Heap.get_set_ne h new _ _ hpne
      have hgn : (h1.get new).runafter = (h.get new).runafter := by
        rw [hh1, Heap.get_set_self h new _ hv]
      rw [hgp, hgn, hskel]
      simp [stateList]

/-! ## Shared concrete example states -/

/-- Empty heap for concrete examples. -/
def wH0 : Heap := ⟨[], 0⟩

/-- A fresh non-root Actions container on the empty heap. -/
def wS : ActionsG × Heap := mkActions wH0 false

/-- A first concrete action named a. -/
def wA : Nat × Heap := mkAction wS.2 "a" "T" "p1" false

/-- The container after inserting the first action at the top. -/
def wR1 : ActionsG × Heap :=
  (ActionsG.add_top wS.1 wA.2 wA.1).toOption.getD default

/-- A second concrete action named b, allocated after the first
insertion. -/
def wB : Nat × Heap := mkAction wR1.2 "b" "T" "p2" false

/-- C10 witness: inserting after the first node with both flags set
gives the forced required-state set. -/
theorem c10_force_exec_precedence_witness :
    wB.1 < wB.2.store.length ∧
      (wB.2.get wA.1).isSkelton = false ∧
      ∃ g' h', add_after wR1.1 wB.2 wB.1 wA.1 true true = .ok (g', h') ∧
        (h'.get wB.1).runafter = dictSet (wB.2.get wB.1).runafter
          ((wB.2.get wA.1).action_name)
          ["Succeeded", "Failed", "Skipped", "TimedOut"] := by
  refine ⟨by decide, by decide, _, _, rfl, ?_⟩
  exact c10_force_exec_precedence.2.1 wR1.1 wB.2 wB.1 wA.1 _ _
    (by decide) (by decide) rfl

/-! ## Claim C9 -/

/-- C9: registry name uniqueness is preserved by every successful
insertion — the inserted node is registered under the collision-renamed
name, which is never an existing key, so the registry grows by exactly
the one new binding and its keys stay pairwise distinct; and inserting
two nodes constructed with the same name keeps both, the second under
the name with the numeric suffix, both present in the export. -/
theorem c9_registry_names :
    (∀ (g : ActionsG) (h : Heap) (new : Nat) (g' : ActionsG) (h' : Heap),
      new < h.store.length → (regKeys g).Nodup →
      ActionsG.add_top g h new = .ok (g', h') →
      pyRename (regKeys g) (h.get new).action_name ∉ regKeys g ∧
      g'.nodes = g.nodes ++
        [(pyRename (regKeys g) (h.get new).action_name, new)] ∧
      (regKeys g').Nodup) ∧
    (∀ (g : ActionsG) (h : Heap) (new prev : Nat) (f ef : Bool)
      (g' : ActionsG) (h' : Heap),
      new < h.store.length → (regKeys g).Nodup →
      add_after g h new prev f ef = .ok (g', h') →
      pyRename (regKeys g) (h.get new).action_name ∉ regKeys g ∧
      g'.nodes = g.nodes ++
        [(pyRename (regKeys g) (h.get new).action_name, new)] ∧
      (regKeys g').Nodup) ∧
    (∀ (g : ActionsG) (h : Heap) (new : Nat) (f ef : Bool)
      (g' : ActionsG) (h' : Heap),
      new < h.store.length → (regKeys g).Nodup →
      appendAction g h new f ef = .ok (g', h') →
      pyRename (regKeys g) (h.get new).action_name ∉ regKeys g ∧
      g'.nodes = g.nodes ++
        [(pyRename (regKeys g) (h.get new).action_name, new)] ∧
      (regKeys g').Nodup) ∧
    (∃ g1 h1 g2 h2,
      ActionsG.add_top wS.1 wA.2 wA.1 = .ok (g1, h1) ∧
      appendAction g1 (mkAction h1 "a" "T" "p2" false).2
        (mkAction h1 "a" "T" "p2" false).1 false false = .ok (g2, h2) ∧
      regKeys g2 = ["root", "a", "a_1"] ∧
      (exportActions g2 h2).map Prod.fst = ["a", "a_1"]) := by
  have main : ∀ (g : ActionsG) (h h1 : Heap) (new parent : Nat)
      (f ef : Bool) (prev : Option Nat) (g' : ActionsG) (h' : Heap),
      new < h.store.length → (regKeys g).Nodup →
      validateAction g h new prev = .ok h1 →
      (Except.ok (insertTail g h1 new parent f ef) :
        Except PyErr (ActionsG × Heap)) = .ok (g', h') →
      pyRename (regKeys g) (h.get new).action_name ∉ regKeys g ∧
      g'.nodes = g.nodes ++
        [(pyRename (regKeys g) (h.get new).action_name, new)] ∧
      (regKeys g').Nodup := by
    intro g h h1 new parent f ef prev g' h' hv hnd hva hok
    obtain ⟨hnotin, hnp, _, hinit, hh1⟩ :=
      validateAction_ok_inv g h new prev h1 hva
    have hv1 : new < h1.store.length := by
      rw [hh1, Heap.set_length]; exact hv
    have hspec := insertTail_spec g h1 new parent f ef hv1
    have hg' : g' = (insertTail g h1 new parent f ef).1 :=
      (congrArg Prod.fst (Except.ok.inj hok)).symm
    have hname1 : (h1.get new).action_name =
        pyRename (regKeys g) (h.get new).action_name := by
      rw [hh1, Heap.get_set_self h new _ hv]
    have hfr := pyRename_not_mem (regKeys g) ((h.get new).action_name)
    refine ⟨hfr, ?_, ?_⟩
    · rw [hg', hspec.1]
      rw [hname1]
      exact dictSet_eq_append g.nodes _ new hfr
    · have hnodes : g'.nodes = g.nodes ++
          [(pyRename (regKeys g) (h.get new).action_name, new)] := by
        rw [hg', hspec.1, hname1]
        exact dictSet_eq_append g.nodes _ new hfr
      have hkeys : regKeys g' = regKeys g ++
          [pyRename (regKeys g) (h.get new).action_name] := by
        show g'.nodes.map Prod.fst = g.nodes.map Prod.fst ++ _
        rw [hnodes]
        simp
      rw [hkeys]
      simp [List.nodup_append, hnd, hfr]
  refine ⟨?_, ?_, ?_, ?_⟩
  · intro g h new g' h' hv hnd hok
    rw [add_top_eq] at hok
    cases hva : validateAction g h new none with
    | error e => rw [hva] at hok; cases hok
    | ok h1 =>
      rw [hva] at hok
      exact main g h h1 new g.root_node false false none g' h' hv hnd hva hok
  · intro g h new prev f ef g' h' hv hnd hok
    rw [add_after_eq] at hok
    cases hva : validateAction g h new (some prev) with
    | error e => rw [hva] at hok; cases hok
    | ok h1 =>
      rw [hva] at hok
      exact main g h h1 new prev f ef (some prev) g' h' hv hnd hva hok
  · intro g h new f ef g' h' hv hnd hok
    rw [appendAction_eq] at hok
    cases hva : validateAction g h new none with
    | error e => rw [hva] at hok; cases hok
    | ok h1 =>
      rw [hva] at hok
      exact main g h h1 new g.last_update_node f ef none g' h' hv hnd hva hok
  · exact ⟨_, _, _, _, rfl, rfl, rfl, rfl⟩

/-- C9 witness: the preservation statement applied at the concrete
first insertion. -/
theorem c9_registry_names_witness :
    wA.1 < wA.2.store.length ∧ (regKeys wS.1).Nodup ∧
      ∃ g' h', ActionsG.add_top wS.1 wA.2 wA.1 = .ok (g', h') ∧
        (pyRename (regKeys wS.1) ((wA.2.get wA.1).action_name) ∉
          regKeys wS.1 ∧
        g'.nodes = wS.1.nodes ++
          [(pyRename (regKeys wS.1) ((wA.2.get wA.1).action_name), wA.1)] ∧
        (regKeys g').Nodup) := by
  refine ⟨by decide, by decide, _, _, rfl, ?_⟩
  exact c9_registry_names.1 wS.1 wA.2 wA.1 _ _ (by decide) (by decide) rfl

/-! ## Abstract node trees

The `Actions` container maintains a tree of action nodes in the heap
(`root_node` and the `next_nodes` lists). To reason about `__deepcopy__`
and `__add__` over every graph, the tree is abstracted into a rose tree
carrying the heap id and the non-structural attributes of each node;
`flatAnn` flattens such a tree into its list of nodes, each annotated
with its parent (id, skeleton flag and name). -/

/-- The non-structural attributes of one node (a `Node` without its
`next_nodes` list). -/
structure NInfo where
  action_name : String
  atype : String
  runafter : List (String × List String)
  metadataId : Nat
  have_parent_node : Bool
  isSkelton : Bool
  isInitVariable : Bool
  payload : String
deriving Repr, DecidableEq, Inhabited

/-- Rebuild a `Node` from its attributes and a child list. -/
def NInfo.toNode (i : NInfo) (next : List Nat) : Node :=
  { action_name := i.action_name, atype := i.atype, runafter := i.runafter,
    metadataId := i.metadataId, next_nodes := next,
    have_parent_node := i.have_parent_node, isSkelton := i.isSkelton,
    isInitVariable := i.isInitVariable, payload := i.payload }

/-- A rose tree of action nodes: heap id, attributes, children in
`next_nodes` order. -/
inductive ATree where
  | mk (id : Nat) (info : NInfo) (children : List ATree)

/-- The heap id at the root. -/
def ATree.rootId : ATree → Nat
  | .mk id _ _ => id

/-- The attributes at the root. -/
def ATree.info : ATree → NInfo
  | .mk _ i _ => i

/-- The immediate subtrees. -/
def ATree.children : ATree → List ATree
  | .mk _ _ ts => ts

/-- Tree induction: the nested recursor of `ATree` specialised to a
single motive with a membership-quantified hypothesis on children. -/
theorem ATree.indOn {motive : ATree → Prop}
    (h : ∀ id i ts, (∀ t ∈ ts, motive t) → motive (.mk id i ts)) :
    ∀ t, motive t :=
  fun t =>
    @ATree.rec motive (fun ts => ∀ t ∈ ts, motive t)
      (fun id i ts ih => h id i ts ih)
      (fun t ht => by cases ht)
      (fun t ts iht ihts t' ht' => by
        rcases List.mem_cons.mp ht' with h1 | h2
        · exact h1 ▸ iht
        · exact ihts t' h2)
      t

/- Number of nodes of a tree / a forest. -/
mutual
def sizeT : ATree → Nat
  | .mk _ _ ts => sizeTL ts + 1
def sizeTL : List ATree → Nat
  | [] => 0
  | t :: ts => sizeT t + sizeTL ts
end

/- Height of a tree / a forest (the number of levels). -/
mutual
def depthT : ATree → Nat
  | .mk _ _ ts => depthTL ts + 1
def depthTL : List ATree → Nat
  | [] => 0
  | t :: ts => max (depthT t) (depthTL ts)
end

/-- The parent annotation of a flattened node: either the tree root, or
the parent id together with the parent's skeleton flag and name. -/
inductive PAnn where
  | root
  | par (pid : Nat) (skel : Bool) (name : String)
deriving Repr, DecidableEq

/-- One flattened node: parent annotation, heap id, attributes, ids of
the children. -/
structure FEntry where
  pa : PAnn
  id : Nat
  info : NInfo
  childIds : List Nat
deriving Repr, DecidableEq

/- Preorder flattening of a tree / a forest, annotating every node with
its parent data (`pa` for the root of the tree). -/
mutual
def flatAnn : PAnn → ATree → List FEntry
  | pa, .mk id i ts =>
    ⟨pa, id, i, ts.map ATree.rootId⟩ ::
      flatAnnL (.par id i.isSkelton i.action_name) ts
def flatAnnL : PAnn → List ATree → List FEntry
  | _, [] => []
  | pa, t :: ts => flatAnn pa t ++ flatAnnL pa ts
end

theorem flatAnn_mk (pa : PAnn) (id : Nat) (i : NInfo) (ts : List ATree) :
    flatAnn pa (.mk id i ts) =
      ⟨pa, id, i, ts.map ATree.rootId⟩ ::
        flatAnnL (.par id i.isSkelton i.action_name) ts := rfl

theorem flatAnnL_nil (pa : PAnn) : flatAnnL pa [] = [] := rfl

theorem flatAnnL_cons (pa : PAnn) (t : ATree) (ts : List ATree) :
    flatAnnL pa (t :: ts) = flatAnn pa t ++ flatAnnL pa ts := rfl

/-- Membership in a flattened forest comes from one of its trees. -/
theorem mem_flatAnnL (pa : PAnn) (ts : List ATree) (e : FEntry) :
    e ∈ flatAnnL pa ts ↔ ∃ t ∈ ts, e ∈ flatAnn pa t := by
  induction ts with
  | nil => simp [flatAnnL]
  | cons t ts ih =>
    rw [flatAnnL_cons]
    simp only [List.mem_append, ih, List.mem_cons]
    constructor
    · rintro (h1 | ⟨u, hu, he⟩)
      · exact ⟨t, Or.inl rfl, h1⟩
      · exact ⟨u, Or.inr hu, he⟩
    · rintro ⟨u, hu | hu, he⟩
      · exact Or.inl (hu ▸ he)
      · exact Or.inr ⟨u, hu, he⟩

/-- The root entry of a flattened tree. -/
theorem self_mem_flatAnn (pa : PAnn) (t : ATree) :
    (⟨pa, t.rootId, t.info, t.children.map ATree.rootId⟩ : FEntry) ∈
      flatAnn pa t := by
  cases t with
  | mk id i ts => exact List.mem_cons_self _ _

/-- A flattening has as many entries as the tree has nodes. -/
theorem length_flatAnn : ∀ (t : ATree) (pa : PAnn),
    (flatAnn pa t).length = sizeT t := by
  intro t
  induction t using ATree.indOn with
  | h id i ts ih =>
    intro pa
    have hl : ∀ (us : List ATree), (∀ u ∈ us, ∀ pa, (flatAnn pa u).length = sizeT u) →
        ∀ pa, (flatAnnL pa us).length = sizeTL us := by
      intro us
      induction us with
      | nil => intro _ _; rfl
      | cons u us ihl =>
        intro hall pa
        rw [flatAnnL_cons, List.length_append,
          hall u (List.mem_cons_self _ _) pa,
          ihl (fun v hv pav => hall v (List.mem_cons_of_mem _ hv) pav) pa]
        rfl
    rw [flatAnn_mk, List.length_cons, hl ts ih _]
    rfl

theorem length_flatAnnL : ∀ (ts : List ATree) (pa : PAnn),
    (flatAnnL pa ts).length = sizeTL ts := by
  intro ts
  induction ts with
  | nil => intro _; rfl
  | cons t ts ih =>
    intro pa
    rw [flatAnnL_cons, List.length_append, length_flatAnn, ih]
    rfl

/-- Every entry of a flattened forest has a `par` annotation (only the
root of the whole tree receives the given top annotation, and the
annotation handed to a forest is already `par`). -/
theorem flatAnnL_pa_par : ∀ (ts : List ATree) (p : Nat) (sk : Bool)
    (nm : String) (e : FEntry), e ∈ flatAnnL (.par p sk nm) ts →
    ∃ p2 sk2 nm2, e.pa = .par p2 sk2 nm2 := by
  have main : ∀ (t : ATree), ∀ (p : Nat) (sk : Bool) (nm : String)
      (e : FEntry), e ∈ flatAnn (.par p sk nm) t →
      ∃ p2 sk2 nm2, e.pa = .par p2 sk2 nm2 := by
    intro t
    induction t using ATree.indOn with
    | h id i ts ih =>
      intro p sk nm e he
      rw [flatAnn_mk] at he
      rcases List.mem_cons.mp he with h1 | h2
      · exact ⟨p, sk, nm, by rw [h1]⟩
      · clear he
        induction ts with
        | nil => cases h2
        | cons u us ihl =>
          rw [flatAnnL_cons] at h2
          rcases List.mem_append.mp h2 with h3 | h4
          · exact ih u (List.mem_cons_self _ _) _ _ _ e h3
          · exact ihl (fun v hv => ih v (List.mem_cons_of_mem _ hv)) h4
  intro ts p sk nm e he
  rcases (mem_flatAnnL _ ts e).mp he with ⟨t, _, het⟩
  exact main t p sk nm e het

/-- The flattening of a tree is its root entry followed by the
flattening of its children (with the root as parent). -/
theorem flatAnn_eq_cons (pa : PAnn) (t : ATree) :
    flatAnn pa t =
      ⟨pa, t.rootId, t.info, t.children.map ATree.rootId⟩ ::
        flatAnnL (.par t.rootId t.info.isSkelton t.info.action_name)
          t.children := by
  cases t with
  | mk id i ts => rfl

/-- The tail of a flattening does not depend on the top annotation. -/
theorem flatAnn_tail_irrel (pa pa2 : PAnn) (t : ATree) :
    (flatAnn pa t).tail = (flatAnn pa2 t).tail := by
  rw [flatAnn_eq_cons, flatAnn_eq_cons]
  rfl

/-- A nonempty child list below a node keeps every child depth below the
parent depth. -/
theorem depthT_child_lt : ∀ (ts : List ATree) (t : ATree), t ∈ ts →
    ∀ (id : Nat) (i : NInfo), depthT t < depthT (.mk id i ts) := by
  intro ts t ht id i
  show depthT t < depthTL ts + 1
  have : depthT t ≤ depthTL ts := by
    induction ts with
    | nil => cases ht
    | cons u us ih =>
      rcases List.mem_cons.mp ht with h1 | h2
      · subst h1
        exact le_max_left _ _
      · exact le_trans (ih h2) (le_max_right _ _)
  omega

/-- Depth is bounded by size. -/
theorem depthT_le_sizeT : ∀ (t : ATree), depthT t ≤ sizeT t := by
  intro t
  induction t using ATree.indOn with
  | h id i ts ih =>
    show depthTL ts + 1 ≤ sizeTL ts + 1
    have : depthTL ts ≤ sizeTL ts := by
      induction ts with
      | nil => exact le_refl _
      | cons u us ihl =>
        show max (depthT u) (depthTL us) ≤ sizeT u + sizeTL us
        have h1 : depthT u ≤ sizeT u := ih u (List.mem_cons_self _ _)
        have h2 : depthTL us ≤ sizeTL us :=
          ihl (fun v hv => ih v (List.mem_cons_of_mem _ hv))
        omega
    omega

/-- Sizes are positive. -/
theorem sizeT_pos (t : ATree) : 1 ≤ sizeT t := by
  cases t with
  | mk id i ts => show 1 ≤ sizeTL ts + 1; omega

/-- A duplicate-free list of naturals all below a bound is no longer
than the bound. -/
theorem nodup_lt_length_le (l : List Nat) (B : Nat) (hn : l.Nodup)
    (hb : ∀ x ∈ l, x < B) : l.length ≤ B := by
  have h1 : l.toFinset ⊆ Finset.range B := by
    intro x hx
    rw [Finset.mem_range]
    exact hb x (List.mem_toFinset.mp hx)
  have h2 : l.toFinset.card ≤ B := by
    have := Finset.card_le_card h1
    simpa using this
  rwa [List.toFinset_card_of_nodup hn] at h2

/-! ## The effect of cloning and of the rebuild loop on tree attributes -/

/-- Attributes of a node after `BaseAction.__deepcopy__`: fresh
operation metadata id, empty runafter, no parent (the child list is
rebuilt separately). -/
def midInfo (U : Nat) (i : NInfo) : NInfo :=
  { i with metadataId := U, runafter := [], have_parent_node := false }

/-- Attributes of a copied node after the worklist loop re-inserted it
beneath its parent (`none` for the root, which the loop never inserts;
otherwise the parent's skeleton flag and name): the parent flag is set
and the runafter map is rebuilt from scratch with the default state
list. -/
def finInfo (pa : Option (Bool × String)) (i : NInfo) : NInfo :=
  match pa with
  | none => i
  | some (true, _) => { i with have_parent_node := true, runafter := [] }
  | some (false, pn) =>
    { i with have_parent_node := true, runafter := [(pn, ["Succeeded"])] }

/-- Forget the parent id of an annotation. -/
def paOpt : PAnn → Option (Bool × String)
  | .root => none
  | .par _ sk nm => some (sk, nm)

/- The tree produced by `Actions.copy_nodes` from a represented tree:
ids are assigned in preorder starting at the heap length `L`, metadata
ids in preorder starting at the uuid counter `U` (`copy_nodes` allocates
exactly one object and draws exactly one uuid per node, in preorder). -/
mutual
def cloneT (L U : Nat) : ATree → ATree
  | .mk _ i ts => .mk L (midInfo U i) (cloneTL (L + 1) (U + 1) ts)
def cloneTL (L U : Nat) : List ATree → List ATree
  | [] => []
  | t :: ts => cloneT L U t :: cloneTL (L + sizeT t) (U + sizeT t) ts
end

/- The tree after the worklist loop of `Actions.__deepcopy__` finished
re-inserting a copied tree: every node's attributes pass through
`finInfo` with its parent annotation. -/
mutual
def finT (pa : Option (Bool × String)) : ATree → ATree
  | .mk id i ts =>
    .mk id (finInfo pa i) (finTL (some (i.isSkelton, i.action_name)) ts)
def finTL (pa : Option (Bool × String)) : List ATree → List ATree
  | [] => []
  | t :: ts => finT pa t :: finTL pa ts
end

theorem rootId_cloneT (L U : Nat) (t : ATree) :
    (cloneT L U t).rootId = L := by
  cases t with
  | mk id i ts => rfl

theorem rootId_finT (pa : Option (Bool × String)) (t : ATree) :
    (finT pa t).rootId = t.rootId := by
  cases t with
  | mk id i ts => rfl

theorem finInfo_isSkelton (pa : Option (Bool × String)) (i : NInfo) :
    (finInfo pa i).isSkelton = i.isSkelton := by
  match pa with
  | none => rfl
  | some (true, _) => rfl
  | some (false, pn) => rfl

theorem finInfo_action_name (pa : Option (Bool × String)) (i : NInfo) :
    (finInfo pa i).action_name = i.action_name := by
  match pa with
  | none => rfl
  | some (true, _) => rfl
  | some (false, pn) => rfl

theorem finInfo_atype (pa : Option (Bool × String)) (i : NInfo) :
    (finInfo pa i).atype = i.atype := by
  match pa with
  | none => rfl
  | some (true, _) => rfl
  | some (false, pn) => rfl

theorem finInfo_payload (pa : Option (Bool × String)) (i : NInfo) :
    (finInfo pa i).payload = i.payload := by
  match pa with
  | none => rfl
  | some (true, _) => rfl
  | some (false, pn) => rfl

theorem finInfo_metadataId (pa : Option (Bool × String)) (i : NInfo) :
    (finInfo pa i).metadataId = i.metadataId := by
  match pa with
  | none => rfl
  | some (true, _) => rfl
  | some (false, pn) => rfl

theorem finInfo_isInitVariable (pa : Option (Bool × String)) (i : NInfo) :
    (finInfo pa i).isInitVariable = i.isInitVariable := by
  match pa with
  | none => rfl
  | some (true, _) => rfl
  | some (false, pn) => rfl

/-- The ids of a cloned tree are consecutive from the base `L` in
preorder. -/
theorem ids_cloneT : ∀ (t : ATree) (pa : PAnn) (L U : Nat),
    (flatAnn pa (cloneT L U t)).map FEntry.id = List.range' L (sizeT t) := by
  intro t
  induction t using ATree.indOn with
  | h id i ts ih =>
    intro pa L U
    have hl : ∀ (us : List ATree),
        (∀ u ∈ us, ∀ pa L U,
          (flatAnn pa (cloneT L U u)).map FEntry.id = List.range' L (sizeT u)) →
        ∀ pa L U, (flatAnnL pa (cloneTL L U us)).map FEntry.id =
          List.range' L (sizeTL us) := by
      intro us
      induction us with
      | nil => intro _ _ _ _; rfl
      | cons u us ihl =>
        intro hall pa L U
        show (flatAnnL pa (cloneT L U u :: cloneTL (L + sizeT u) (U + sizeT u) us)).map FEntry.id = _
        rw [flatAnnL_cons, List.map_append,
          hall u (List.mem_cons_self _ _) pa L U,
          ihl (fun v hv => hall v (List.mem_cons_of_mem _ hv)) pa
            (L + sizeT u) (U + sizeT u)]
        show List.range' L (sizeT u) ++ List.range' (L + sizeT u) (sizeTL us) =
          List.range' L (sizeT u + sizeTL us)
        rw [List.range'_append_1 L (sizeT u) (sizeTL us),
          Nat.add_comm (sizeTL us) (sizeT u)]
    show (flatAnn pa (.mk L (midInfo U i) (cloneTL (L + 1) (U + 1) ts))).map FEntry.id = _
    rw [flatAnn_mk, List.map_cons, hl ts ih _ (L + 1) (U + 1)]
    show L :: List.range' (L + 1) (sizeTL ts) = List.range' L (sizeTL ts + 1)
    rw [List.range'_succ]

/-- Parent annotations related up to the parent id: the skeleton flag
and parent name agree (the copy keeps both, only the id changes). -/
def paRel : PAnn → PAnn → Prop
  | .root, .root => True
  | .par _ sk nm, .par _ sk2 nm2 => sk2 = sk ∧ nm2 = nm
  | .root, .par _ _ _ => False
  | .par _ _ _, .root => False

/-- Entry-wise relation between an original flattened node and its
copy: the name, type tag, payload, skeleton flag and init-variable flag
are preserved, the runafter map is emptied, the parent flag cleared, the
metadata id drawn at or after `U`, and the parent annotation is related. -/
def cloneRel (U : Nat) (e e2 : FEntry) : Prop :=
  e2.info.action_name = e.info.action_name ∧
  e2.info.atype = e.info.atype ∧
  e2.info.payload = e.info.payload ∧
  e2.info.isSkelton = e.info.isSkelton ∧
  e2.info.isInitVariable = e.info.isInitVariable ∧
  e2.info.runafter = [] ∧
  e2.info.have_parent_node = false ∧
  U ≤ e2.info.metadataId ∧
  paRel e.pa e2.pa

/-- A cloned tree flattens to entries `cloneRel`-related to the
original entries, position by position. -/
theorem forall2_cloneT : ∀ (t : ATree) (pa pa2 : PAnn) (L U U2 : Nat),
    paRel pa pa2 → U ≤ U2 →
    List.Forall₂ (cloneRel U) (flatAnn pa t) (flatAnn pa2 (cloneT L U2 t)) := by
  intro t
  induction t using ATree.indOn with
  | h id i ts ih =>
    intro pa pa2 L U U2 hpa hU
    have hl : ∀ (us : List ATree),
        (∀ u ∈ us, ∀ pa pa2 L U U2, paRel pa pa2 → U ≤ U2 →
          List.Forall₂ (cloneRel U) (flatAnn pa u) (flatAnn pa2 (cloneT L U2 u))) →
        ∀ pa pa2 L U U2, paRel pa pa2 → U ≤ U2 →
        List.Forall₂ (cloneRel U) (flatAnnL pa us)
          (flatAnnL pa2 (cloneTL L U2 us)) := by
      intro us
      induction us with
      | nil =>
        intro _ pa pa2 L U U2 _ _
        exact List.Forall₂.nil
      | cons u us ihl =>
        intro hall pa pa2 L U U2 hpa hU
        show List.Forall₂ (cloneRel U) (flatAnnL pa (u :: us))
          (flatAnnL pa2 (cloneT L U2 u :: cloneTL (L + sizeT u) (U2 + sizeT u) us))
        rw [flatAnnL_cons, flatAnnL_cons]
        exact List.rel_append
          (hall u (List.mem_cons_self _ _) pa pa2 L U U2 hpa hU)
          (ihl (fun v hv => hall v (List.mem_cons_of_mem _ hv)) pa pa2
            (L + sizeT u) U (U2 + sizeT u) hpa (le_trans hU (Nat.le_add_right _ _)))
    show List.Forall₂ (cloneRel U) (flatAnn pa (.mk id i ts))
      (flatAnn pa2 (.mk L (midInfo U2 i) (cloneTL (L + 1) (U2 + 1) ts)))
    rw [flatAnn_mk, flatAnn_mk]
    refine List.Forall₂.cons ?_ ?_
    · exact ⟨rfl, rfl, rfl, rfl, rfl, rfl, rfl, hU, hpa⟩
    · exact hl ts ih _ _ (L + 1) U (U2 + 1) ⟨rfl, rfl⟩ (by omega)

/-- The entry transformation realised by the worklist loop. -/
def finMap (e : FEntry) : FEntry :=
  ⟨e.pa, e.id, finInfo (paOpt e.pa) e.info, e.childIds⟩

theorem rootIds_finTL : ∀ (ts : List ATree) (pa : Option (Bool × String)),
    (finTL pa ts).map ATree.rootId = ts.map ATree.rootId := by
  intro ts pa
  induction ts with
  | nil => rfl
  | cons t ts ih =>
    show (finT pa t).rootId :: (finTL pa ts).map ATree.rootId = _
    rw [rootId_finT, ih]
    rfl

/-- Flattening commutes with the worklist transformation (for a top
annotation matching the `finT` parameter). -/
theorem flatAnn_finT : ∀ (t : ATree) (pa : PAnn),
    flatAnn pa (finT (paOpt pa) t) = (flatAnn pa t).map finMap := by
  intro t
  induction t using ATree.indOn with
  | h id i ts ih =>
    intro pa
    have hl : ∀ (us : List ATree),
        (∀ u ∈ us, ∀ pa, flatAnn pa (finT (paOpt pa) u) = (flatAnn pa u).map finMap) →
        ∀ (p : Nat) (sk : Bool) (nm : String),
        flatAnnL (.par p sk nm) (finTL (some (sk, nm)) us) =
          (flatAnnL (.par p sk nm) us).map finMap := by
      intro us
      induction us with
      | nil => intro _ _ _ _; rfl
      | cons u us ihl =>
        intro hall p sk nm
        show flatAnnL (.par p sk nm)
          (finT (some (sk, nm)) u :: finTL (some (sk, nm)) us) = _
        rw [flatAnnL_cons, flatAnnL_cons, List.map_append,
          ihl (fun v hv => hall v (List.mem_cons_of_mem _ hv)) p sk nm]
        have h1 : paOpt (.par p sk nm) = some (sk, nm) := rfl
        rw [← h1, hall u (List.mem_cons_self _ _) (.par p sk nm)]
    show flatAnn pa (.mk id (finInfo (paOpt pa) i)
      (finTL (some (i.isSkelton, i.action_name)) ts)) = _
    rw [flatAnn_mk, flatAnn_mk, List.map_cons]
    rw [finInfo_isSkelton, finInfo_action_name, rootIds_finTL,
      hl ts ih id i.isSkelton i.action_name]
    rfl

/-- Project a pointwise relation to equal images under maps. -/
theorem forall2_map_eq {α β γ : Type} (R : α → β → Prop) (f : α → γ)
    (g : β → γ) (hfg : ∀ a b, R a b → g b = f a) :
    ∀ (l : List α) (l2 : List β), List.Forall₂ R l l2 →
    l2.map g = l.map f := by
  intro l l2 h
  induction h with
  | nil => rfl
  | cons hab _ ih => simp [ih, hfg _ _ hab]

/-- Project a pointwise relation to a membership-quantified fact. -/
theorem forall2_mem {α β : Type} (R : α → β → Prop) :
    ∀ (l : List α) (l2 : List β), List.Forall₂ R l l2 →
    ∀ b ∈ l2, ∃ a ∈ l, R a b := by
  intro l l2 h
  induction h with
  | nil => intro b hb; cases hb
  | cons hab _ ih =>
    intro b hb
    rcases List.mem_cons.mp hb with h1 | h2
    · exact ⟨_, List.mem_cons_self _ _, h1 ▸ hab⟩
    · rcases ih b h2 with ⟨a, ha, hr⟩
      exact ⟨a, List.mem_cons_of_mem _ ha, hr⟩

/-! ## Step lemmas for the clone and merge worklist loops -/

theorem cloneNode_fst (h : Heap) (src : Nat) :
    (cloneNode h src).1 = h.store.length := rfl

theorem cloneNode_length (h : Heap) (src : Nat) :
    (cloneNode h src).2.store.length = h.store.length + 1 := by
  show (h.store ++ [_]).length = h.store.length + 1
  rw [List.length_append]
  rfl

theorem cloneNode_uuid (h : Heap) (src : Nat) :
    (cloneNode h src).2.uuidCounter = h.uuidCounter + 1 := rfl

theorem cloneNode_get_lt (h : Heap) (src x : Nat) (hx : x < h.store.length) :
    (cloneNode h src).2.get x = h.get x := by
  show (h.store ++ [_]).getD x default = h.store.getD x default
  rw [List.getD_append _ _ _ _ hx]

theorem cloneNode_get_new (h : Heap) (src : Nat) :
    (cloneNode h src).2.get h.store.length =
      { h.get src with
        metadataId := h.uuidCounter
        runafter := []
        next_nodes := []
        have_parent_node := false } := by
  show (h.store ++ [_]).getD h.store.length default = _
  rw [List.getD_append_right _ _ _ _ (le_refl _), Nat.sub_self]
  rfl

theorem mkSkelton_get_lt (h : Heap) (nm : String) (x : Nat)
    (hx : x < h.store.length) : (mkSkelton h nm).2.get x = h.get x := by
  show (h.store ++ [_]).getD x default = h.store.getD x default
  rw [List.getD_append _ _ _ _ hx]

theorem mkSkelton_length (h : Heap) (nm : String) :
    (mkSkelton h nm).2.store.length = h.store.length + 1 := by
  show (h.store ++ [_]).length = h.store.length + 1
  rw [List.length_append]
  rfl

theorem mkSkelton_uuid (h : Heap) (nm : String) :
    (mkSkelton h nm).2.uuidCounter = h.uuidCounter + 1 := rfl

/-- Pushing each element of a list onto a stack (the Python
`for ...: stack.append(...)` pattern, a left fold of cons) prepends the
reversed mapped list. -/
theorem foldl_push {α β : Type} (f : α → β) : ∀ (l : List α) (st : List β),
    l.foldl (fun s c => f c :: s) st = (l.map f).reverse ++ st := by
  intro l
  induction l with
  | nil => intro st; rfl
  | cons a l ih =>
    intro st
    show l.foldl _ (f a :: st) = ((f a :: l.map f).reverse) ++ st
    rw [ih (f a :: st)]
    simp

/-- Association lookup finds a present binding when keys are
duplicate-free. -/
theorem lookup_of_mem_nodup {α : Type} :
    ∀ (l : List (String × α)) (k : String) (v : α),
    (l.map Prod.fst).Nodup → (k, v) ∈ l → l.lookup k = some v := by
  intro l
  induction l with
  | nil => intro k v _ hm; cases hm
  | cons p l ih =>
    obtain ⟨a, b⟩ := p
    intro k v hnd hm
    rw [List.map_cons] at hnd
    rcases List.mem_cons.mp hm with h1 | h2
    · cases h1
      simp [List.lookup]
    · have hkne : k ≠ a := by
        intro hkk
        have hmem : k ∈ l.map Prod.fst := List.mem_map_of_mem Prod.fst h2
        exact (List.nodup_cons.mp hnd).1 (hkk ▸ hmem)
      have hk : (k == a) = false := by simpa using hkne
      rw [List.lookup, hk]
      exact ih k v (List.nodup_cons.mp hnd).2 h2

/-- A successful association lookup comes from a present binding. -/
theorem mem_of_lookup {α : Type} :
    ∀ (l : List (String × α)) (k : String) (v : α),
    l.lookup k = some v → (k, v) ∈ l := by
  intro l
  induction l with
  | nil => intro k v hl; cases hl
  | cons p l ih =>
    obtain ⟨a, b⟩ := p
    intro k v hl
    rw [List.lookup] at hl
    by_cases hk : k = a
    · rw [show (k == a) = true by simpa using hk] at hl
      have hbv : b = v := by
        have := hl
        simpa using this
      cases hbv
      cases hk
      exact List.mem_cons_self _ _
    · rw [show (k == a) = false by simpa using hk] at hl
      exact List.mem_cons_of_mem _ (ih k v hl)

/-- Two nodes with equal attributes are equal. -/
theorem Node.eq_of_fields (n m : Node)
    (h1 : n.action_name = m.action_name) (h2 : n.atype = m.atype)
    (h3 : n.runafter = m.runafter) (h4 : n.metadataId = m.metadataId)
    (h5 : n.next_nodes = m.next_nodes)
    (h6 : n.have_parent_node = m.have_parent_node)
    (h7 : n.isSkelton = m.isSkelton)
    (h8 : n.isInitVariable = m.isInitVariable)
    (h9 : n.payload = m.payload) : n = m := by
  cases n
  cases m
  simp_all

/-- Forward success of `__validate_action`: when the four checks pass,
validation returns the heap with the collision-renamed node. -/
theorem validateAction_ok_of (g : ActionsG) (h : Heap) (new : Nat)
    (prev : Option Nat)
    (h1 : new ∉ regIds g)
    (h2 : (h.get new).have_parent_node = false)
    (h3 : ∀ p, prev = some p → p ∈ regIds g)
    (h4 : (h.get new).isInitVariable = true → g.is_root_actions = true) :
    validateAction g h new prev = .ok (h.set new
      { (h.get new) with
        action_name := pyRename (regKeys g) (h.get new).action_name }) := by
  have c1 : ((regIds g).contains new) = false := by simpa using h1
  have c4 : (!g.is_root_actions && (h.get new).isInitVariable) = false := by
    cases hr : g.is_root_actions with
    | true => simp
    | false =>
      cases hi : (h.get new).isInitVariable with
      | false => simp
      | true => exact absurd (h4 hi) (by simp [hr])
  unfold validateAction
  cases prev with
  | none =>
    rw [c1, h2, c4]
    rfl
  | some p =>
    have c3 : ((regIds g).contains p) = true := by simpa using h3 p rfl
    simp only [c1, h2, c3, c4]
    rfl

/-- Full behaviour of `add_after` on a fresh, parentless node with a
registered reference node: the insertion succeeds, the node is renamed
by the collision rule, linked, flagged and given its runafter entry, the
registry gains exactly one binding, and every other node except the
parent (which at most gains a child reference) is untouched. -/
theorem add_after_fresh_spec (g : ActionsG) (h : Heap) (new prev : Nat)
    (f ef : Bool)
    (hlen : new < h.store.length)
    (hreg : new ∉ regIds g)
    (hpar : (h.get new).have_parent_node = false)
    (hprev : prev ∈ regIds g)
    (hinit : (h.get new).isInitVariable = true → g.is_root_actions = true)
    (hpn : prev ≠ new) :
    ∃ g2 h2,
      add_after g h new prev f ef = .ok (g2, h2) ∧
      g2.root_node = g.root_node ∧
      g2.is_root_actions = g.is_root_actions ∧
      g2.last_update_node = new ∧
      g2.nodes = dictSet g.nodes
        (pyRename (regKeys g) (h.get new).action_name) new ∧
      h2.get new = { h.get new with
        action_name := pyRename (regKeys g) (h.get new).action_name
        have_parent_node := true
        runafter :=
          if (h.get prev).isSkelton then []
          else dictSet (h.get new).runafter (h.get prev).action_name
            (stateList f ef) } ∧
      (∀ x, x ≠ new → x ≠ prev → h2.get x = h.get x) ∧
      (∃ nn, h2.get prev = { h.get prev with next_nodes := nn }) ∧
      ((h.get prev).next_nodes.contains new = true →
        h2.get prev = h.get prev) ∧
      h2.store.length = h.store.length ∧
      h2.uuidCounter = h.uuidCounter := by
  have hval := validateAction_ok_of g h new (some prev) hreg hpar
    (fun p hp => by cases hp; exact hprev) hinit
  set rn := pyRename (regKeys g) (h.get new).action_name with hrn
  set h1 := h.set new { (h.get new) with action_name := rn } with hh1
  have h1len : h1.store.length = h.store.length := Heap.set_length _ _ _
  have h1uuid : h1.uuidCounter = h.uuidCounter := Heap.set_uuid _ _ _
  have h1new : h1.get new = { (h.get new) with action_name := rn } :=
    Heap.get_set_self _ _ _ hlen
  have h1ne : ∀ x, x ≠ new → h1.get x = h.get x := by
    intro x hx
    exact Heap.get_set_ne _ _ _ _ hx
  have h1prev : h1.get prev = h.get prev := h1ne prev hpn
  have heq : add_after g h new prev f ef =
      .ok (insertTail g h1 new prev f ef) := by
    rw [add_after_eq, hval]
  obtain ⟨sfst, sfields, srun, sframe, slen, suuid, snext, spshape, spnoop⟩ :=
    insertTail_spec g h1 new prev f ef (by rw [h1len]; exact hlen)
  refine ⟨(insertTail g h1 new prev f ef).1,
    (insertTail g h1 new prev f ef).2, heq, ?_, ?_, ?_, ?_, ?_, ?_, ?_, ?_,
    ?_, ?_⟩
  · rw [sfst]
  · rw [sfst]
  · rw [sfst]
  · rw [sfst, h1new]
  · refine Node.eq_of_fields _ _ ?_ ?_ ?_ ?_ ?_ ?_ ?_ ?_ ?_
    · rw [sfields.1, h1new]
    · rw [sfields.2.2.2.1, h1new]
    · rw [srun, h1prev, h1new]
    · rw [sfields.2.2.2.2.1, h1new]
    · rw [snext hpn, h1new]
    · rw [sfields.2.1]
    · rw [sfields.2.2.2.2.2.1, h1new]
    · rw [sfields.2.2.2.2.2.2, h1new]
    · rw [sfields.2.2.1, h1new]
  · intro x hxn hxp
    rw [sframe x hxn hxp, h1ne x hxn]
  · obtain ⟨nn, hnn⟩ := spshape hpn
    exact ⟨nn, by rw [hnn, h1prev]⟩
  · intro hc
    rw [spnoop hpn (by rw [h1prev]; exact hc), h1prev]
  · rw [slen, h1len]
  · rw [suuid, h1uuid]

/-- Content facts about flattened entries (facts not mentioning the
parent annotation) transfer between top annotations. -/
theorem flatAnn_pa_content {P : FEntry → Prop}
    (hP : ∀ (pa pa2 : PAnn) (id : Nat) (i : NInfo) (ci : List Nat),
      P ⟨pa, id, i, ci⟩ → P ⟨pa2, id, i, ci⟩)
    (t : ATree) (pa pa2 : PAnn) (hf : ∀ e ∈ flatAnn pa t, P e) :
    ∀ e ∈ flatAnn pa2 t, P e := by
  intro e he
  rw [flatAnn_eq_cons] at he
  rcases List.mem_cons.mp he with h1 | h2
  · subst h1
    exact hP pa pa2 _ _ _
      (hf _ (by rw [flatAnn_eq_cons]; exact List.mem_cons_self _ _))
  · exact hf e (by rw [flatAnn_eq_cons]; exact List.mem_cons_of_mem _ h2)

/-- `add_next_action` appends when the child is not yet a member. -/
theorem addNextAction_push (h : Heap) (p c : Nat)
    (hc : (h.get p).next_nodes.contains c = false) :
    addNextAction h p c =
      h.set p { h.get p with
        next_nodes := (h.get p).next_nodes ++ [c] } := by
  dsimp only [addNextAction]
  rw [hc]
  rfl

/-- One unfolding of `copy_nodes`. -/
theorem copy_nodes_succ (fuel : Nat) (h : Heap) (src : Nat) :
    copy_nodes (fuel + 1) h src =
      copyChildrenWith (copy_nodes fuel)
        (((cloneNode h src).2.get src).next_nodes)
        (cloneNode h src).1 (cloneNode h src).2 := rfl

/-- The correctness statement for one `copy_nodes` call on a tree
represented in the heap: the call allocates exactly `sizeT t` objects
and uuids, returns the first fresh id, leaves every pre-existing object
untouched, and the extended heap represents the cloned tree. -/
def CopySpec (fuel : Nat) (t : ATree) : Prop :=
  ∀ (h : Heap) (B : Nat),
    depthT t < fuel →
    B ≤ h.store.length →
    (∀ e ∈ flatAnn .root t, e.id < B) →
    (∀ e ∈ flatAnn .root t, h.get e.id = e.info.toNode e.childIds) →
    ∃ h2,
      copy_nodes fuel h t.rootId = some (h.store.length, h2) ∧
      h2.store.length = h.store.length + sizeT t ∧
      h2.uuidCounter = h.uuidCounter + sizeT t ∧
      (∀ x, x < h.store.length → h2.get x = h.get x) ∧
      (∀ (pa : PAnn),
        ∀ e ∈ flatAnn pa (cloneT h.store.length h.uuidCounter t),
        h2.get e.id = e.info.toNode e.childIds)

/-- The child loop of `copy_nodes`, specified over the abstract child
forest: it copies each subtree in order, linking the new roots under
`nid`. -/
theorem copyChildren_ok : ∀ (us : List ATree) (fuel : Nat),
    (∀ u ∈ us, CopySpec fuel u) →
    ∀ (h : Heap) (B nid : Nat) (pn : Node),
      (∀ u ∈ us, depthT u < fuel) →
      B ≤ h.store.length →
      (∀ u ∈ us, ∀ e ∈ flatAnn .root u, e.id < B) →
      (∀ u ∈ us, ∀ e ∈ flatAnn .root u,
        h.get e.id = e.info.toNode e.childIds) →
      B ≤ nid →
      nid < h.store.length →
      h.get nid = pn →
      (∀ x ∈ pn.next_nodes, x < h.store.length) →
      ∃ h2,
        copyChildrenWith (copy_nodes fuel) (us.map ATree.rootId) nid h =
          some (nid, h2) ∧
        h2.store.length = h.store.length + sizeTL us ∧
        h2.uuidCounter = h.uuidCounter + sizeTL us ∧
        (∀ x, x < h.store.length → x ≠ nid → h2.get x = h.get x) ∧
        h2.get nid = { pn with next_nodes := pn.next_nodes ++
          (cloneTL h.store.length h.uuidCounter us).map ATree.rootId } ∧
        (∀ (pa : PAnn),
          ∀ e ∈ flatAnnL pa (cloneTL h.store.length h.uuidCounter us),
          h2.get e.id = e.info.toNode e.childIds) := by
  intro us
  induction us with
  | nil =>
    intro fuel _ h B nid pn _ _ _ _ _ hnl hnp _
    refine ⟨h, rfl, by simp [sizeTL], by simp [sizeTL], fun x _ _ => rfl, ?_,
      ?_⟩
    · rw [hnp]
      show pn = { pn with next_nodes := pn.next_nodes ++ [] }
      rw [List.append_nil]
    · intro pa e he
      cases he
  | cons u us ih =>
    intro fuel hspec h B nid pn hd hB hids hrep hBn hnl hnp hbnd
    -- copy the first subtree
    obtain ⟨hu2, hcall, hulen, huuuid, huframe, hurep⟩ :=
      hspec u (List.mem_cons_self _ _) h B
        (hd u (List.mem_cons_self _ _)) hB
        (hids u (List.mem_cons_self _ _)) (hrep u (List.mem_cons_self _ _))
    set cid := h.store.length with hcid
    -- the link step
    have hu2nid : hu2.get nid = pn := by
      rw [huframe nid hnl, hnp]
    have hcont : (hu2.get nid).next_nodes.contains cid = false := by
      rw [hu2nid]
      cases hcc : pn.next_nodes.contains cid with
      | false => rfl
      | true =>
        have hmem : cid ∈ pn.next_nodes := by simpa using hcc
        have := hbnd cid hmem
        omega
    have hpush := addNextAction_push hu2 nid cid hcont
    set h3 := addNextAction hu2 nid cid with hh3
    have h3len : h3.store.length = h.store.length + sizeT u := by
      rw [hpush, Heap.set_length, hulen]
    have h3uuid : h3.uuidCounter = h.uuidCounter + sizeT u := by
      rw [hpush, Heap.set_uuid, huuuid]
    have h3nid : h3.get nid = { pn with next_nodes := pn.next_nodes ++ [cid] } := by
      rw [hpush, Heap.get_set_self _ _ _ (by rw [hulen]; omega), hu2nid]
    have h3ne : ∀ x, x ≠ nid → h3.get x = hu2.get x := by
      intro x hx
      rw [hpush]
      exact Heap.get_set_ne _ _ _ _ hx
    -- recurse on the remaining children
    obtain ⟨h2, hrest, hrlen, hruuid, hrframe, hrnid, hrrep⟩ :=
      ih fuel (fun v hv => hspec v (List.mem_cons_of_mem _ hv)) h3 B nid
        { pn with next_nodes := pn.next_nodes ++ [cid] }
        (fun v hv => hd v (List.mem_cons_of_mem _ hv))
        (by rw [h3len]; omega)
        (fun v hv => hids v (List.mem_cons_of_mem _ hv))
        (by
          intro v hv e he
          have h1 : e.id < B := hids v (List.mem_cons_of_mem _ hv) e he
          rw [h3ne e.id (by omega), huframe e.id (by omega)]
          exact hrep v (List.mem_cons_of_mem _ hv) e he)
        hBn (by rw [h3len]; omega) h3nid
        (by
          intro x hx
          rcases List.mem_append.mp hx with h1 | h1
          · have := hbnd x h1
            rw [h3len]
            omega
          · rw [List.mem_singleton] at h1
            subst h1
            rw [h3len, hcid]
            have := sizeT_pos u
            omega)
    refine ⟨h2, ?_, ?_, ?_, ?_, ?_, ?_⟩
    · show copyChildrenWith (copy_nodes fuel)
        (u.rootId :: us.map ATree.rootId) nid h = some (nid, h2)
      show (match copy_nodes fuel h u.rootId with
        | none => none
        | some (c, h4) =>
          copyChildrenWith (copy_nodes fuel) (us.map ATree.rootId) nid
            (addNextAction h4 nid c)) = some (nid, h2)
      rw [hcall]
      exact hrest
    · rw [hrlen, h3len]
      show _ = h.store.length + (sizeT u + sizeTL us)
      omega
    · rw [hruuid, h3uuid]
      show _ = h.uuidCounter + (sizeT u + sizeTL us)
      omega
    · intro x hx hxn
      rw [hrframe x (by rw [h3len]; omega) hxn, h3ne x hxn, huframe x hx]
    · rw [hrnid]
      show _ = { pn with next_nodes := pn.next_nodes ++
        ((cloneT h.store.length h.uuidCounter u ::
          cloneTL (h.store.length + sizeT u) (h.uuidCounter + sizeT u) us).map
            ATree.rootId) }
      rw [List.map_cons, rootId_cloneT, h3len, h3uuid]
      simp [hcid]
    · intro pa e he
      show h2.get e.id = e.info.toNode e.childIds
      have hsplit : flatAnnL pa
          (cloneTL h.store.length h.uuidCounter (u :: us)) =
          flatAnn pa (cloneT h.store.length h.uuidCounter u) ++
          flatAnnL pa (cloneTL (h.store.length + sizeT u)
            (h.uuidCounter + sizeT u) us) := rfl
      rw [hsplit] at he
      rcases List.mem_append.mp he with h1 | h1
      · -- entry of the first cloned subtree: already placed by the call
        have hid : e.id ∈ (flatAnn pa
            (cloneT h.store.length h.uuidCounter u)).map FEntry.id :=
          List.mem_map_of_mem FEntry.id h1
        rw [ids_cloneT] at hid
        have hrange := List.mem_range'_1.mp hid
        have h5 : h2.get e.id = h3.get e.id := by
          apply hrframe e.id (by rw [h3len]; omega)
          omega
        rw [h5, h3ne e.id (by omega)]
        exact hurep pa e h1
      · -- entry of the remaining cloned subtrees
        exact hrrep pa e (by rw [h3len, h3uuid]; exact h1)

/-- `Actions.copy_nodes` meets its specification on every represented
tree, for any fuel above the tree height. -/
theorem copy_nodes_ok : ∀ (t : ATree) (fuel : Nat), CopySpec fuel t := by
  intro t
  induction t using ATree.indOn with
  | h id i ts ih =>
    intro fuel
    dsimp only [CopySpec]
    intro h B hd hB hids hrep
    cases fuel with
    | zero => exact absurd hd (by omega)
    | succ fuel =>
      have hmem0 : (⟨.root, id, i, ts.map ATree.rootId⟩ : FEntry) ∈
          flatAnn .root (.mk id i ts) := by
        rw [flatAnn_mk]
        exact List.mem_cons_self _ _
      have hid_lt : id < B := hids _ hmem0
      have hrep0 : h.get id = i.toNode (ts.map ATree.rootId) := hrep _ hmem0
      set nid := h.store.length with hnid
      set h1 := (cloneNode h id).2 with hh1
      have h1len : h1.store.length = h.store.length + 1 :=
        cloneNode_length h id
      have h1uuid : h1.uuidCounter = h.uuidCounter + 1 := cloneNode_uuid h id
      have h1lt : ∀ x, x < h.store.length → h1.get x = h.get x :=
        fun x hx => cloneNode_get_lt h id x hx
      have h1id : h1.get id = i.toNode (ts.map ATree.rootId) := by
        rw [h1lt id (by omega), hrep0]
      have h1nid : h1.get nid = (midInfo h.uuidCounter i).toNode [] := by
        rw [hh1, hnid, cloneNode_get_new, hrep0]
        rfl
      have hsub : ∀ u ∈ ts, ∀ e ∈ flatAnn
          (.par id i.isSkelton i.action_name) u,
          e ∈ flatAnn .root (ATree.mk id i ts) := by
        intro u hu e he
        rw [flatAnn_mk]
        exact List.mem_cons_of_mem _ ((mem_flatAnnL _ _ _).mpr ⟨u, hu, he⟩)
      obtain ⟨h2, hcall, hlen2, huuid2, hframe2, hnid2, hrep2⟩ :=
        copyChildren_ok ts fuel (fun u hu => ih u hu fuel) h1 B nid
          ((midInfo h.uuidCounter i).toNode [])
          (by
            intro u hu
            have h5 := depthT_child_lt ts u hu id i
            have h6 : depthT (ATree.mk id i ts) < fuel + 1 := hd
            omega)
          (by omega)
          (by
            intro u hu
            exact flatAnn_pa_content (fun pa pa2 idx ix cix hx => hx) u
              (.par id i.isSkelton i.action_name) .root
              (fun e he => hids e (hsub u hu e he)))
          (by
            intro u hu
            refine flatAnn_pa_content (fun pa pa2 idx ix cix hx => hx) u
              (.par id i.isSkelton i.action_name) .root ?_
            intro e he
            have h5 : e.id < B := hids e (hsub u hu e he)
            rw [h1lt e.id (by omega)]
            exact hrep e (hsub u hu e he))
          (by omega) (by omega) h1nid
          (by intro x hx; cases hx)
      refine ⟨h2, ?_, ?_, ?_, ?_, ?_⟩
      · show copy_nodes (fuel + 1) h id = some (h.store.length, h2)
        rw [copy_nodes_succ, cloneNode_fst]
        show copyChildrenWith (copy_nodes fuel) ((h1.get id).next_nodes)
          nid h1 = some (h.store.length, h2)
        rw [h1id]
        show copyChildrenWith (copy_nodes fuel) (ts.map ATree.rootId)
          nid h1 = some (h.store.length, h2)
        rw [hcall]
      · rw [hlen2, h1len]
        show _ = h.store.length + (sizeTL ts + 1)
        omega
      · rw [huuid2, h1uuid]
        show _ = h.uuidCounter + (sizeTL ts + 1)
        omega
      · intro x hx
        rw [hframe2 x (by omega) (by omega), h1lt x hx]
      · intro pa e he
        show h2.get e.id = e.info.toNode e.childIds
        have hcl : cloneT h.store.length h.uuidCounter (ATree.mk id i ts) =
            .mk h.store.length (midInfo h.uuidCounter i)
              (cloneTL (h.store.length + 1) (h.uuidCounter + 1) ts) := rfl
        rw [hcl, flatAnn_mk] at he
        rcases List.mem_cons.mp he with h5 | h5
        · subst h5
          show h2.get h.store.length = _
          rw [hnid2]
          show _ = (midInfo h.uuidCounter i).toNode
            ((cloneTL (h.store.length + 1) (h.uuidCounter + 1) ts).map
              ATree.rootId)
          rw [h1len, h1uuid]
          rfl
        · exact hrep2 _ e (by rw [h1len, h1uuid]; exact h5)

/-! ## The worklist invariant of the `__deepcopy__` rebuild loop -/

theorem flatAnnL_eq_flatMap (pa : PAnn) (ts : List ATree) :
    flatAnnL pa ts = ts.flatMap (flatAnn pa) := by
  induction ts with
  | nil => rfl
  | cons t ts ih => rw [flatAnnL_cons, List.flatMap_cons, ih]

theorem sizeTL_eq_sum (ts : List ATree) :
    sizeTL ts = (ts.map sizeT).sum := by
  induction ts with
  | nil => rfl
  | cons t ts ih =>
    show sizeT t + sizeTL ts = _
    rw [List.map_cons, List.sum_cons, ih]

/-- A pending work item of the rebuild loop: the subtree still to be
re-inserted, the new id of its parent, and the parent's skeleton flag
and name. -/
def pendStack (pend : List (ATree × Nat × Bool × String)) :
    List (Nat × Option Nat) :=
  pend.map (fun x => (x.1.rootId, some x.2.1))

/-- All entries still to be processed, flattened with their parent
annotations. -/
def pendFlat (pend : List (ATree × Nat × Bool × String)) : List FEntry :=
  pend.flatMap (fun x => flatAnn (.par x.2.1 x.2.2.1 x.2.2.2) x.1)

/-- Total number of nodes still to be processed. -/
def pendSize (pend : List (ATree × Nat × Bool × String)) : Nat :=
  (pend.map (fun x => sizeT x.1)).sum

theorem pendFlat_cons (x : ATree × Nat × Bool × String)
    (rest : List (ATree × Nat × Bool × String)) :
    pendFlat (x :: rest) =
      flatAnn (.par x.2.1 x.2.2.1 x.2.2.2) x.1 ++ pendFlat rest := rfl

theorem pendStack_cons (x : ATree × Nat × Bool × String)
    (rest : List (ATree × Nat × Bool × String)) :
    pendStack (x :: rest) = (x.1.rootId, some x.2.1) :: pendStack rest := rfl

theorem pendSize_cons (x : ATree × Nat × Bool × String)
    (rest : List (ATree × Nat × Bool × String)) :
    pendSize (x :: rest) = sizeT x.1 + pendSize rest := by
  show (List.map _ (x :: rest)).sum = _
  rw [List.map_cons, List.sum_cons]
  rfl

theorem pendFlat_append (l l2 : List (ATree × Nat × Bool × String)) :
    pendFlat (l ++ l2) = pendFlat l ++ pendFlat l2 := by
  show (l ++ l2).flatMap _ = _
  rw [List.flatMap_append]
  rfl

theorem pendSize_append (l l2 : List (ATree × Nat × Bool × String)) :
    pendSize (l ++ l2) = pendSize l + pendSize l2 := by
  show ((l ++ l2).map _).sum = _
  rw [List.map_append, List.sum_append]
  rfl

theorem pendStack_append (l l2 : List (ATree × Nat × Bool × String)) :
    pendStack (l ++ l2) = pendStack l ++ pendStack l2 := by
  show (l ++ l2).map _ = _
  rw [List.map_append]
  rfl

theorem pendFlat_children (ts : List ATree) (p : Nat) (sk : Bool)
    (nm : String) :
    (pendFlat ((ts.map (fun u => (u, p, sk, nm))).reverse)).Perm
      (flatAnnL (.par p sk nm) ts) := by
  show ((ts.map (fun u => (u, p, sk, nm))).reverse.flatMap _).Perm _
  refine List.Perm.trans
    (List.Perm.flatMap_right _ (List.reverse_perm _)) ?_
  rw [List.flatMap_map, flatAnnL_eq_flatMap]

theorem pendSize_children (ts : List ATree) (p : Nat) (sk : Bool)
    (nm : String) :
    pendSize ((ts.map (fun u => (u, p, sk, nm))).reverse) = sizeTL ts := by
  show ((ts.map (fun u => (u, p, sk, nm))).reverse.map _).sum = _
  rw [List.map_reverse, List.sum_reverse, List.map_map, sizeTL_eq_sum]
  rfl

theorem pendStack_children (ts : List ATree) (p : Nat) (sk : Bool)
    (nm : String) :
    pendStack ((ts.map (fun u => (u, p, sk, nm))).reverse) =
      ((ts.map ATree.rootId).map (fun c => (c, some p))).reverse := by
  show ((ts.map (fun u => (u, p, sk, nm))).reverse.map _) = _
  rw [List.map_reverse, List.map_map, List.map_map]
  rfl

theorem sizeT_eq (t : ATree) : sizeT t = sizeTL t.children + 1 := by
  cases t with
  | mk id i ts => rfl

theorem rebuildLoop_nil (fuel : Nat) (g : ActionsG) (h : Heap) :
    rebuildLoop (fuel + 1) [] g h = .ok (g, h) := rfl

theorem rebuildLoop_cons (fuel : Nat) (child p : Nat)
    (stack : List (Nat × Option Nat)) (g : ActionsG) (h : Heap) :
    rebuildLoop (fuel + 1) ((child, some p) :: stack) g h =
      (match add_after g h child p false false with
       | .error e => .error e
       | .ok gh =>
         rebuildLoop fuel
           (((gh.2.get child).next_nodes).foldl
             (fun st c => (c, some child) :: st) stack) gh.1 gh.2) := by
  show (add_after g h child p false false >>= fun gh =>
    match gh with
    | (g, h) => rebuildLoop fuel (((h.get child).next_nodes).foldl
        (fun st c => (c, some child) :: st) stack) g h) = _
  cases add_after g h child p false false with
  | error e => rw [except_bind_err]
  | ok gh =>
    obtain ⟨g4, h4⟩ := gh
    rw [except_bind_ok]

/-- The worklist invariant of the rebuild loop of `Actions.__deepcopy__`:
given the universe of copied entries (root entry `R`, remaining entries
`REST`), a partition of `REST` into processed entries (`done`, already
re-inserted beneath their parents) and pending subtrees (`pend`, still
on the stack, each with its parent id and the parent's skeleton flag and
name), the loop succeeds, re-inserts every pending node with the default
runafter entry and no rename, and extends the registry by exactly the
processed bindings. -/
theorem rebuildLoop_inv : ∀ (fuel : Nat)
    (pend : List (ATree × Nat × Bool × String)) (done : List FEntry)
    (g : ActionsG) (h : Heap) (R : FEntry) (REST : List FEntry),
    ((R :: REST).map FEntry.id).Nodup →
    ((R :: REST).map (fun e => e.info.action_name)).Nodup →
    R.info.action_name = "root" →
    (∀ e ∈ REST, e.info.have_parent_node = false) →
    (∀ e ∈ REST, e.info.runafter = []) →
    (∀ e ∈ REST, e.info.isInitVariable = true → g.is_root_actions = true) →
    (∀ e ∈ R :: REST, e.id < h.store.length) →
    ((pendFlat pend ++ done).Perm REST) →
    g.nodes = ("root", R.id) ::
      done.map (fun e => (e.info.action_name, e.id)) →
    (∀ e ∈ pendFlat pend, h.get e.id = e.info.toNode e.childIds) →
    (∀ e ∈ done, h.get e.id =
      (finInfo (paOpt e.pa) e.info).toNode e.childIds) →
    (h.get R.id = R.info.toNode R.childIds) →
    (∀ x ∈ pend, (x.2.1 = R.id ∨ ∃ e2 ∈ done, e2.id = x.2.1) ∧
      x.1.rootId ∈ (h.get x.2.1).next_nodes ∧
      (h.get x.2.1).isSkelton = x.2.2.1 ∧
      (h.get x.2.1).action_name = x.2.2.2) →
    pendSize pend < fuel →
    ∃ (g2 : ActionsG) (h2 : Heap) (done2 : List FEntry),
      rebuildLoop fuel (pendStack pend) g h = .ok (g2, h2) ∧
      g2.root_node = g.root_node ∧
      g2.is_root_actions = g.is_root_actions ∧
      done2.Perm (done ++ pendFlat pend) ∧
      g2.nodes = ("root", R.id) ::
        done2.map (fun e => (e.info.action_name, e.id)) ∧
      (∀ e, e ∈ done ∨ e ∈ pendFlat pend →
        h2.get e.id = (finInfo (paOpt e.pa) e.info).toNode e.childIds) ∧
      (∀ x, (∀ e ∈ pendFlat pend, e.id ≠ x) → h2.get x = h.get x) ∧
      h2.store.length = h.store.length ∧
      h2.uuidCounter = h.uuidCounter := by
  intro fuel
  induction fuel with
  | zero =>
    intro pend done g h R REST _ _ _ _ _ _ _ _ _ _ _ _ _ hfuel
    omega
  | succ fuel ih =>
    intro pend done g h R REST hidn hnmn hRnm hpfl hra0 hinit hbound hperm
      hreg hmid hdone hroot hparf hfuel
    cases pend with
    | nil =>
      refine ⟨g, h, done, rebuildLoop_nil fuel g h, rfl, rfl, ?_, hreg, ?_,
        fun x _ => rfl, rfl, rfl⟩
      · show done.Perm (done ++ pendFlat [])
        rw [show pendFlat [] = [] from rfl, List.append_nil]
      · intro e hx
        rcases hx with hd | hp
        · exact hdone e hd
        · rw [show pendFlat [] = [] from rfl] at hp
          cases hp
    | cons x rest =>
      obtain ⟨t, p, sk, nm⟩ := x
      have hsplit : pendFlat ((t, p, sk, nm) :: rest) =
          flatAnn (.par p sk nm) t ++ pendFlat rest := rfl
      have hflat : flatAnn (.par p sk nm) t =
          (⟨.par p sk nm, t.rootId, t.info,
            t.children.map ATree.rootId⟩ : FEntry) ::
            flatAnnL (.par t.rootId t.info.isSkelton t.info.action_name)
              t.children := flatAnn_eq_cons _ t
      set e0 : FEntry :=
        ⟨.par p sk nm, t.rootId, t.info, t.children.map ATree.rootId⟩
        with he0
      obtain ⟨hp1, hp2, hp3, hp4⟩ :=
        hparf (t, p, sk, nm) (List.mem_cons_self _ _)
      dsimp only at hp1 hp2 hp3 hp4
      -- membership of the head entry
      have he0pf : e0 ∈ pendFlat ((t, p, sk, nm) :: rest) := by
        rw [hsplit, hflat]
        exact List.mem_append_left _ (List.mem_cons_self _ _)
      have he0REST : e0 ∈ REST :=
        hperm.mem_iff.mp (List.mem_append_left _ he0pf)
      -- duplicate-freeness bookkeeping
      have hRESTid : (REST.map FEntry.id).Nodup := by
        rw [List.map_cons] at hidn
        exact (List.nodup_cons.mp hidn).2
      have hRnotin : R.id ∉ REST.map FEntry.id := by
        rw [List.map_cons] at hidn
        exact (List.nodup_cons.mp hidn).1
      have hPDperm :
          ((pendFlat ((t, p, sk, nm) :: rest) ++ done).map FEntry.id).Perm
            (REST.map FEntry.id) := hperm.map _
      have hPDid :
          ((pendFlat ((t, p, sk, nm) :: rest)).map FEntry.id ++
            done.map FEntry.id).Nodup := by
        rw [← List.map_append]
        exact (hPDperm.nodup_iff).mpr hRESTid
      obtain ⟨hnd1, hnd2, hdisj⟩ := List.nodup_append.mp hPDid
      have hRid_nid : R.id ∉
          (pendFlat ((t, p, sk, nm) :: rest)).map FEntry.id ++
            done.map FEntry.id := by
        intro hmm
        apply hRnotin
        apply hPDperm.subset
        rw [List.map_append]
        exact hmm
      -- the head id is separated from the registered ids
      have he0id_mem : e0.id ∈ (pendFlat ((t, p, sk, nm) :: rest)).map
          FEntry.id := List.mem_map_of_mem FEntry.id he0pf
      have he0_ne_R : e0.id ≠ R.id := by
        intro hmm
        exact hRid_nid (hmm ▸ List.mem_append_left _ he0id_mem)
      have he0_nd : e0.id ∉ done.map FEntry.id := fun hmm => hdisj he0id_mem hmm
      -- registry projections
      have hregIds : regIds g = R.id :: done.map FEntry.id := by
        show g.nodes.map Prod.snd = _
        rw [hreg, List.map_cons, List.map_map]
        rfl
      have hregKeys : regKeys g =
          "root" :: done.map (fun e => e.info.action_name) := by
        show g.nodes.map Prod.fst = _
        rw [hreg, List.map_cons, List.map_map]
        rfl
      -- name bookkeeping
      have hRESTnm : (REST.map (fun e => e.info.action_name)).Nodup := by
        rw [List.map_cons] at hnmn
        exact (List.nodup_cons.mp hnmn).2
      have hRnm_notin : R.info.action_name ∉
          REST.map (fun e => e.info.action_name) := by
        rw [List.map_cons] at hnmn
        exact (List.nodup_cons.mp hnmn).1
      have hPDnm :
          ((pendFlat ((t, p, sk, nm) :: rest) ++ done).map
            (fun e => e.info.action_name)).Perm
            (REST.map (fun e => e.info.action_name)) := hperm.map _
      have hPDnmd :
          ((pendFlat ((t, p, sk, nm) :: rest)).map
            (fun e => e.info.action_name) ++
            done.map (fun e => e.info.action_name)).Nodup := by
        rw [← List.map_append]
        exact (hPDnm.nodup_iff).mpr hRESTnm
      obtain ⟨hnn1, hnn2, hndisj⟩ := List.nodup_append.mp hPDnmd
      have he0nm_mem : e0.info.action_name ∈
          (pendFlat ((t, p, sk, nm) :: rest)).map
            (fun e => e.info.action_name) :=
        List.mem_map_of_mem _ he0pf
      have he0nm_notin : e0.info.action_name ∉ regKeys g := by
        rw [hregKeys]
        intro hmm
        rcases List.mem_cons.mp hmm with h5 | h5
        · apply hRnm_notin
          rw [hRnm, ← h5]
          exact hPDnm.subset (by
            rw [List.map_append]
            exact List.mem_append_left _ he0nm_mem)
        · exact hndisj he0nm_mem h5
      -- validation preconditions
      have hnreg : t.rootId ∉ regIds g := by
        rw [hregIds]
        intro hmm
        rcases List.mem_cons.mp hmm with h5 | h5
        · exact he0_ne_R h5
        · exact he0_nd h5
      have hprevreg : p ∈ regIds g := by
        rw [hregIds]
        rcases hp1 with h5 | ⟨e2, he2, hpe⟩
        · exact h5 ▸ List.mem_cons_self _ _
        · exact List.mem_cons_of_mem _ (hpe ▸ List.mem_map_of_mem FEntry.id he2)
      have hpnew : p ≠ t.rootId := by
        rcases hp1 with h5 | ⟨e2, he2, hpe⟩
        · intro hmm
          apply he0_ne_R
          show t.rootId = R.id
          rw [← hmm, h5]
        · intro hmm
          apply he0_nd
          show t.rootId ∈ done.map FEntry.id
          rw [← hmm, ← hpe]
          exact List.mem_map_of_mem FEntry.id he2
      have hhnew : h.get t.rootId = e0.info.toNode e0.childIds :=
        hmid e0 he0pf
      have hlen_new : t.rootId < h.store.length :=
        hbound e0 (List.mem_cons_of_mem _ he0REST)
      have hparflag : (h.get t.rootId).have_parent_node = false := by
        rw [hhnew]
        exact hpfl e0 he0REST
      have hinitimp : (h.get t.rootId).isInitVariable = true →
          g.is_root_actions = true := by
        rw [hhnew]
        exact hinit e0 he0REST
      -- the insertion step
      obtain ⟨g4, h4, haa, hg4root, hg4flag, hg4last, hg4nodes, hh4new,
        hh4frame, ⟨nn4, hh4pshape⟩, hh4pnoop, hh4len, hh4uuid⟩ :=
        add_after_fresh_spec g h t.rootId p false false hlen_new hnreg
          hparflag hprevreg hinitimp hpnew
      have hrn : pyRename (regKeys g) ((h.get t.rootId).action_name) =
          e0.info.action_name := by
        rw [hhnew]
        exact pyRename_of_not_mem _ _ he0nm_notin
      have hh4p : h4.get p = h.get p := by
        apply hh4pnoop
        simpa using hp2
      have hh4ne : ∀ y, y ≠ t.rootId → h4.get y = h.get y := by
        intro y hy
        by_cases hyp : y = p
        · rw [hyp, hh4p]
        · exact hh4frame y hy hyp
      have hra_e0 : e0.info.runafter = [] := hra0 e0 he0REST
      have hh4new2 : h4.get t.rootId =
          (finInfo (some (sk, nm)) e0.info).toNode e0.childIds := by
        rw [hh4new, hrn, hhnew, hp3, hp4]
        have hraN : (e0.info.toNode e0.childIds).runafter = [] := hra_e0
        rw [hraN]
        cases sk with
        | true => rfl
        | false => rfl
      have hg4nodes2 : g4.nodes = ("root", R.id) ::
          (done ++ [e0]).map (fun e => (e.info.action_name, e.id)) := by
        rw [hg4nodes, hrn, dictSet_eq_append _ _ _ (by
          show e0.info.action_name ∉ g.nodes.map Prod.fst
          exact he0nm_notin), hreg]
        rw [List.map_append]
        rfl
      -- next pointers of the inserted node
      have hnext4 : (h4.get t.rootId).next_nodes =
          t.children.map ATree.rootId := by
        rw [hh4new2]
        rfl
      have hskel4 : (h4.get t.rootId).isSkelton = t.info.isSkelton := by
        rw [hh4new2]
        show (finInfo (some (sk, nm)) e0.info).isSkelton = _
        rw [finInfo_isSkelton]
      have hname4 : (h4.get t.rootId).action_name = t.info.action_name := by
        rw [hh4new2]
        show (finInfo (some (sk, nm)) e0.info).action_name = _
        rw [finInfo_action_name]
      -- the new pending list
      set cpend := (t.children.map
        (fun u => (u, t.rootId, t.info.isSkelton, t.info.action_name))).reverse
        with hcpend
      have hcflat : (pendFlat cpend).Perm
          (flatAnnL (.par t.rootId t.info.isSkelton t.info.action_name)
            t.children) := pendFlat_children _ _ _ _
      have hstack4 : ((h4.get t.rootId).next_nodes).foldl
          (fun st c => (c, some t.rootId) :: st) (pendStack rest) =
          pendStack (cpend ++ rest) := by
        rw [hnext4, foldl_push, pendStack_append, hcpend, pendStack_children]
      -- tail entries keep their ids distinct from the head
      have htail_sub : ∀ e,
          e ∈ flatAnnL (.par t.rootId t.info.isSkelton t.info.action_name)
            t.children ∨ e ∈ pendFlat rest →
          e.id ≠ e0.id ∧ e ∈ pendFlat ((t, p, sk, nm) :: rest) := by
        intro e hx
        have hmem : e ∈ pendFlat ((t, p, sk, nm) :: rest) := by
          rw [hsplit, hflat]
          rcases hx with h5 | h5
          · exact List.mem_append_left _ (List.mem_cons_of_mem _ h5)
          · exact List.mem_append_right _ h5
        refine ⟨?_, hmem⟩
        have hnd1' := hnd1
        rw [hsplit, hflat] at hnd1'
        have : ((e0 :: (flatAnnL (.par t.rootId t.info.isSkelton
            t.info.action_name) t.children ++ pendFlat rest)).map
            FEntry.id).Nodup := by
          have heq : (e0 :: (flatAnnL (.par t.rootId t.info.isSkelton
              t.info.action_name) t.children ++ pendFlat rest)) =
              (e0 :: flatAnnL (.par t.rootId t.info.isSkelton
                t.info.action_name) t.children) ++ pendFlat rest := rfl
          rw [heq]
          exact hnd1'
        rw [List.map_cons] at this
        have h6 := (List.nodup_cons.mp this).1
        intro hid
        apply h6
        rw [← hid]
        apply List.mem_map_of_mem FEntry.id
        rcases hx with h5 | h5
        · exact List.mem_append_left _ h5
        · exact List.mem_append_right _ h5
      -- apply the induction hypothesis
      obtain ⟨g2, h2, done2, hloop, hg2root, hg2flag, hdone2perm,
        hg2nodes, hfinal, hframe2, hlen2, huuid2⟩ :=
        ih (cpend ++ rest) (done ++ [e0]) g4 h4 R REST hidn hnmn hRnm
          hpfl hra0
          (by
            intro e he hi
            rw [hg4flag]
            exact hinit e he hi)
          (by
            intro e he
            rw [hh4len]
            exact hbound e he)
          (by
            -- permutation of the new partition
            have hP1 : (pendFlat (cpend ++ rest) ++ (done ++ [e0])).Perm
                (e0 :: (pendFlat cpend ++ pendFlat rest ++ done)) := by
              have heq : pendFlat (cpend ++ rest) ++ (done ++ [e0]) =
                  (pendFlat cpend ++ pendFlat rest ++ done) ++ [e0] := by
                rw [pendFlat_append]
                simp [List.append_assoc]
              rw [heq]
              exact List.perm_append_comm
            refine hP1.trans ?_
            have hP2 : (pendFlat cpend ++ pendFlat rest ++ done).Perm
                (flatAnnL (.par t.rootId t.info.isSkelton
                  t.info.action_name) t.children ++ pendFlat rest ++ done) :=
              List.Perm.append_right _ (List.Perm.append_right _ hcflat)
            refine (hP2.cons e0).trans ?_
            have heq2 : e0 :: (flatAnnL (.par t.rootId t.info.isSkelton
                t.info.action_name) t.children ++ pendFlat rest ++ done) =
                pendFlat ((t, p, sk, nm) :: rest) ++ done := by
              rw [hsplit, hflat]
              simp [List.append_assoc]
            rw [heq2]
            exact hperm)
          hg4nodes2
          (by
            intro e he
            rw [pendFlat_append] at he
            have hx : e ∈ flatAnnL (.par t.rootId t.info.isSkelton
                t.info.action_name) t.children ∨ e ∈ pendFlat rest := by
              rcases List.mem_append.mp he with h5 | h5
              · exact Or.inl (hcflat.mem_iff.mp h5)
              · exact Or.inr h5
            obtain ⟨hne, hmem⟩ := htail_sub e hx
            rw [hh4ne e.id hne]
            exact hmid e hmem)
          (by
            intro e he
            rcases List.mem_append.mp he with h5 | h5
            · have hne : e.id ≠ t.rootId := by
                intro hmm
                apply he0_nd
                show t.rootId ∈ done.map FEntry.id
                rw [← hmm]
                exact List.mem_map_of_mem FEntry.id h5
              rw [hh4ne e.id hne]
              exact hdone e h5
            · rw [List.mem_singleton] at h5
              subst h5
              exact hh4new2)
          (by
            rw [hh4ne R.id (Ne.symm he0_ne_R)]
            exact hroot)
          (by
            intro x hx
            rcases List.mem_append.mp hx with h5 | h5
            · -- a freshly pushed child of the inserted node
              rw [hcpend] at h5
              rw [List.mem_reverse] at h5
              obtain ⟨u, hu, rfl⟩ := List.mem_map.mp h5
              refine ⟨Or.inr ⟨e0, List.mem_append_right _
                (List.mem_singleton_self _), rfl⟩, ?_, ?_, ?_⟩
              · show u.rootId ∈ (h4.get t.rootId).next_nodes
                rw [hnext4]
                exact List.mem_map_of_mem ATree.rootId hu
              · exact hskel4
              · exact hname4
            · -- an old pending entry: its parent is untouched
              obtain ⟨hq1, hq2, hq3, hq4⟩ :=
                hparf x (List.mem_cons_of_mem _ h5)
              have hpne : x.2.1 ≠ t.rootId := by
                rcases hq1 with h6 | ⟨e2, he2, hpe⟩
                · intro hmm
                  apply he0_ne_R
                  show t.rootId = R.id
                  rw [← hmm, h6]
                · intro hmm
                  apply he0_nd
                  show t.rootId ∈ done.map FEntry.id
                  rw [← hmm, ← hpe]
                  exact List.mem_map_of_mem FEntry.id he2
              rw [hh4ne x.2.1 hpne]
              refine ⟨?_, hq2, hq3, hq4⟩
              rcases hq1 with h6 | ⟨e2, he2, hpe⟩
              · exact Or.inl h6
              · exact Or.inr ⟨e2, List.mem_append_left _ he2, hpe⟩)
          (by
            rw [pendSize_append, hcpend, pendSize_children]
            have hps : pendSize ((t, p, sk, nm) :: rest) =
                sizeT t + pendSize rest := pendSize_cons _ _
            rw [sizeT_eq] at hps
            omega)
      -- assemble the outer conclusions
      refine ⟨g2, h2, done2, ?_, ?_, ?_, ?_, hg2nodes, ?_, ?_, ?_, ?_⟩
      · show rebuildLoop (fuel + 1)
          ((t.rootId, some p) :: pendStack rest) g h = .ok (g2, h2)
        rw [rebuildLoop_cons, haa]
        show rebuildLoop fuel (((h4.get t.rootId).next_nodes).foldl
          (fun st c => (c, some t.rootId) :: st) (pendStack rest)) g4 h4 =
          .ok (g2, h2)
        rw [hstack4]
        exact hloop
      · rw [hg2root, hg4root]
      · rw [hg2flag, hg4flag]
      · refine hdone2perm.trans ?_
        have heq : (done ++ [e0]) ++ pendFlat (cpend ++ rest) =
            done ++ (e0 :: pendFlat (cpend ++ rest)) := by
          simp [List.append_assoc]
        rw [heq]
        refine List.Perm.append_left done ?_
        have hP3 : (e0 :: pendFlat (cpend ++ rest)).Perm
            (e0 :: (flatAnnL (.par t.rootId t.info.isSkelton
              t.info.action_name) t.children ++ pendFlat rest)) := by
          refine List.Perm.cons e0 ?_
          rw [pendFlat_append]
          exact List.Perm.append_right _ hcflat
        refine hP3.trans ?_
        rw [hsplit, hflat]
        rfl
      · intro e hx
        apply hfinal
        rcases hx with h5 | h5
        · exact Or.inl (List.mem_append_left _ h5)
        · rw [hsplit, hflat] at h5
          rcases List.mem_append.mp h5 with h6 | h6
          · rcases List.mem_cons.mp h6 with h7 | h7
            · subst h7
              exact Or.inl (List.mem_append_right _ (List.mem_singleton_self _))
            · refine Or.inr ?_
              rw [pendFlat_append]
              exact List.mem_append_left _ (hcflat.mem_iff.mpr h7)
          · refine Or.inr ?_
            rw [pendFlat_append]
            exact List.mem_append_right _ h6
      · intro y hy
        have hyne : ∀ e ∈ pendFlat (cpend ++ rest), e.id ≠ y := by
          intro e he
          rw [pendFlat_append] at he
          have hx : e ∈ flatAnnL (.par t.rootId t.info.isSkelton
              t.info.action_name) t.children ∨ e ∈ pendFlat rest := by
            rcases List.mem_append.mp he with h5 | h5
            · exact Or.inl (hcflat.mem_iff.mp h5)
            · exact Or.inr h5
          exact hy e (htail_sub e hx).2
        rw [hframe2 y hyne]
        exact hh4ne y (fun hmm => hy e0 he0pf (by rw [hmm]))
      · rw [hlen2, hh4len]
      · rw [huuid2, hh4uuid]

/-- One unfolding of `rebuildLoop` on a root work item (no parent, no
insertion). -/
theorem rebuildLoop_cons_none (fuel : Nat) (child : Nat)
    (stack : List (Nat × Option Nat)) (g : ActionsG) (h : Heap) :
    rebuildLoop (fuel + 1) ((child, none) :: stack) g h =
      rebuildLoop fuel (((h.get child).next_nodes).foldl
        (fun st c => (c, some child) :: st) stack) g h := rfl

/-- Cloning preserves the number of nodes. -/
theorem sizeT_cloneT (L U : Nat) (t : ATree) :
    sizeT (cloneT L U t) = sizeT t := by
  have hF2 := forall2_cloneT t .root .root L U U trivial (le_refl _)
  have := hF2.length_eq
  rw [length_flatAnn, length_flatAnn] at this
  exact this.symm

/-- The well-formedness bundle under which a graph's heap tree is
abstracted by `t`: the tree is represented in the heap, rooted at the
registered sentinel (a skeleton named root), ids and names are
duplicate-free, every drawn metadata id is below the uuid counter,
init-variable nodes occur only in root-level graphs, and the
last-appended pointer is one of the tree's nodes. -/
structure CloneWF (h : Heap) (g : ActionsG) (t : ATree) : Prop where
  rep : ∀ e ∈ flatAnn .root t, e.id < h.store.length ∧
    h.get e.id = e.info.toNode e.childIds
  root_id : t.rootId = g.root_node
  root_skel : t.info.isSkelton = true
  root_name : t.info.action_name = "root"
  ids_nodup : ((flatAnn .root t).map FEntry.id).Nodup
  names_nodup : ((flatAnn .root t).map (fun e => e.info.action_name)).Nodup
  mids_lt : ∀ e ∈ flatAnn .root t, e.info.metadataId < h.uuidCounter
  init_root : ∀ e ∈ flatAnn .root t,
    e.info.isInitVariable = true → g.is_root_actions = true
  last_mem : g.last_update_node ∈ (flatAnn .root t).map FEntry.id

/-- Unfolding of `Actions.__deepcopy__` past a successful `copy_nodes`
call. -/
theorem deepcopyActions_eq (h : Heap) (g : ActionsG) (nr : Nat) (h1 : Heap)
    (hc : copy_nodes (h.store.length + 1) h g.root_node = some (nr, h1)) :
    deepcopyActions h g =
      (let (gtmp, h2) := mkActions h1 g.is_root_actions
       let g1 : ActionsG :=
         { gtmp with root_node := nr, nodes := [("root", nr)] }
       match rebuildLoop (h2.store.length + 1) [(nr, none)] g1 h2 with
       | .error e => .error e
       | .ok (g2, h3) =>
         match g2.nodes.lookup (h3.get g.last_update_node).action_name with
         | some lid => .ok ({ g2 with last_update_node := lid }, h3)
         | none => .error (.keyError "last_update_node name")) := by
  unfold deepcopyActions
  rw [hc]

/-- Full specification of `Actions.__deepcopy__` (the body of
`Actions.clone`) on a well-formed graph: it succeeds, the new graph is
rooted at the first fresh id, keeps the root-level flag, registers the
root and copies of exactly the non-root nodes, realises the worklist
tree `finT none (cloneT ...)` in the final heap, re-resolves the
last-appended pointer by name to a copied node with the same name,
skeleton flag, type tag and payload, and leaves every pre-existing
object untouched. -/
theorem deepcopy_spec (h : Heap) (g : ActionsG) (t : ATree)
    (W : CloneWF h g t) :
    ∃ (g2 : ActionsG) (h3 : Heap) (done2 : List FEntry),
      deepcopyActions h g = .ok (g2, h3) ∧
      g2.root_node = h.store.length ∧
      g2.is_root_actions = g.is_root_actions ∧
      done2.Perm (flatAnnL
        (.par (cloneT h.store.length h.uuidCounter t).rootId
          (cloneT h.store.length h.uuidCounter t).info.isSkelton
          (cloneT h.store.length h.uuidCounter t).info.action_name)
        (cloneT h.store.length h.uuidCounter t).children) ∧
      g2.nodes = ("root", h.store.length) ::
        done2.map (fun e => (e.info.action_name, e.id)) ∧
      (∀ e ∈ flatAnn .root (finT none (cloneT h.store.length h.uuidCounter t)),
        h3.get e.id = e.info.toNode e.childIds) ∧
      (∃ eo ef, eo ∈ flatAnn .root t ∧
        ef ∈ flatAnn .root (finT none (cloneT h.store.length h.uuidCounter t)) ∧
        eo.id = g.last_update_node ∧ g2.last_update_node = ef.id ∧
        ef.info.action_name = eo.info.action_name ∧
        ef.info.isSkelton = eo.info.isSkelton ∧
        ef.info.atype = eo.info.atype ∧
        ef.info.payload = eo.info.payload) ∧
      g2.last_update_node ∈ regIds g2 ∧
      (∀ x ∈ regIds g2, h.store.length ≤ x ∧ x < h3.store.length) ∧
      (∀ x, x < h.store.length → h3.get x = h.get x) ∧
      h3.store.length = h.store.length + sizeT t + 1 ∧
      h3.uuidCounter = h.uuidCounter + sizeT t + 1 := by
  have hrepc : ∀ e ∈ flatAnn .root t, h.get e.id = e.info.toNode e.childIds :=
    fun e he => (W.rep e he).2
  have hidlt : ∀ e ∈ flatAnn .root t, e.id < h.store.length :=
    fun e he => (W.rep e he).1
  have hsize : sizeT t ≤ h.store.length := by
    have h5 := nodup_lt_length_le ((flatAnn .root t).map FEntry.id)
      h.store.length W.ids_nodup (by
        intro x hx
        obtain ⟨e, he, rfl⟩ := List.mem_map.mp hx
        exact hidlt e he)
    rwa [List.length_map, length_flatAnn] at h5
  have hone : 1 ≤ sizeT t := sizeT_pos t
  have hdepth : depthT t < h.store.length + 1 := by
    have := depthT_le_sizeT t
    omega
  -- phase 1: the structural copy
  obtain ⟨h1, hcopy, h1len, h1uuid, h1frame, h1rep⟩ :=
    copy_nodes_ok t (h.store.length + 1) h h.store.length hdepth (le_refl _)
      hidlt hrepc
  have hcopyg : copy_nodes (h.store.length + 1) h g.root_node =
      some (h.store.length, h1) := by
    rw [← W.root_id]
    exact hcopy
  set TM := cloneT h.store.length h.uuidCounter t with hTM
  have hF2 : List.Forall₂ (cloneRel h.uuidCounter) (flatAnn .root t)
      (flatAnn .root TM) :=
    forall2_cloneT t .root .root _ _ _ trivial (le_refl _)
  have hsizeTM : sizeT TM = sizeT t := sizeT_cloneT _ _ _
  have hEM : flatAnn .root TM =
      (⟨.root, TM.rootId, TM.info, TM.children.map ATree.rootId⟩ : FEntry) ::
        flatAnnL (.par TM.rootId TM.info.isSkelton TM.info.action_name)
          TM.children := flatAnn_eq_cons _ _
  set R0 : FEntry :=
    ⟨.root, TM.rootId, TM.info, TM.children.map ATree.rootId⟩ with hR0
  set REST0 := flatAnnL (.par TM.rootId TM.info.isSkelton
    TM.info.action_name) TM.children with hREST0
  have hTMroot : TM.rootId = h.store.length := rootId_cloneT _ _ _
  have hTMinfo : TM.info = midInfo h.uuidCounter t.info := by
    rw [hTM]
    cases t with
    | mk id i ts => rfl
  have hidsEM : (flatAnn .root TM).map FEntry.id =
      List.range' h.store.length (sizeT t) := by
    rw [hTM]
    exact ids_cloneT t .root _ _
  have hEMnodup : ((flatAnn .root TM).map FEntry.id).Nodup := by
    rw [hidsEM]
    exact List.nodup_range' _ _
  have hEMbound : ∀ e ∈ flatAnn .root TM,
      h.store.length ≤ e.id ∧ e.id < h.store.length + sizeT t := by
    intro e he
    have h5 : e.id ∈ List.range' h.store.length (sizeT t) := by
      rw [← hidsEM]
      exact List.mem_map_of_mem _ he
    have := List.mem_range'_1.mp h5
    omega
  have hnmEM : (flatAnn .root TM).map (fun e => e.info.action_name) =
      (flatAnn .root t).map (fun e => e.info.action_name) :=
    forall2_map_eq _ _ _ (fun a b hab => hab.1) _ _ hF2
  have hEMfacts : ∀ b ∈ flatAnn .root TM,
      ∃ a ∈ flatAnn .root t, cloneRel h.uuidCounter a b :=
    forall2_mem _ _ _ hF2
  -- phase 2: the discarded sentinel
  set h2v := (mkSkelton h1 "root").2 with hh2v
  have h2len : h2v.store.length = h.store.length + sizeT t + 1 := by
    rw [hh2v, mkSkelton_length, h1len]
  have h2uuid : h2v.uuidCounter = h.uuidCounter + sizeT t + 1 := by
    rw [hh2v, mkSkelton_uuid, h1uuid]
  have h2frame : ∀ x, x < h1.store.length → h2v.get x = h1.get x :=
    fun x hx => mkSkelton_get_lt h1 "root" x hx
  set g1 : ActionsG :=
    { root_node := h.store.length, last_update_node := h1.store.length,
      is_root_actions := g.is_root_actions,
      nodes := [("root", h.store.length)] } with hg1
  -- phase 3: the rebuild worklist
  set pend0 := (TM.children.map
    (fun u => (u, TM.rootId, TM.info.isSkelton, TM.info.action_name))).reverse
    with hpend0
  have hpfperm : (pendFlat pend0).Perm REST0 := pendFlat_children _ _ _ _
  have hrootheap : h2v.get R0.id = R0.info.toNode R0.childIds := by
    have h5 : R0 ∈ flatAnn .root TM := by
      rw [hEM]
      exact List.mem_cons_self _ _
    have h6 := h1rep .root R0 h5
    have h7 : R0.id < h1.store.length := by
      have := (hEMbound R0 h5).2
      omega
    rw [h2frame R0.id h7]
    exact h6
  have hr2 : h2v.get h.store.length = R0.info.toNode R0.childIds := by
    rw [show (h.store.length : Nat) = R0.id from hTMroot.symm]
    exact hrootheap
  obtain ⟨g3, h3, done2, hloop, hg3root, hg3flag, hdone2perm, hg3nodes,
    hfinal, hframe3, hlen3, huuid3⟩ :=
    rebuildLoop_inv h2v.store.length pend0 [] g1 h2v R0 REST0
      (by rw [← hEM]; exact hEMnodup)
      (by rw [← hEM, hnmEM]; exact W.names_nodup)
      (by
        show TM.info.action_name = "root"
        rw [hTMinfo]
        exact W.root_name)
      (by
        intro e he
        obtain ⟨a, _, hr⟩ := hEMfacts e (by
          rw [hEM]
          exact List.mem_cons_of_mem _ he)
        exact hr.2.2.2.2.2.2.1)
      (by
        intro e he
        obtain ⟨a, _, hr⟩ := hEMfacts e (by
          rw [hEM]
          exact List.mem_cons_of_mem _ he)
        exact hr.2.2.2.2.2.1)
      (by
        intro e he hi
        obtain ⟨a, ha, hr⟩ := hEMfacts e (by
          rw [hEM]
          exact List.mem_cons_of_mem _ he)
        show g.is_root_actions = true
        apply W.init_root a ha
        rw [← hr.2.2.2.2.1]
        exact hi)
      (by
        intro e he
        have h5 : e ∈ flatAnn .root TM := by rw [hEM]; exact he
        have := (hEMbound e h5).2
        omega)
      (by
        rw [List.append_nil]
        exact hpfperm)
      (by
        show g1.nodes = [("root", R0.id)]
        show [("root", h.store.length)] = [("root", R0.id)]
        rw [show (R0.id : Nat) = TM.rootId from rfl, hTMroot])
      (by
        intro e he
        have h5 : e ∈ REST0 := hpfperm.mem_iff.mp he
        have h6 : e ∈ flatAnn .root TM := by
          rw [hEM]
          exact List.mem_cons_of_mem _ h5
        have h7 : e.id < h1.store.length := by
          have := (hEMbound e h6).2
          omega
        rw [h2frame e.id h7]
        exact h1rep .root e h6)
      (by intro e he; cases he)
      hrootheap
      (by
        intro x hx
        rw [hpend0, List.mem_reverse] at hx
        obtain ⟨u, hu, rfl⟩ := List.mem_map.mp hx
        refine ⟨Or.inl rfl, ?_, ?_, ?_⟩
        · show u.rootId ∈ (h2v.get R0.id).next_nodes
          rw [hrootheap]
          show u.rootId ∈ TM.children.map ATree.rootId
          exact List.mem_map_of_mem ATree.rootId hu
        · show (h2v.get R0.id).isSkelton = TM.info.isSkelton
          rw [hrootheap]
          rfl
        · show (h2v.get R0.id).action_name = TM.info.action_name
          rw [hrootheap]
          rfl)
      (by
        rw [hpend0, pendSize_children]
        have h5 : sizeT TM = sizeTL TM.children + 1 := sizeT_eq TM
        rw [h2len]
        omega)
  -- the first worklist step (the root item)
  have hnextroot : (h2v.get h.store.length).next_nodes =
      TM.children.map ATree.rootId := by
    rw [hr2]
    rfl
  have hps : pendStack pend0 =
      ((TM.children.map ATree.rootId).map
        (fun c => (c, some h.store.length))).reverse := by
    rw [hpend0, pendStack_children, hTMroot]
  have hreb : rebuildLoop (h2v.store.length + 1) [(h.store.length, none)]
      g1 h2v = .ok (g3, h3) := by
    rw [rebuildLoop_cons_none, hnextroot, foldl_push, List.append_nil,
      ← hps]
    exact hloop
  -- the last-update entry
  obtain ⟨eo, heo, heoid⟩ : ∃ eo ∈ flatAnn .root t,
      eo.id = g.last_update_node := by
    obtain ⟨eo, heo, hid⟩ := List.mem_map.mp W.last_mem
    exact ⟨eo, heo, hid⟩
  have hlastlt : g.last_update_node < h.store.length :=
    heoid ▸ (W.rep eo heo).1
  have hlastframe : h3.get g.last_update_node = h.get g.last_update_node := by
    have h5 : ∀ e ∈ pendFlat pend0, e.id ≠ g.last_update_node := by
      intro e he
      have h6 : e ∈ flatAnn .root TM := by
        rw [hEM]
        exact List.mem_cons_of_mem _ (hpfperm.mem_iff.mp he)
      have := (hEMbound e h6).1
      omega
    rw [hframe3 _ h5, h2frame _ (by omega), h1frame _ hlastlt]
  have hnm0 : (h3.get g.last_update_node).action_name =
      eo.info.action_name := by
    rw [hlastframe, ← heoid, hrepc eo heo]
    rfl
  -- the corresponding copied entry, positionally
  obtain ⟨hlen_eq, hget⟩ := List.forall₂_iff_get.mp hF2
  obtain ⟨i, hi⟩ := List.mem_iff_get.mp heo
  have hi2 : (i : Nat) < (flatAnn .root TM).length := by
    have := i.isLt
    omega
  set ex := (flatAnn .root TM).get ⟨i, hi2⟩ with hex
  have hexmem : ex ∈ flatAnn .root TM := List.get_mem _ _ _
  have hrelx : cloneRel h.uuidCounter eo ex := by
    have := hget i i.isLt hi2
    rwa [hi] at this
  -- the final tree flattening
  have hfinflat : flatAnn .root (finT none TM) =
      (flatAnn .root TM).map finMap := flatAnn_finT TM .root
  have hrepF : ∀ e ∈ flatAnn .root (finT none TM),
      h3.get e.id = e.info.toNode e.childIds := by
    rw [hfinflat]
    intro e he
    obtain ⟨e1, he1, rfl⟩ := List.mem_map.mp he
    rw [hEM] at he1
    rcases List.mem_cons.mp he1 with h5 | h5
    · subst h5
      show h3.get R0.id = _
      have h6 : ∀ e ∈ pendFlat pend0, e.id ≠ R0.id := by
        intro e2 he2
        have h7 : e2 ∈ flatAnnL (.par TM.rootId TM.info.isSkelton
            TM.info.action_name) TM.children := hpfperm.mem_iff.mp he2
        have h8 : ((flatAnn .root TM).map FEntry.id).Nodup := hEMnodup
        rw [hEM, List.map_cons] at h8
        intro hmm
        exact (List.nodup_cons.mp h8).1
          (hmm ▸ List.mem_map_of_mem FEntry.id h7)
      rw [hframe3 _ h6, hrootheap]
      rfl
    · have h6 : e1 ∈ pendFlat pend0 := hpfperm.mem_iff.mpr h5
      exact hfinal e1 (Or.inr h6)
  -- resolve the last-update name in the new registry
  have hdone2perm2 : done2.Perm REST0 := by
    refine hdone2perm.trans ?_
    rw [List.nil_append]
    exact hpfperm
  have hkeysnodup : (g3.nodes.map Prod.fst).Nodup := by
    rw [hg3nodes, List.map_cons, List.map_map]
    have h5 : ((flatAnn .root TM).map (fun e => e.info.action_name)).Nodup := by
      rw [hnmEM]
      exact W.names_nodup
    rw [hEM, List.map_cons] at h5
    obtain ⟨h6, h7⟩ := List.nodup_cons.mp h5
    have h8 : R0.info.action_name = "root" := by
      show TM.info.action_name = "root"
      rw [hTMinfo]
      exact W.root_name
    refine List.nodup_cons.mpr ⟨?_, ?_⟩
    · intro hmm
      apply h6
      show R0.info.action_name ∈ REST0.map (fun e => e.info.action_name)
      rw [h8]
      obtain ⟨pr, hpr, hpe⟩ := List.mem_map.mp hmm
      have h9 : ("root" : String) ∈
          done2.map (fun e => e.info.action_name) :=
        List.mem_map.mpr ⟨pr, hpr, hpe⟩
      exact (hdone2perm2.map (fun e => e.info.action_name)).subset h9
    · exact (hdone2perm2.map (fun e => e.info.action_name)).nodup_iff.mpr h7
  -- the whole-heap frame on pre-existing objects
  have hframeAll : ∀ x, x < h.store.length → h3.get x = h.get x := by
    intro x hx
    have h5 : ∀ e ∈ pendFlat pend0, e.id ≠ x := by
      intro e he
      have h6 : e ∈ flatAnn .root TM := by
        rw [hEM]
        exact List.mem_cons_of_mem _ (hpfperm.mem_iff.mp he)
      have := (hEMbound e h6).1
      omega
    rw [hframe3 _ h5, h2frame _ (by omega), h1frame _ hx]
  -- the re-resolved last-update pointer
  have hmain : ∃ lid ef,
      g3.nodes.lookup ((h3.get g.last_update_node).action_name) = some lid ∧
      ef ∈ flatAnn .root (finT none TM) ∧ lid = ef.id ∧
      ef.info.action_name = eo.info.action_name ∧
      ef.info.isSkelton = eo.info.isSkelton ∧
      ef.info.atype = eo.info.atype ∧
      ef.info.payload = eo.info.payload ∧
      lid ∈ regIds g3 := by
    have hR0name : R0.info.action_name = "root" := by
      show TM.info.action_name = "root"
      rw [hTMinfo]
      exact W.root_name
    by_cases hcase : eo.info.action_name = "root"
    · -- the last-appended node is the sentinel itself
      have hhead : (⟨.root, t.rootId, t.info,
          t.children.map ATree.rootId⟩ : FEntry) ∈ flatAnn .root t :=
        self_mem_flatAnn .root t
      have heohead : eo = ⟨.root, t.rootId, t.info,
          t.children.map ATree.rootId⟩ := by
        apply List.inj_on_of_nodup_map W.names_nodup heo hhead
        show eo.info.action_name = t.info.action_name
        rw [hcase, W.root_name]
      refine ⟨R0.id, finMap R0, ?_, ?_, rfl, ?_, ?_, ?_, ?_, ?_⟩
      · rw [hnm0, hcase, hg3nodes]
        simp [List.lookup]
      · rw [hfinflat]
        apply List.mem_map_of_mem finMap
        rw [hEM]
        exact List.mem_cons_self _ _
      · show R0.info.action_name = eo.info.action_name
        rw [hR0name, hcase]
      · show R0.info.isSkelton = eo.info.isSkelton
        rw [heohead]
        show TM.info.isSkelton = t.info.isSkelton
        rw [hTMinfo]
        rfl
      · show R0.info.atype = eo.info.atype
        rw [heohead]
        show TM.info.atype = t.info.atype
        rw [hTMinfo]
        rfl
      · show R0.info.payload = eo.info.payload
        rw [heohead]
        show TM.info.payload = t.info.payload
        rw [hTMinfo]
        rfl
      · show R0.id ∈ g3.nodes.map Prod.snd
        rw [hg3nodes, List.map_cons]
        exact List.mem_cons_self _ _
    · -- a copied non-sentinel node, found by name in the registry tail
      have hexne : ex ≠ R0 := by
        intro hmm
        apply hcase
        rw [← hrelx.1, hmm, hR0name]
      have hexREST : ex ∈ REST0 := by
        have h5 := hexmem
        rw [hEM] at h5
        rcases List.mem_cons.mp h5 with h6 | h6
        · exact absurd h6 hexne
        · exact h6
      have hexdone : ex ∈ done2 := hdone2perm2.mem_iff.mpr hexREST
      refine ⟨ex.id, finMap ex, ?_, ?_, rfl, ?_, ?_, ?_, ?_, ?_⟩
      · rw [hnm0]
        apply lookup_of_mem_nodup g3.nodes _ _ hkeysnodup
        rw [hg3nodes]
        apply List.mem_cons_of_mem
        rw [← hrelx.1]
        exact List.mem_map_of_mem _ hexdone
      · rw [hfinflat]
        exact List.mem_map_of_mem finMap hexmem
      · show (finInfo (paOpt ex.pa) ex.info).action_name = _
        rw [finInfo_action_name]
        exact hrelx.1
      · show (finInfo (paOpt ex.pa) ex.info).isSkelton = _
        rw [finInfo_isSkelton]
        exact hrelx.2.2.2.1
      · show (finInfo (paOpt ex.pa) ex.info).atype = _
        rw [finInfo_atype]
        exact hrelx.2.1
      · show (finInfo (paOpt ex.pa) ex.info).payload = _
        rw [finInfo_payload]
        exact hrelx.2.2.1
      · show ex.id ∈ g3.nodes.map Prod.snd
        rw [hg3nodes]
        apply List.mem_cons_of_mem
        rw [List.map_map]
        exact List.mem_map_of_mem _ hexdone
  obtain ⟨lid, ef, hlook, hefmem, hlid, hefnm, hefsk, hefty, hefpl,
    hlidreg⟩ := hmain
  -- assemble the result of deepcopy
  have hd2 := deepcopyActions_eq h g h.store.length h1 hcopyg
  have hd3 : deepcopyActions h g =
      (match rebuildLoop (h2v.store.length + 1) [(h.store.length, none)]
          g1 h2v with
       | .error e => .error e
       | .ok (g2, h3) =>
         match g2.nodes.lookup (h3.get g.last_update_node).action_name with
         | some lid2 => .ok ({ g2 with last_update_node := lid2 }, h3)
         | none => .error (.keyError "last_update_node name")) := by
    rw [hd2]
    rfl
  rw [hreb] at hd3
  dsimp only [] at hd3
  rw [hlook] at hd3
  refine ⟨{ g3 with last_update_node := lid }, h3, done2, hd3, ?_, ?_,
    hdone2perm2, ?_, hrepF, ?_, ?_, ?_, hframeAll, ?_, ?_⟩
  · show g3.root_node = h.store.length
    rw [hg3root]
  · show g3.is_root_actions = g.is_root_actions
    rw [hg3flag]
  · show g3.nodes = ("root", h.store.length) ::
      done2.map (fun e => (e.info.action_name, e.id))
    rw [hg3nodes, show (R0.id : Nat) = h.store.length from hTMroot]
  · exact ⟨eo, ef, heo, hefmem, heoid, hlid, hefnm, hefsk, hefty, hefpl⟩
  · exact hlidreg
  · intro x hx
    have hx2 : x ∈ g3.nodes.map Prod.snd := hx
    rw [hg3nodes, List.map_cons] at hx2
    have hRid : (R0.id : Nat) = h.store.length := hTMroot
    rcases List.mem_cons.mp hx2 with h5 | h5
    · have h6 : x = R0.id := h5
      rw [hlen3, h2len]
      omega
    · rw [List.map_map] at h5
      obtain ⟨e2, he2, rfl⟩ := List.mem_map.mp h5
      have h6 : e2 ∈ flatAnn .root TM := by
        rw [hEM]
        exact List.mem_cons_of_mem _ (hdone2perm2.mem_iff.mp he2)
      have h7 := hEMbound e2 h6
      show h.store.length ≤ e2.id ∧ e2.id < h3.store.length
      rw [hlen3, h2len]
      omega
  · rw [hlen3, h2len]
  · rw [huuid3, h2uuid]

/-- Build a pointwise relation against a mapped list. -/
theorem forall2_map_right {α β γ : Type} (R : α → β → Prop)
    (S : α → γ → Prop) (f : β → γ) (hf : ∀ a b, R a b → S a (f b)) :
    ∀ (l : List α) (l2 : List β), List.Forall₂ R l l2 →
    List.Forall₂ S l (l2.map f) := by
  intro l l2 h
  induction h with
  | nil => exact List.Forall₂.nil
  | cons hab htl ih => exact List.Forall₂.cons (hf _ _ hab) ih

/-! ## Claim C1 -/

/-- C1 (amended): on every well-formed graph, `clone()` succeeds and
produces a structurally identical graph: the new heap realises the tree
`finT none (cloneT ...)`, whose flattening is related entry by entry to
the original tree's flattening — same name, type tag, payload and
skeleton flag, and a parent annotation with the same skeleton flag and
parent name; every copy's `operationMetadataId` is freshly generated
(drawn at or after the old uuid counter, hence different from every
metadata id in the original tree); the dependency map of a copy is
rebuilt from its position — empty for the root and for children of the
skeleton root, and otherwise exactly the parent's name mapped to the
default required-state set `["Succeeded"]`, regardless of the original
entry's required-state set; the registry binds exactly the copied names
to the copied ids; the last-appended pointer is re-resolved by name to a
copy bearing the original last-appended node's name; pre-existing
objects are untouched, and mutating any registered node of the clone
afterwards leaves every original object unchanged. -/
theorem c1_clone_semantics (h : Heap) (g : ActionsG) (t : ATree)
    (W : CloneWF h g t) :
    ∃ (g2 : ActionsG) (h3 : Heap),
      deepcopyActions h g = .ok (g2, h3) ∧
      List.Forall₂
        (fun e ef =>
          ef.info.action_name = e.info.action_name ∧
          ef.info.atype = e.info.atype ∧
          ef.info.payload = e.info.payload ∧
          ef.info.isSkelton = e.info.isSkelton ∧
          h.uuidCounter ≤ ef.info.metadataId ∧
          (∀ e2 ∈ flatAnn .root t,
            ef.info.metadataId ≠ e2.info.metadataId) ∧
          ef.info.runafter = (match ef.pa with
            | .root => []
            | .par _ true _ => []
            | .par _ false pn => [(pn, ["Succeeded"])]) ∧
          paRel e.pa ef.pa)
        (flatAnn .root t)
        (flatAnn .root (finT none (cloneT h.store.length h.uuidCounter t))) ∧
      (∀ ef ∈ flatAnn .root
          (finT none (cloneT h.store.length h.uuidCounter t)),
        h3.get ef.id = ef.info.toNode ef.childIds) ∧
      g2.root_node = h.store.length ∧
      g2.is_root_actions = g.is_root_actions ∧
      g2.nodes.Perm
        ((flatAnn .root (finT none (cloneT h.store.length h.uuidCounter t))).map
          (fun e => (e.info.action_name, e.id))) ∧
      (∃ eo ef, eo ∈ flatAnn .root t ∧
        ef ∈ flatAnn .root (finT none (cloneT h.store.length h.uuidCounter t)) ∧
        eo.id = g.last_update_node ∧ g2.last_update_node = ef.id ∧
        ef.info.action_name = eo.info.action_name) ∧
      (∀ x, x < h.store.length → h3.get x = h.get x) ∧
      (∀ id2 ∈ regIds g2, ∀ v : Node, ∀ x, x < h.store.length →
        (h3.set id2 v).get x = h.get x) := by
  obtain ⟨g2, h3, done2, hok, hroot2, hflag2, hdperm, hnodes2, hrepF,
    ⟨eo, ef, heo, hef, heoid, hlid, hefnm, _, _, _⟩, hlreg, hbnd2, hframe,
    hlen3, huuid3⟩ := deepcopy_spec h g t W
  set TM := cloneT h.store.length h.uuidCounter t with hTM
  have hF2 : List.Forall₂ (cloneRel h.uuidCounter) (flatAnn .root t)
      (flatAnn .root TM) :=
    forall2_cloneT t .root .root _ _ _ trivial (le_refl _)
  have hfinflat : flatAnn .root (finT none TM) =
      (flatAnn .root TM).map finMap := flatAnn_finT TM .root
  have hTMinfo : TM.info = midInfo h.uuidCounter t.info := by
    rw [hTM]
    cases t with
    | mk id i ts => rfl
  refine ⟨g2, h3, hok, ?_, hrepF, hroot2, hflag2, ?_, ⟨eo, ef, heo, hef,
    heoid, hlid, hefnm⟩, hframe, ?_⟩
  · -- entry-wise correspondence between the original and the clone
    rw [hfinflat]
    refine forall2_map_right _ _ finMap ?_ _ _ hF2
    intro a b hab
    obtain ⟨hnm, hty, hpl, hsk, hin, hra, hpf, hmd, hpa⟩ := hab
    refine ⟨?_, ?_, ?_, ?_, ?_, ?_, ?_, ?_⟩
    · show (finInfo (paOpt b.pa) b.info).action_name = _
      rw [finInfo_action_name, hnm]
    · show (finInfo (paOpt b.pa) b.info).atype = _
      rw [finInfo_atype, hty]
    · show (finInfo (paOpt b.pa) b.info).payload = _
      rw [finInfo_payload, hpl]
    · show (finInfo (paOpt b.pa) b.info).isSkelton = _
      rw [finInfo_isSkelton, hsk]
    · show h.uuidCounter ≤ (finInfo (paOpt b.pa) b.info).metadataId
      rw [finInfo_metadataId]
      exact hmd
    · intro e2 he2
      show (finInfo (paOpt b.pa) b.info).metadataId ≠ _
      rw [finInfo_metadataId]
      have := W.mids_lt e2 he2
      omega
    · show (finInfo (paOpt b.pa) b.info).runafter = (match b.pa with
        | PAnn.root => []
        | PAnn.par _ true _ => []
        | PAnn.par _ false pn => [(pn, ["Succeeded"])])
      cases b.pa with
      | root => exact hra
      | par q skq nmq =>
        cases skq with
        | true => rfl
        | false => rfl
    · show paRel a.pa ((finMap b).pa)
      show paRel a.pa b.pa
      exact hpa
  · -- the registry binds exactly the copied names
    have hmapeq : (flatAnn .root (finT none TM)).map
        (fun e => (e.info.action_name, e.id)) =
        (flatAnn .root TM).map (fun e => (e.info.action_name, e.id)) := by
      rw [hfinflat, List.map_map]
      refine List.map_congr_left ?_
      intro e _
      show ((finMap e).info.action_name, (finMap e).id) = _
      show ((finInfo (paOpt e.pa) e.info).action_name, e.id) = _
      rw [finInfo_action_name]
    rw [hmapeq, flatAnn_eq_cons, List.map_cons, hnodes2]
    show (("root", h.store.length) ::
        done2.map (fun e => (e.info.action_name, e.id))).Perm
      ((TM.info.action_name, TM.rootId) ::
        (flatAnnL (.par TM.rootId TM.info.isSkelton TM.info.action_name)
          TM.children).map (fun e => (e.info.action_name, e.id)))
    have hr : TM.rootId = h.store.length := rootId_cloneT _ _ _
    have hn : TM.info.action_name = "root" := by
      rw [hTMinfo]
      exact W.root_name
    have hpair : ((TM.info.action_name, TM.rootId) : String × Nat) =
        ("root", h.store.length) := by
      rw [hr, hn]
    rw [hpair]
    exact List.Perm.cons _ (hdperm.map _)
  · -- mutating a clone node leaves the originals unchanged
    intro id2 hid2 v x hx
    have h5 := (hbnd2 id2 hid2).1
    rw [Heap.get_set_ne h3 id2 x v (by omega), hframe x hx]

/-- A concrete three-node graph (root sentinel, `a` on top, `b` after
`a` with `exec_if_failed=True`). -/
def c1H0 : Heap := ⟨[], 0⟩

def c1S : ActionsG × Heap := mkActions c1H0 false

def c1A : Nat × Heap := mkAction c1S.2 "a" "T" "pa" false

def c1R1 : ActionsG × Heap :=
  (ActionsG.add_top c1S.1 c1A.2 c1A.1).toOption.getD default

def c1B : Nat × Heap := mkAction c1R1.2 "b" "T" "pb" false

def c1R2 : ActionsG × Heap :=
  (add_after c1R1.1 c1B.2 c1B.1 c1A.1 false true).toOption.getD default

/-- The abstract tree of the graph `c1R2`. -/
def c1T : ATree :=
  .mk 0 ⟨"root", "", [], 0, false, true, false, ""⟩
    [.mk 1 ⟨"a", "T", [], 1, true, false, false, "pa"⟩
      [.mk 2 ⟨"b", "T", [("a", ["Failed"])], 2, true, false, false, "pb"⟩ []]]

/-- C1 counterexample: cloning the graph in which `b` runs after `a`
only on failure produces a clone of `b` whose dependency entry maps the
same parent name `a` to the default required-state set
`["Succeeded"]` instead of the original `["Failed"]` — clone does not
preserve the required-state sets of the dependency map. -/
theorem c1_counterexample :
    ∃ (g2 : ActionsG) (h3 : Heap),
      deepcopyActions c1R2.2 c1R2.1 = .ok (g2, h3) ∧
      c1R2.1.nodes.lookup "b" = some 2 ∧
      (c1R2.2.get 2).runafter = [("a", ["Failed"])] ∧
      g2.nodes.lookup "b" = some 5 ∧
      (h3.get 5).runafter = [("a", ["Succeeded"])] :=
  ⟨_, _, rfl, rfl, rfl, rfl, rfl⟩

theorem c1_clone_semantics_witness :
    (∃ W : CloneWF c1R2.2 c1R2.1 c1T, True) ∧
    ∃ g2 h3, deepcopyActions c1R2.2 c1R2.1 = .ok (g2, h3) := by
  have hW : CloneWF c1R2.2 c1R2.1 c1T := by
    refine ⟨?_, ?_, ?_, ?_, ?_, ?_, ?_, ?_, ?_⟩ <;> decide
  obtain ⟨g2, h3, hok, _⟩ := c1_clone_semantics c1R2.2 c1R2.1 c1T hW
  exact ⟨⟨hW, trivial⟩, g2, h3, hok⟩

/-! ## The worklist invariant of the `__add__` merge loop -/

theorem mergeLoop_nil (fuel : Nat) (g : ActionsG) (h : Heap) :
    mergeLoop (fuel + 1) [] g h = .ok (g, h) := rfl

/-- One unfolding of `mergeLoop` on a skeleton node (the right operand's
sentinel): it is cloned but not inserted, and its children are pushed
beneath the current last-appended node. -/
theorem mergeLoop_cons_skel (fuel child : Nat) (p? : Option Nat)
    (stack : List (Nat × Option Nat)) (g : ActionsG) (h : Heap)
    (hsk : ((cloneNode h child).2.get child).isSkelton = true) :
    mergeLoop (fuel + 1) ((child, p?) :: stack) g h =
      mergeLoop fuel
        ((((cloneNode h child).2.get child).next_nodes).foldl
          (fun st c => (c, some g.last_update_node) :: st) stack)
        g (cloneNode h child).2 := by
  simp [mergeLoop, hsk]

theorem mergeLoop_cons_node (fuel child p : Nat)
    (stack : List (Nat × Option Nat)) (g : ActionsG) (h : Heap)
    (hsk : ((cloneNode h child).2.get child).isSkelton = false) :
    mergeLoop (fuel + 1) ((child, some p) :: stack) g h =
      (match add_after g (cloneNode h child).2 (cloneNode h child).1 p
          false false with
       | .error e => .error e
       | .ok gh =>
         mergeLoop fuel
           ((((cloneNode h child).2.get child).next_nodes).foldl
             (fun st c => (c, some (cloneNode h child).1) :: st) stack)
           gh.1 gh.2) := by
  simp only [mergeLoop, hsk, Bool.false_eq_true, if_false]
  cases add_after g (cloneNode h child).2 (cloneNode h child).1 p
      false false with
  | error e => rw [except_bind_err]
  | ok gh =>
    obtain ⟨g2, h2⟩ := gh
    rw [except_bind_ok]

/-- A pending work item of the merge loop: the original subtree of the
right operand still to be spliced in, the id of the merged-graph node
its clone must be inserted after, and the original parent annotation
(parent id, skeleton flag, name). -/
def mpendStack (pend : List (ATree × Nat × Nat × Bool × String)) :
    List (Nat × Option Nat) :=
  pend.map (fun x => (x.1.rootId, some x.2.1))

def mpendFlat (pend : List (ATree × Nat × Nat × Bool × String)) :
    List FEntry :=
  pend.flatMap (fun x => flatAnn (.par x.2.2.1 x.2.2.2.1 x.2.2.2.2) x.1)

def mpendSize (pend : List (ATree × Nat × Nat × Bool × String)) : Nat :=
  (pend.map (fun x => sizeT x.1)).sum

theorem mpendFlat_cons (x : ATree × Nat × Nat × Bool × String)
    (rest : List (ATree × Nat × Nat × Bool × String)) :
    mpendFlat (x :: rest) =
      flatAnn (.par x.2.2.1 x.2.2.2.1 x.2.2.2.2) x.1 ++ mpendFlat rest := rfl

theorem mpendStack_cons (x : ATree × Nat × Nat × Bool × String)
    (rest : List (ATree × Nat × Nat × Bool × String)) :
    mpendStack (x :: rest) = (x.1.rootId, some x.2.1) :: mpendStack rest :=
  rfl

theorem mpendSize_cons (x : ATree × Nat × Nat × Bool × String)
    (rest : List (ATree × Nat × Nat × Bool × String)) :
    mpendSize (x :: rest) = sizeT x.1 + mpendSize rest := by
  show (List.map _ (x :: rest)).sum = _
  rw [List.map_cons, List.sum_cons]
  rfl

theorem mpendFlat_append (l l2 : List (ATree × Nat × Nat × Bool × String)) :
    mpendFlat (l ++ l2) = mpendFlat l ++ mpendFlat l2 := by
  show (l ++ l2).flatMap _ = _
  rw [List.flatMap_append]
  rfl

theorem mpendSize_append (l l2 : List (ATree × Nat × Nat × Bool × String)) :
    mpendSize (l ++ l2) = mpendSize l + mpendSize l2 := by
  show ((l ++ l2).map _).sum = _
  rw [List.map_append, List.sum_append]
  rfl

theorem mpendStack_append (l l2 : List (ATree × Nat × Nat × Bool × String)) :
    mpendStack (l ++ l2) = mpendStack l ++ mpendStack l2 := by
  show (l ++ l2).map _ = _
  rw [List.map_append]
  rfl

theorem mpendFlat_children (ts : List ATree) (p q : Nat) (sk : Bool)
    (nm : String) :
    (mpendFlat ((ts.map (fun u => (u, p, q, sk, nm))).reverse)).Perm
      (flatAnnL (.par q sk nm) ts) := by
  show ((ts.map (fun u => (u, p, q, sk, nm))).reverse.flatMap _).Perm _
  refine List.Perm.trans
    (List.Perm.flatMap_right _ (List.reverse_perm _)) ?_
  rw [List.flatMap_map, flatAnnL_eq_flatMap]

theorem mpendSize_children (ts : List ATree) (p q : Nat) (sk : Bool)
    (nm : String) :
    mpendSize ((ts.map (fun u => (u, p, q, sk, nm))).reverse) = sizeTL ts := by
  show ((ts.map (fun u => (u, p, q, sk, nm))).reverse.map _).sum = _
  rw [List.map_reverse, List.sum_reverse, List.map_map, sizeTL_eq_sum]
  rfl

theorem mpendStack_children (ts : List ATree) (p q : Nat) (sk : Bool)
    (nm : String) :
    mpendStack ((ts.map (fun u => (u, p, q, sk, nm))).reverse) =
      ((ts.map ATree.rootId).map (fun c => (c, some p))).reverse := by
  show ((ts.map (fun u => (u, p, q, sk, nm))).reverse.map _) = _
  rw [List.map_reverse, List.map_map, List.map_map]
  rfl

/-- Association lookup on natural-number keys finds a present binding
when the keys are duplicate-free. -/
theorem natLookup_of_mem_nodup :
    ∀ (l : List (Nat × Nat)) (k v : Nat),
    (l.map Prod.fst).Nodup → (k, v) ∈ l → l.lookup k = some v := by
  intro l
  induction l with
  | nil => intro k v _ hm; cases hm
  | cons pr l ih =>
    obtain ⟨a, bv⟩ := pr
    intro k v hnd hm
    rw [List.map_cons] at hnd
    rcases List.mem_cons.mp hm with h1 | h2
    · cases h1
      simp [List.lookup]
    · have hkne : k ≠ a := by
        intro hkk
        have hmem : k ∈ l.map Prod.fst := List.mem_map_of_mem Prod.fst h2
        exact (List.nodup_cons.mp hnd).1 (hkk ▸ hmem)
      have hk : (k == a) = false := by simpa using hkne
      rw [List.lookup, hk]
      exact ih k v (List.nodup_cons.mp hnd).2 h2

/-- The facts recorded for every processed node of the merge loop: the
original entry, its clone id and the merged-graph id of the node the
clone was inserted after. The clone is fresh (at or above `B0`),
registered, keeps the type tag, payload and skeleton flag, draws a
fresh metadata id (at or above `U0`), and its runafter map is exactly
the insertion parent's current name mapped to the default state list;
the insertion parent is `lastA` when the original parent was the right
operand's sentinel (`rootBid`), and the clone of the original parent
otherwise. -/
def MDone (h : Heap) (g : ActionsG) (B0 U0 lastA rootBid : Nat)
    (done : List (FEntry × Nat × Nat)) : Prop :=
  ∀ d ∈ done,
    B0 ≤ d.2.1 ∧ d.2.1 < h.store.length ∧
    d.2.1 ∈ regIds g ∧
    (h.get d.2.1).atype = d.1.info.atype ∧
    (h.get d.2.1).payload = d.1.info.payload ∧
    (h.get d.2.1).isSkelton = d.1.info.isSkelton ∧
    U0 ≤ (h.get d.2.1).metadataId ∧
    (h.get d.2.1).runafter = [((h.get d.2.2).action_name, ["Succeeded"])] ∧
    B0 ≤ d.2.2 ∧ d.2.2 < h.store.length ∧ d.2.2 ≠ d.2.1 ∧
    (match d.1.pa with
     | .root => False
     | .par pid _ _ =>
       (pid = rootBid ∧ d.2.2 = lastA) ∨
       (∃ d2 ∈ done, d2.1.id = pid ∧ d2.2.1 = d.2.2))

/-- The worklist invariant of the merge loop of `Actions.__add__`: given
the non-sentinel entries `RESTB` of the right operand's tree, split into
processed entries (`done`, each with its clone and insertion parent) and
pending subtrees (`pend`, each with its merge parent and original
annotation), the loop succeeds, clones every pending node exactly once,
inserts each clone after its merge parent with the default state list,
and touches no object below `B0`. -/
theorem mergeLoop_inv : ∀ (fuel : Nat)
    (pend : List (ATree × Nat × Nat × Bool × String))
    (done : List (FEntry × Nat × Nat))
    (g : ActionsG) (h : Heap)
    (B0 U0 rootBid lastA : Nat) (RESTB : List FEntry) (NM : String),
    (∀ e ∈ RESTB, e.id < B0 ∧ e.info.isSkelton = false) →
    (∀ e ∈ RESTB, e.info.isInitVariable = true → g.is_root_actions = true) →
    ((mpendFlat pend ++ done.map Prod.fst).Perm RESTB) →
    (∀ e ∈ mpendFlat pend, h.get e.id = e.info.toNode e.childIds) →
    B0 ≤ h.store.length →
    U0 ≤ h.uuidCounter →
    (∀ x ∈ regIds g, x < h.store.length) →
    lastA < h.store.length →
    B0 ≤ lastA →
    (h.get lastA).action_name = NM →
    (h.get lastA).isSkelton = false →
    MDone h g B0 U0 lastA rootBid done →
    (∀ x ∈ pend,
      x.2.1 ∈ regIds g ∧ (h.get x.2.1).isSkelton = false ∧
      B0 ≤ x.2.1 ∧ x.2.1 < h.store.length ∧
      ((x.2.2.1 = rootBid ∧ x.2.1 = lastA) ∨
        (∃ d2 ∈ done, d2.1.id = x.2.2.1 ∧ d2.2.1 = x.2.1))) →
    mpendSize pend < fuel →
    ∃ (g2 : ActionsG) (h2 : Heap) (dnew : List (FEntry × Nat × Nat)),
      mergeLoop fuel (mpendStack pend) g h = .ok (g2, h2) ∧
      g2.is_root_actions = g.is_root_actions ∧
      (∀ x, x < B0 → h2.get x = h.get x) ∧
      ((done ++ dnew).map Prod.fst).Perm
        (done.map Prod.fst ++ mpendFlat pend) ∧
      MDone h2 g2 B0 U0 lastA rootBid (done ++ dnew) ∧
      (h2.get lastA).action_name = NM ∧
      h2.store.length = h.store.length + mpendSize pend ∧
      h2.uuidCounter = h.uuidCounter + mpendSize pend := by
  intro fuel
  induction fuel with
  | zero =>
    intro pend done g h B0 U0 rootBid lastA RESTB NM _ _ _ _ _ _ _ _ _ _ _ _
      _ hfuel
    omega
  | succ fuel ih =>
    intro pend done g h B0 U0 rootBid lastA RESTB NM hRB hinit hperm hmid
      hB0 hU0 hregb hlastlt hlastB0 hlastnm hlastsk hdone hparf hfuel
    cases pend with
    | nil =>
      refine ⟨g, h, [], mergeLoop_nil fuel g h, rfl, fun x _ => rfl, ?_,
        ?_, hlastnm, ?_, ?_⟩
      · rw [List.append_nil]
        show (done.map Prod.fst).Perm (done.map Prod.fst ++ mpendFlat [])
        rw [show mpendFlat [] = [] from rfl, List.append_nil]
      · rw [List.append_nil]
        exact hdone
      · show h.store.length = h.store.length + mpendSize []
        rfl
      · show h.uuidCounter = h.uuidCounter + mpendSize []
        rfl
    | cons x rest =>
      obtain ⟨t, p, opid, osk, onm⟩ := x
      have hsplit : mpendFlat ((t, p, opid, osk, onm) :: rest) =
          flatAnn (.par opid osk onm) t ++ mpendFlat rest := rfl
      have hflat : flatAnn (.par opid osk onm) t =
          (⟨.par opid osk onm, t.rootId, t.info,
            t.children.map ATree.rootId⟩ : FEntry) ::
            flatAnnL (.par t.rootId t.info.isSkelton t.info.action_name)
              t.children := flatAnn_eq_cons _ t
      set e0 : FEntry :=
        ⟨.par opid osk onm, t.rootId, t.info, t.children.map ATree.rootId⟩
        with he0
      have hide0 : e0.id = t.rootId := rfl
      obtain ⟨px1, px2, px3, px4, px5⟩ :=
        hparf (t, p, opid, osk, onm) (List.mem_cons_self _ _)
      dsimp only at px1 px2 px3 px4 px5
      have he0pf : e0 ∈ mpendFlat ((t, p, opid, osk, onm) :: rest) := by
        rw [hsplit, hflat]
        exact List.mem_append_left _ (List.mem_cons_self _ _)
      have he0RB : e0 ∈ RESTB :=
        hperm.mem_iff.mp (List.mem_append_left _ he0pf)
      have he0lt : e0.id < B0 := (hRB e0 he0RB).1
      have he0sk : e0.info.isSkelton = false := (hRB e0 he0RB).2
      have hhnew : h.get t.rootId = e0.info.toNode e0.childIds :=
        hmid e0 he0pf
      -- the clone
      set c := h.store.length with hc
      set hB := (cloneNode h t.rootId).2 with hhB
      have hBlen : hB.store.length = h.store.length + 1 :=
        cloneNode_length h t.rootId
      have hBuuid : hB.uuidCounter = h.uuidCounter + 1 :=
        cloneNode_uuid h t.rootId
      have hBlt : ∀ y, y < h.store.length → hB.get y = h.get y :=
        fun y hy => cloneNode_get_lt h t.rootId y hy
      have hBchild : hB.get t.rootId = e0.info.toNode e0.childIds := by
        rw [hBlt t.rootId (by omega), hhnew]
      have hBsk : (hB.get t.rootId).isSkelton = false := by
        rw [hBchild]
        exact he0sk
      have hBc : hB.get c =
          { h.get t.rootId with
            metadataId := h.uuidCounter
            runafter := []
            next_nodes := []
            have_parent_node := false } := cloneNode_get_new h t.rootId
      -- the insertion
      obtain ⟨g4, h4, haa, hg4root, hg4flag, hg4last, hg4nodes, hh4new,
        hh4frame, ⟨nn4, hh4pshape⟩, _, hh4len, hh4uuid⟩ :=
        add_after_fresh_spec g hB c p false false
          (by rw [hBlen]; omega)
          (by intro hmm; have := hregb c hmm; omega)
          (by rw [hBc])
          px1
          (by
            rw [hBc]
            show (h.get t.rootId).isInitVariable = true → _
            rw [hhnew]
            exact hinit e0 he0RB)
          (by omega)
      have hg4ids : regIds g4 = regIds g ++ [c] := by
        show g4.nodes.map Prod.snd = _
        have hfr : pyRename (regKeys g) ((hB.get c).action_name) ∉
            g.nodes.map Prod.fst := pyRename_not_mem _ _
        rw [hg4nodes, dictSet_eq_append g.nodes _ c hfr, List.map_append]
        rfl
      -- combined per-field preservation for pre-existing objects
      have hBp : hB.get p = h.get p := hBlt p px4
      have hpres : ∀ y, y < h.store.length →
          (h4.get y).atype = (h.get y).atype ∧
          (h4.get y).payload = (h.get y).payload ∧
          (h4.get y).isSkelton = (h.get y).isSkelton ∧
          (h4.get y).metadataId = (h.get y).metadataId ∧
          (h4.get y).runafter = (h.get y).runafter ∧
          (h4.get y).action_name = (h.get y).action_name := by
        intro y hy
        by_cases hyp : y = p
        · subst hyp
          rw [hh4pshape, hBp]
          exact ⟨rfl, rfl, rfl, rfl, rfl, rfl⟩
        · rw [hh4frame y (by omega) hyp, hBlt y hy]
          exact ⟨rfl, rfl, rfl, rfl, rfl, rfl⟩
      have hfull : ∀ y, y < h.store.length → y ≠ p → h4.get y = h.get y := by
        intro y hy hyp
        rw [hh4frame y (by omega) hyp, hBlt y hy]
      -- the clone's final state
      have hh4c : h4.get c =
          { action_name := pyRename (regKeys g) (hB.get c).action_name,
            atype := e0.info.atype,
            runafter := [((h.get p).action_name, ["Succeeded"])],
            metadataId := h.uuidCounter,
            next_nodes := [],
            have_parent_node := true,
            isSkelton := e0.info.isSkelton,
            isInitVariable := e0.info.isInitVariable,
            payload := e0.info.payload } := by
        rw [hh4new, hBc, hBp, hhnew]
        rw [show (h.get p).isSkelton = false from px2]
        rfl
      -- children pushed beneath the clone
      set cpend := (t.children.map
        (fun u => (u, c, t.rootId, t.info.isSkelton, t.info.action_name))).reverse
        with hcpend
      have hcflat : (mpendFlat cpend).Perm
          (flatAnnL (.par t.rootId t.info.isSkelton t.info.action_name)
            t.children) := mpendFlat_children _ _ _ _ _
      have hstack4 : (((cloneNode h t.rootId).2.get t.rootId).next_nodes).foldl
          (fun st c2 => (c2, some (cloneNode h t.rootId).1) :: st)
          (mpendStack rest) = mpendStack (cpend ++ rest) := by
        rw [show (cloneNode h t.rootId).2 = hB from rfl, hBchild]
        show (t.children.map ATree.rootId).foldl _ _ = _
        rw [foldl_push, mpendStack_append, hcpend, mpendStack_children]
        rfl
      set d0 : FEntry × Nat × Nat := (e0, c, p) with hd0
      -- apply the induction hypothesis
      obtain ⟨g2, h2, dnew, hloop, hg2flag, hframe2, hperm2, hdone2,
        hlast2, hlen2, huuid2⟩ :=
        ih (cpend ++ rest) (done ++ [d0]) g4 h4 B0 U0 rootBid lastA RESTB NM
          hRB
          (by
            intro e he hi
            rw [hg4flag]
            exact hinit e he hi)
          (by
            have hP1 : (mpendFlat (cpend ++ rest) ++
                (done ++ [d0]).map Prod.fst).Perm
                (e0 :: (mpendFlat cpend ++ mpendFlat rest ++
                  done.map Prod.fst)) := by
              have heq : mpendFlat (cpend ++ rest) ++
                  (done ++ [d0]).map Prod.fst =
                  (mpendFlat cpend ++ mpendFlat rest ++ done.map Prod.fst)
                    ++ [e0] := by
                rw [mpendFlat_append, List.map_append]
                simp [List.append_assoc]
              rw [heq]
              exact List.perm_append_comm
            refine hP1.trans ?_
            have hP2 : (mpendFlat cpend ++ mpendFlat rest ++
                done.map Prod.fst).Perm
                (flatAnnL (.par t.rootId t.info.isSkelton
                  t.info.action_name) t.children ++ mpendFlat rest ++
                  done.map Prod.fst) :=
              List.Perm.append_right _ (List.Perm.append_right _ hcflat)
            refine (hP2.cons e0).trans ?_
            have heq2 : e0 :: (flatAnnL (.par t.rootId t.info.isSkelton
                t.info.action_name) t.children ++ mpendFlat rest ++
                done.map Prod.fst) =
                mpendFlat ((t, p, opid, osk, onm) :: rest) ++
                  done.map Prod.fst := by
              rw [hsplit, hflat]
              simp [List.append_assoc]
            rw [heq2]
            exact hperm)
          (by
            intro e he
            rw [mpendFlat_append] at he
            have hbnd : e ∈ RESTB := by
              apply hperm.mem_iff.mp
              apply List.mem_append_left
              rw [hsplit, hflat]
              rcases List.mem_append.mp he with h5 | h5
              · exact List.mem_append_left _
                  (List.mem_cons_of_mem _ (hcflat.mem_iff.mp h5))
              · exact List.mem_append_right _ h5
            have hlt : e.id < B0 := (hRB e hbnd).1
            rw [hfull e.id (by omega) (by omega)]
            apply hmid
            rw [hsplit, hflat]
            rcases List.mem_append.mp he with h5 | h5
            · exact List.mem_append_left _
                (List.mem_cons_of_mem _ (hcflat.mem_iff.mp h5))
            · exact List.mem_append_right _ h5)
          (by rw [hh4len, hBlen]; omega)
          (by rw [hh4uuid, hBuuid]; omega)
          (by
            intro y hy
            rw [hg4ids] at hy
            rcases List.mem_append.mp hy with h5 | h5
            · have := hregb y h5
              rw [hh4len, hBlen]
              omega
            · rw [List.mem_singleton] at h5
              subst h5
              rw [hh4len, hBlen]
              omega)
          (by rw [hh4len, hBlen]; omega)
          hlastB0
          (by
            have := (hpres lastA hlastlt).2.2.2.2.2
            rw [this, hlastnm])
          (by
            have := (hpres lastA hlastlt).2.2.1
            rw [this, hlastsk])
          (by
            intro d hd
            rcases List.mem_append.mp hd with h5 | h5
            · obtain ⟨q1, q2, q3, q4, q5, q6, q7, q8, q9, q10, q11, q12⟩ :=
                hdone d h5
              have hc1 := hpres d.2.1 q2
              have hc2 := hpres d.2.2 q10
              refine ⟨q1, by rw [hh4len, hBlen]; omega, ?_, ?_, ?_, ?_, ?_,
                ?_, q9, by rw [hh4len, hBlen]; omega, q11, ?_⟩
              · rw [hg4ids]
                exact List.mem_append_left _ q3
              · rw [hc1.1, q4]
              · rw [hc1.2.1, q5]
              · rw [hc1.2.2.1, q6]
              · rw [hc1.2.2.2.1]
                exact q7
              · rw [hc1.2.2.2.2.1, q8, hc2.2.2.2.2.2]
              · cases hdp : d.1.pa with
                | root => rw [hdp] at q12; exact q12.elim
                | par pid skd nmd =>
                  rw [hdp] at q12
                  rcases q12 with ⟨h6, h7⟩ | ⟨d2, hd2, h6, h7⟩
                  · exact Or.inl ⟨h6, h7⟩
                  · exact Or.inr ⟨d2, List.mem_append_left _ hd2, h6, h7⟩
            · rw [List.mem_singleton] at h5
              subst h5
              refine ⟨hB0, ?_, ?_, ?_, ?_, ?_, ?_, ?_, px3, ?_, ?_, ?_⟩
              · show (c : Nat) < h4.store.length
                rw [hh4len, hBlen]
                omega
              · rw [hg4ids]
                exact List.mem_append_right _ (List.mem_singleton_self _)
              · show (h4.get c).atype = e0.info.atype
                rw [hh4c]
              · show (h4.get c).payload = e0.info.payload
                rw [hh4c]
              · show (h4.get c).isSkelton = e0.info.isSkelton
                rw [hh4c]
              · show U0 ≤ (h4.get c).metadataId
                rw [hh4c]
                show U0 ≤ h.uuidCounter
                omega
              · show (h4.get c).runafter =
                  [((h4.get p).action_name, ["Succeeded"])]
                rw [hh4c, (hpres p px4).2.2.2.2.2]
              · show (p : Nat) < h4.store.length
                rw [hh4len, hBlen]
                omega
              · show (p : Nat) ≠ c
                omega
              · show (match e0.pa with
                  | PAnn.root => False
                  | PAnn.par pid _ _ =>
                    (pid = rootBid ∧ (p : Nat) = lastA) ∨
                    (∃ d2 ∈ done ++ [d0], d2.1.id = pid ∧ d2.2.1 = p))
                show (opid = rootBid ∧ (p : Nat) = lastA) ∨
                  (∃ d2 ∈ done ++ [d0], d2.1.id = opid ∧ d2.2.1 = p)
                rcases px5 with ⟨h6, h7⟩ | ⟨d2, hd2, h6, h7⟩
                · exact Or.inl ⟨h6, h7⟩
                · exact Or.inr ⟨d2, List.mem_append_left _ hd2, h6, h7⟩)
          (by
            intro y hy
            rcases List.mem_append.mp hy with h5 | h5
            · rw [hcpend, List.mem_reverse] at h5
              obtain ⟨u, hu, rfl⟩ := List.mem_map.mp h5
              refine ⟨?_, ?_, hB0, ?_, ?_⟩
              · show (c : Nat) ∈ regIds g4
                rw [hg4ids]
                exact List.mem_append_right _ (List.mem_singleton_self _)
              · show (h4.get c).isSkelton = false
                rw [hh4c]
                exact he0sk
              · show (c : Nat) < h4.store.length
                rw [hh4len, hBlen]
                omega
              · refine Or.inr ⟨d0, List.mem_append_right _
                  (List.mem_singleton_self _), rfl, rfl⟩
            · obtain ⟨q1, q2, q3, q4, q5⟩ := hparf y (List.mem_cons_of_mem _ h5)
              refine ⟨?_, ?_, q3, by rw [hh4len, hBlen]; omega, ?_⟩
              · rw [hg4ids]
                exact List.mem_append_left _ q1
              · rw [(hpres y.2.1 q4).2.2.1]
                exact q2
              · rcases q5 with ⟨h6, h7⟩ | ⟨d2, hd2, h6, h7⟩
                · exact Or.inl ⟨h6, h7⟩
                · exact Or.inr ⟨d2, List.mem_append_left _ hd2, h6, h7⟩)
          (by
            rw [mpendSize_append, hcpend, mpendSize_children]
            have hps : mpendSize ((t, p, opid, osk, onm) :: rest) =
                sizeT t + mpendSize rest := mpendSize_cons _ _
            rw [sizeT_eq] at hps
            omega)
      -- assemble
      refine ⟨g2, h2, d0 :: dnew, ?_, ?_, ?_, ?_, ?_, hlast2, ?_, ?_⟩
      · show mergeLoop (fuel + 1)
          ((t.rootId, some p) :: mpendStack rest) g h = .ok (g2, h2)
        have haa2 : add_after g (cloneNode h t.rootId).2
            (cloneNode h t.rootId).1 p false false = .ok (g4, h4) := haa
        rw [mergeLoop_cons_node fuel t.rootId p (mpendStack rest) g h
          hBsk, haa2]
        show mergeLoop fuel
          ((((cloneNode h t.rootId).2.get t.rootId).next_nodes).foldl
            (fun st c2 => (c2, some (cloneNode h t.rootId).1) :: st)
            (mpendStack rest)) g4 h4 = .ok (g2, h2)
        rw [hstack4]
        exact hloop
      · rw [hg2flag, hg4flag]
      · intro y hy
        rw [hframe2 y hy, hfull y (by omega) (by omega)]
      · have heq : done ++ d0 :: dnew = (done ++ [d0]) ++ dnew := by
          simp
        rw [heq]
        refine hperm2.trans ?_
        rw [List.map_append]
        show (done.map Prod.fst ++ [e0]) ++ mpendFlat (cpend ++ rest)
          |>.Perm (done.map Prod.fst ++
            mpendFlat ((t, p, opid, osk, onm) :: rest))
        have hP3 : ((done.map Prod.fst ++ [e0]) ++
            mpendFlat (cpend ++ rest)).Perm
            (done.map Prod.fst ++ (e0 :: mpendFlat (cpend ++ rest))) := by
          rw [List.append_assoc]
          rfl
        refine hP3.trans ?_
        refine List.Perm.append_left _ ?_
        have hP4 : (e0 :: mpendFlat (cpend ++ rest)).Perm
            (e0 :: (flatAnnL (.par t.rootId t.info.isSkelton
              t.info.action_name) t.children ++ mpendFlat rest)) := by
          refine List.Perm.cons e0 ?_
          rw [mpendFlat_append]
          exact List.Perm.append_right _ hcflat
        refine hP4.trans ?_
        rw [hsplit, hflat]
        rfl
      · have heq : done ++ d0 :: dnew = (done ++ [d0]) ++ dnew := by
          simp
        rw [heq]
        exact hdone2
      · rw [hlen2, hh4len, hBlen]
        have hps : mpendSize ((t, p, opid, osk, onm) :: rest) =
            sizeT t + mpendSize rest := mpendSize_cons _ _
        rw [hps, sizeT_eq, mpendSize_append, hcpend, mpendSize_children]
        omega
      · rw [huuid2, hh4uuid, hBuuid]
        have hps : mpendSize ((t, p, opid, osk, onm) :: rest) =
            sizeT t + mpendSize rest := mpendSize_cons _ _
        rw [hps, sizeT_eq, mpendSize_append, hcpend, mpendSize_children]
        omega

/-- C2. `Actions.__add__` on two well-formed graphs `A` and `B` whose
last-appended `A` node is a real action (not the sentinel): the merge
succeeds and yields a new graph whose root-level flag is the OR of the
operands' flags, while every object of `A` and `B` is left unmodified.
Exactly the non-sentinel nodes of `B` are cloned; each clone of a
top-level `B` node (parent was `B`'s sentinel) carries a dependency map
referencing, by name, the clone of `A`'s last-appended node with
required-state set `["Succeeded"]`, and every other cloned `B` node
references the clone of its original parent in `B`, again with
`["Succeeded"]`. -/
theorem c2_merge_semantics (h : Heap) (a b : ActionsG) (ta tb : ATree)
    (Wa : CloneWF h a ta) (Wb : CloneWF h b tb)
    (hlastnsk : (h.get a.last_update_node).isSkelton = false)
    (hskelB : ∀ e ∈ flatAnnL (.par tb.rootId tb.info.isSkelton
      tb.info.action_name) tb.children, e.info.isSkelton = false) :
    ∃ (g2 : ActionsG) (h2 : Heap) (lastA : Nat)
      (doneF : List (FEntry × Nat × Nat)),
      addActions h a b = .ok (g2, h2) ∧
      g2.is_root_actions = (a.is_root_actions || b.is_root_actions) ∧
      (∀ x, x < h.store.length → h2.get x = h.get x) ∧
      h.store.length ≤ lastA ∧
      (∃ eo ∈ flatAnn .root ta, eo.id = a.last_update_node ∧
        (h2.get lastA).action_name = eo.info.action_name) ∧
      (doneF.map Prod.fst).Perm (flatAnnL (.par tb.rootId tb.info.isSkelton
        tb.info.action_name) tb.children) ∧
      (∀ d ∈ doneF,
        h.store.length ≤ d.2.1 ∧
        d.2.1 ∈ regIds g2 ∧
        (h2.get d.2.1).atype = d.1.info.atype ∧
        (h2.get d.2.1).payload = d.1.info.payload ∧
        (h2.get d.2.1).isSkelton = d.1.info.isSkelton ∧
        h.uuidCounter ≤ (h2.get d.2.1).metadataId ∧
        (h2.get d.2.1).runafter =
          [((h2.get d.2.2).action_name, ["Succeeded"])] ∧
        (match d.1.pa with
         | .root => False
         | .par pid _ _ =>
           if pid = tb.rootId then d.2.2 = lastA
           else ∃ d2 ∈ doneF, d2.1.id = pid ∧ d2.2.1 = d.2.2)) := by
  -- phase 1: clone the left operand
  obtain ⟨gA, hA, doneA, hok, hrootA, hflagA, hpermA, hnodesA, hrepA,
    ⟨eo, ef, heo, hef, heoid, hlid, hefnm, hefsk, _, _⟩, hlregA, hbndA,
    hframeA, hlenA, huuidA⟩ := deepcopy_spec h a ta Wa
  set lastA := gA.last_update_node with hlastAdef
  set g1 : ActionsG :=
    { gA with is_root_actions := gA.is_root_actions || b.is_root_actions }
    with hg1
  have hlab := hbndA lastA hlregA
  have hgetlast : hA.get lastA = ef.info.toNode ef.childIds := by
    rw [hlid]
    exact hrepA ef hef
  have hefsk2 : ef.info.isSkelton = false := by
    rw [hefsk]
    have h6 : h.get eo.id = eo.info.toNode eo.childIds := (Wa.rep eo heo).2
    have h7 : (h.get eo.id).isSkelton = eo.info.isSkelton := by
      rw [h6]
      rfl
    rw [← h7, heoid]
    exact hlastnsk
  -- facts about the right operand
  have hmemB : ∀ e ∈ flatAnnL (.par tb.rootId tb.info.isSkelton
      tb.info.action_name) tb.children, e ∈ flatAnn .root tb := by
    intro e he
    rw [flatAnn_eq_cons]
    exact List.mem_cons_of_mem _ he
  have hsizeB : sizeT tb ≤ h.store.length := by
    have h5 := nodup_lt_length_le ((flatAnn .root tb).map FEntry.id)
      h.store.length Wb.ids_nodup (by
        intro x hx
        obtain ⟨e, he, rfl⟩ := List.mem_map.mp hx
        exact (Wb.rep e he).1)
    rwa [List.length_map, length_flatAnn] at h5
  have hrootlt : tb.rootId < h.store.length :=
    (Wb.rep _ (self_mem_flatAnn .root tb)).1
  have hgetrootB : h.get tb.rootId =
      tb.info.toNode (tb.children.map ATree.rootId) :=
    (Wb.rep _ (self_mem_flatAnn .root tb)).2
  have hrootnotmem : tb.rootId ∉ (flatAnnL (.par tb.rootId tb.info.isSkelton
      tb.info.action_name) tb.children).map FEntry.id := by
    have h5 := Wb.ids_nodup
    rw [flatAnn_eq_cons, List.map_cons] at h5
    exact (List.nodup_cons.mp h5).1
  -- the剥skeleton step of the merge loop
  have hrootltA : tb.rootId < hA.store.length := by omega
  have hB1len : (cloneNode hA tb.rootId).2.store.length =
      hA.store.length + 1 := cloneNode_length _ _
  have hB1uuid : (cloneNode hA tb.rootId).2.uuidCounter =
      hA.uuidCounter + 1 := cloneNode_uuid _ _
  have hB1lt : ∀ y, y < hA.store.length →
      (cloneNode hA tb.rootId).2.get y = hA.get y :=
    fun y hy => cloneNode_get_lt _ _ y hy
  have hB1root : (cloneNode hA tb.rootId).2.get tb.rootId =
      tb.info.toNode (tb.children.map ATree.rootId) := by
    rw [hB1lt tb.rootId hrootltA, hframeA tb.rootId hrootlt, hgetrootB]
  have hskroot : ((cloneNode hA tb.rootId).2.get tb.rootId).isSkelton
      = true := by
    rw [hB1root]
    exact Wb.root_skel
  have heq1 : addActions h a b =
      mergeLoop (hA.store.length + 1) [(b.root_node, none)] g1 hA := by
    unfold addActions
    rw [hok, except_bind_ok]
  set pend0 := (tb.children.map
    (fun u => (u, lastA, tb.rootId, tb.info.isSkelton,
      tb.info.action_name))).reverse with hpend0
  have hstack : (((cloneNode hA tb.rootId).2.get tb.rootId).next_nodes).foldl
      (fun st c => (c, some g1.last_update_node) :: st) [] =
      mpendStack pend0 := by
    rw [hB1root]
    show (tb.children.map ATree.rootId).foldl _ [] = _
    rw [foldl_push, List.append_nil, hpend0, mpendStack_children]
  have hlastskB1 : ((cloneNode hA tb.rootId).2.get lastA).isSkelton
      = false := by
    rw [hB1lt lastA hlab.2, hgetlast]
    exact hefsk2
  have hlastnmB1 : ((cloneNode hA tb.rootId).2.get lastA).action_name
      = ef.info.action_name := by
    rw [hB1lt lastA hlab.2, hgetlast]
    rfl
  have hp0 : (mpendFlat pend0).Perm
      (flatAnnL (.par tb.rootId tb.info.isSkelton tb.info.action_name)
        tb.children) := by
    rw [hpend0]
    exact mpendFlat_children _ _ _ _ _
  have hps0 : mpendSize pend0 = sizeTL tb.children := by
    rw [hpend0]
    exact mpendSize_children _ _ _ _ _
  have hsz : sizeT tb = sizeTL tb.children + 1 := sizeT_eq tb
  -- phase 2: the worklist invariant over the non-sentinel nodes of `b`
  obtain ⟨g2, h2, dnew, hloop, hflag2, hframe2, hperm2, hdone2, hlast2,
    hlen2, huuid2⟩ :=
    mergeLoop_inv hA.store.length pend0 [] g1 (cloneNode hA tb.rootId).2
      h.store.length h.uuidCounter tb.rootId lastA
      (flatAnnL (.par tb.rootId tb.info.isSkelton tb.info.action_name)
        tb.children) ef.info.action_name
      (fun e he => ⟨(Wb.rep e (hmemB e he)).1, hskelB e he⟩)
      (by
        intro e he hi
        show (gA.is_root_actions || b.is_root_actions) = true
        rw [Wb.init_root e (hmemB e he) hi, Bool.or_true])
      (by
        rw [List.map_nil, List.append_nil]
        exact hp0)
      (by
        intro e he
        have heB := hp0.mem_iff.mp he
        have helt : e.id < h.store.length := (Wb.rep e (hmemB e heB)).1
        rw [hB1lt e.id (by omega), hframeA e.id helt]
        exact (Wb.rep e (hmemB e heB)).2)
      (by omega)
      (by omega)
      (by
        intro x hx
        have := hbndA x hx
        omega)
      (by omega)
      hlab.1
      hlastnmB1
      hlastskB1
      (by
        intro d hd
        exact absurd hd (List.not_mem_nil d))
      (by
        intro x hx
        rw [hpend0, List.mem_reverse] at hx
        obtain ⟨u, hu, rfl⟩ := List.mem_map.mp hx
        refine ⟨hlregA, hlastskB1, hlab.1, ?_, Or.inl ⟨rfl, rfl⟩⟩
        show (lastA : Nat) < (cloneNode hA tb.rootId).2.store.length
        rw [hB1len]
        omega)
      (by omega)
  have hpermF : (dnew.map Prod.fst).Perm
      (flatAnnL (.par tb.rootId tb.info.isSkelton tb.info.action_name)
        tb.children) := by
    have h5 := hperm2
    rw [List.nil_append, List.map_nil, List.nil_append] at h5
    exact h5.trans hp0
  refine ⟨g2, h2, lastA, dnew, ?_, ?_, ?_, hlab.1,
    ⟨eo, heo, heoid, by rw [hlast2, hefnm]⟩, hpermF, ?_⟩
  · -- the computation succeeds
    rw [heq1, show b.root_node = tb.rootId from Wb.root_id.symm,
      mergeLoop_cons_skel hA.store.length tb.rootId none [] g1 hA hskroot,
      hstack]
    exact hloop
  · -- the root-level flag is the OR of the operands' flags
    rw [hflag2]
    show (gA.is_root_actions || b.is_root_actions) = _
    rw [hflagA]
  · -- every pre-existing object is unchanged
    intro x hx
    rw [hframe2 x hx, hB1lt x (by omega), hframeA x hx]
  · -- the per-clone facts
    intro d hd
    obtain ⟨q1, _, q3, q4, q5, q6, q7, q8, _, _, _, q12⟩ := hdone2 d hd
    refine ⟨q1, q3, q4, q5, q6, q7, q8, ?_⟩
    cases hdp : d.1.pa with
    | root =>
      rw [hdp] at q12
      exact q12
    | par pid skd nmd =>
      rw [hdp] at q12
      show if pid = tb.rootId then d.2.2 = lastA
        else ∃ d2 ∈ dnew, d2.1.id = pid ∧ d2.2.1 = d.2.2
      by_cases hb : pid = tb.rootId
      · rw [if_pos hb]
        rcases q12 with ⟨_, h7⟩ | ⟨d2, hd2, h6, _⟩
        · exact h7
        · exfalso
          apply hrootnotmem
          have hmem : d2.1.id ∈ (flatAnnL (.par tb.rootId tb.info.isSkelton
              tb.info.action_name) tb.children).map FEntry.id :=
            List.mem_map_of_mem _
              (hpermF.mem_iff.mp (List.mem_map_of_mem _ hd2))
          rw [h6, hb] at hmem
          exact hmem
      · rw [if_neg hb]
        rcases q12 with ⟨h6, _⟩ | ⟨d2, hd2, h6, h7⟩
        · exact absurd h6 hb
        · exact ⟨d2, hd2, h6, h7⟩

/-- An empty left operand `A` (nothing ever appended: the last-appended
pointer is the sentinel) and a right operand `B` with one top-level
node `b`. -/
def c2H0 : Heap := ⟨[], 0⟩

def c2eS : ActionsG × Heap := mkActions c2H0 false

def c2eSB : ActionsG × Heap := mkActions c2eS.2 false

def c2eB : Nat × Heap := mkAction c2eSB.2 "b" "T" "pb" false

def c2eR : ActionsG × Heap :=
  (ActionsG.add_top c2eSB.1 c2eB.2 c2eB.1).toOption.getD default

/-- C2 counterexample: merging an empty graph `A` with a graph `B`
holding one top-level node `b` produces a clone of `b` (registered
under id 6) whose dependency map is empty — it references no node at
all, rather than referencing the node corresponding to `A`'s
last-appended node with required-state set `["Succeeded"]` as the
claim states for every top-level node of `B`. -/
theorem c2_counterexample :
    ∃ (g2 : ActionsG) (h2 : Heap),
      addActions c2eR.2 c2eS.1 c2eR.1 = .ok (g2, h2) ∧
      c2eR.1.nodes.lookup "b" = some 2 ∧
      g2.nodes.lookup "b" = some 6 ∧
      (h2.get 6).runafter = [] :=
  ⟨_, _, rfl, rfl, rfl, rfl⟩

/-- A concrete non-degenerate merge: `A` holds one action `x`, `B` (a
root-level graph) holds one action `y`. -/
def c2SA : ActionsG × Heap := mkActions c2H0 false

def c2AX : Nat × Heap := mkAction c2SA.2 "x" "T" "px" false

def c2RA : ActionsG × Heap :=
  (ActionsG.add_top c2SA.1 c2AX.2 c2AX.1).toOption.getD default

def c2SB : ActionsG × Heap := mkActions c2RA.2 true

def c2BY : Nat × Heap := mkAction c2SB.2 "y" "T" "py" false

def c2RB : ActionsG × Heap :=
  (ActionsG.add_top c2SB.1 c2BY.2 c2BY.1).toOption.getD default

/-- The abstract tree of the graph `c2RA.1` in the final heap. -/
def c2TA : ATree :=
  .mk 0 ⟨"root", "", [], 0, false, true, false, ""⟩
    [.mk 1 ⟨"x", "T", [], 1, true, false, false, "px"⟩ []]

/-- The abstract tree of the graph `c2RB.1`. -/
def c2TB : ATree :=
  .mk 2 ⟨"root", "", [], 2, false, true, false, ""⟩
    [.mk 3 ⟨"y", "T", [], 3, true, false, false, "py"⟩ []]

theorem c2_merge_semantics_witness :
    (c2RB.2.get c2RA.1.last_update_node).isSkelton = false ∧
    ∃ (g2 : ActionsG) (h2 : Heap),
      addActions c2RB.2 c2RA.1 c2RB.1 = .ok (g2, h2) := by
  have hWa : CloneWF c2RB.2 c2RA.1 c2TA := by
    refine ⟨?_, ?_, ?_, ?_, ?_, ?_, ?_, ?_, ?_⟩ <;> decide
  have hWb : CloneWF c2RB.2 c2RB.1 c2TB := by
    refine ⟨?_, ?_, ?_, ?_, ?_, ?_, ?_, ?_, ?_⟩ <;> decide
  obtain ⟨g2, h2, lastA, doneF, hok, _⟩ :=
    c2_merge_semantics c2RB.2 c2RA.1 c2RB.1 c2TA c2TB hWa hWb
      (by decide) (by decide)
  exact ⟨by decide, g2, h2, hok⟩
